import Mathlib

/-!
# HeCBench kernels: particles (cell-table reset and launch geometry),
# matrix-rotate (serial and parallel layer rotation), convolutionSeparable
# (row and column passes)

Conventions of the embedding.

* Device buffers are total maps from an index to a value (`Nat → α` or
  `Int → α`); a store is a pointwise update.
* `size_t` arithmetic (`uSnap`) is modelled on `Nat` with an explicit
  reduction modulo `2 ^ 64` where the source can wrap; a conversion between
  integer types is the reduction modulo the width of the target.
* `int` is 32 bits wide and signed overflow is undefined behaviour: the `int`
  index expressions of the rotation and convolution kernels are evaluated in
  `Option`, and a function that evaluates one that is not representable has
  no result (`none`).
* Next to each such function stands its `_exact` companion, the same code
  over the unbounded integers. The companions only serve the proofs: a
  theorem about the code first shows that, within the stated size bound, the
  code returns what its companion computes.
* `float` data is an arbitrary type `α`; the convolution only needs `0`, `+`
  and `*` on it, and no algebraic law is assumed, so the order of
  accumulation is the order of the source.
* A kernel launch runs its work-items one after another; where a theorem is
  about all schedules the order is an arbitrary list. Launches submitted to
  a queue take effect in the order of submission.
-/

namespace HeCBench


/-! ## Machine integers

`int` is 32 bits wide and `size_t` 64 bits. Conversions between integer
types are reductions modulo the width of the target. Signed overflow is
undefined behaviour: an `int` expression whose exact value is not
representable has no value (`none`), and a function that evaluates one has no
result. -/

/-- The largest `int`. -/
def INT_MAX : Int := 2147483647

/-- The smallest `int`. -/
def INT_MIN : Int := -2147483648

/-- Conversion of an `unsigned int` or `size_t` value to `int`: the value
modulo `2 ^ 32` taken in `[INT_MIN, INT_MAX]`. -/
def toInt (u : Nat) : Int := ((u : Int) + 2147483648) % 4294967296 - 2147483648

/-- Conversion of an `int` to `size_t`: sign extension, that is the value
modulo `2 ^ 64`. -/
def toSizeT (i : Int) : Nat := (i % 18446744073709551616).toNat

/-- The value of an `int` expression whose exact value is `v`. -/
def int32 (v : Int) : Option Int := if INT_MIN ≤ v ∧ v ≤ INT_MAX then some v else none

/-- The `int` sum `a + b`. -/
def iadd (a b : Option Int) : Option Int := do
  let x ← a
  let y ← b
  int32 (x + y)

/-- The `int` difference `a - b`. -/
def isub (a b : Option Int) : Option Int := do
  let x ← a
  let y ← b
  int32 (x - y)

/-- The `int` product `a * b`. -/
def imul (a b : Option Int) : Option Int := do
  let x ← a
  let y ← b
  int32 (x * y)

/-- The `int` index expression `a * n + b` of non-negative `int` operands:
the product, then the sum, each required to be at most `INT_MAX`. -/
def intCell (a n b : Nat) : Option Nat :=
  if a * n ≤ 2147483647 then
    if a * n + b ≤ 2147483647 then some (a * n + b) else none
  else none

/-! ## particles-sycl/particles.cpp -/

/-- Pointwise store into a device buffer: `d[k] = v`. -/
def store {β : Type} (d : Nat → β) (k : Nat) (v : β) : Nat → β :=
  fun j => if j = k then v else d j

/-- The work-group size: `static const size_t wgSize = 64`. -/
def wgSize : Nat := 64

/-- Number of values of `size_t` (64-bit). -/
def sizeMod : Nat := 2 ^ 64

/-- The function `uSnap` on `size_t`: `((a % b) == 0) ? a : (a - (a % b) + b)`.
The subtraction cannot go below zero; the addition is reduced modulo `2 ^ 64`. -/
def uSnap (a b : Nat) : Nat :=
  if a % b = 0 then a else (a - a % b + b) % sizeMod

/-- The same expression over the unbounded naturals, used to say that the
`size_t` computation did not wrap. -/
def uSnapExact (a b : Nat) : Nat :=
  if a % b = 0 then a else a - a % b + b

/-- Geometry of an `nd_range<1>` launch together with the capacity of the
local accessor the command group allocates (`0` when it allocates none). -/
structure Launch where
  globalSize : Nat
  localSize : Nat
  scratch : Nat

/-- Launch of `integrateSystem` (`const unsigned int numParticles`):
`gws = uSnap(numParticles, wgSize)`, `lws = wgSize`. -/
def integrateSystem_launch (numParticles : Nat) : Launch :=
  { globalSize := uSnap numParticles wgSize, localSize := wgSize, scratch := 0 }

/-- Launch of `calcHash`, whose parameter is `const int numParticles`:
`gws = uSnap(numParticles, wgSize)` with the `int` converted to `size_t`. -/
def calcHash_launch (numParticles : Int) : Launch :=
  { globalSize := uSnap (toSizeT numParticles) wgSize, localSize := wgSize, scratch := 0 }

/-- Launch of `memSet` (`unsigned int N`): `gws = uSnap(N, wgSize)`,
`lws = wgSize`. -/
def memSet_launch (N : Nat) : Launch :=
  { globalSize := uSnap N wgSize, localSize := wgSize, scratch := 0 }

/-- Launch of the bounds/reorder kernel in `findCellBoundsAndReorder`:
`gws = uSnap(numParticles, wgSize)`, `lws = wgSize`, and the local accessor
`localHash (wgSize + 1, cgh)`. -/
def findCellBoundsAndReorder_launch (numParticles : Nat) : Launch :=
  { globalSize := uSnap numParticles wgSize, localSize := wgSize, scratch := wgSize + 1 }

/-- Launch of `collide` (`const unsigned int numParticles`). -/
def collide_launch (numParticles : Nat) : Launch :=
  { globalSize := uSnap numParticles wgSize, localSize := wgSize, scratch := 0 }

/-- Modelled from the spec: the kernel body `memSetK` lives in
`particles_kernels.cpp`, which is not part of the sources at hand. The
Fill/Reset utility "sets every element of an integer buffer to a given
sentinel value in parallel": the work-item with global id `gid` stores `val`
into `d_Data[gid]` when `gid` is one of the `N` elements. -/
def memSetK (gid : Nat) (d_Data : Nat → Nat) (val N : Nat) : Nat → Nat :=
  if gid < N then store d_Data gid val else d_Data

/-- Run the work-items `0 .. globalSize - 1` of a launch over a state. -/
def runItems {σ : Type} (globalSize : Nat) (body : Nat → σ → σ) (s : σ) : σ :=
  (List.range globalSize).foldl (fun st gid => body gid st) s

/-- The host function `memSet(q, d_Data, val, N)`. -/
def memSet (d_Data : Nat → Nat) (val N : Nat) : Nat → Nat :=
  runItems (memSet_launch N).globalSize (fun gid d => memSetK gid d val N) d_Data

/-- The buffers `findCellBoundsAndReorder` can write: the two cell tables and
the two reordered arrays (`β` stands for `float4`). -/
structure Buffers (β : Type) where
  cellStart : Nat → Nat
  cellEnd : Nat → Nat
  reorderedPos : Nat → β
  reorderedVel : Nat → β

/-- The empty-cell sentinel `0xFFFFFFFFU`. -/
def sentinel : Nat := 0xFFFFFFFF

/-- State of the buffers when the bounds/reorder kernel is dispatched: the
statements of `findCellBoundsAndReorder` before its `q.submit`, that is the
single call `memSet(q, d_CellStart, 0xFFFFFFFFU, numCells)`. -/
def findCellBoundsAndReorder_reset {β : Type} (b : Buffers β) (numCells : Nat) : Buffers β :=
  { b with cellStart := memSet b.cellStart 0xFFFFFFFF numCells }

/-- The host function `findCellBoundsAndReorder`. The kernel body
`findCellBoundsAndReorderK` is in `particles_kernels.cpp` and is taken as the
parameter `K`: `K gid scratch numParticles` is the effect of one work-item on
the buffers, given the capacity of `localHash`. -/
def findCellBoundsAndReorder {β : Type} (K : Nat → Nat → Nat → Buffers β → Buffers β)
    (b : Buffers β) (numParticles numCells : Nat) : Buffers β :=
  let l := findCellBoundsAndReorder_launch numParticles
  runItems l.globalSize (fun gid st => K gid l.scratch numParticles st)
    (findCellBoundsAndReorder_reset b numCells)


/-! ## matrix-rotate-sycl/main.cpp

The matrix is the flat row-major buffer `matrix[r * n + c]`. The `int`
variables `n`, `layer`, `first`, `last`, `i`, `offset` are non-negative
wherever the source evaluates them (`layer < n / 2`, `first <= i < last`) and
at most `n`, so they are naturals here and the truncated subtraction of `Nat`
is the subtraction of the source. The index expressions `a * n + b` are
`int` expressions and go through `intCell`: when one of them overflows the
function has no result. -/

/-- One iteration of the inner loop of `rotate_matrix_serial`: the four
assignments through the saved `top`. -/
def rotate_cell {α : Type} (n first last i : Nat) (matrix : Nat → α) : Option (Nat → α) := do
  let offset := i - first
  let kTop ← intCell first n i
  let top := matrix kTop
  let kLeft ← intCell (last - offset) n first
  let m1 := store matrix kTop (matrix kLeft)
  let kBottom ← intCell last n (last - offset)
  let m2 := store m1 kLeft (m1 kBottom)
  let kRight ← intCell i n last
  let m3 := store m2 kBottom (m2 kRight)
  pure (store m3 kRight top)

/-- The body of the outer loop of `rotate_matrix_serial` for one `layer`:
`for (int i = first; i < last; ++i)`. -/
def rotate_layer {α : Type} (n layer : Nat) (matrix : Nat → α) : Option (Nat → α) :=
  let first := layer
  let last := n - 1 - layer
  (List.range' first (last - first)).foldlM (fun m i => rotate_cell n first last i m) matrix

/-- The function `rotate_matrix_serial(matrix, n)`:
`for (int layer = 0; layer < n / 2; ++layer)`. -/
def rotate_matrix_serial {α : Type} (matrix : Nat → α) (n : Nat) : Option (Nat → α) :=
  (List.range (n / 2)).foldlM (fun m layer => rotate_layer n layer m) matrix

/-- Global range of the `matrix_rotate` launch: `(n/2+255)/256*256`. -/
def matrix_rotate_globalRange (n : Nat) : Nat := (n / 2 + 255) / 256 * 256

/-- Work-group size of the `matrix_rotate` launch. -/
def matrix_rotate_localRange : Nat := 256

/-- The kernel `matrix_rotate` for the work-item with global id `gid`:
`int layer = item.get_global_id(0); if (layer < n/2) { ... }`, the body being
the kernel's own copy of the inner loop. A global id is below the global
range `(n/2+255)/256*256 < 2 ^ 31`, so its conversion to `int` keeps its
value. -/
def matrix_rotate {α : Type} (n gid : Nat) (matrix : Nat → α) : Option (Nat → α) :=
  let layer := gid
  if layer < n / 2 then
    let first := layer
    let last := n - 1 - layer
    (List.range' first (last - first)).foldlM
      (fun m i => do
        let offset := i - first
        let kTop ← intCell first n i
        let top := m kTop
        let kLeft ← intCell (last - offset) n first
        let m1 := store m kTop (m kLeft)
        let kBottom ← intCell last n (last - offset)
        let m2 := store m1 kLeft (m1 kBottom)
        let kRight ← intCell i n last
        let m3 := store m2 kBottom (m2 kRight)
        pure (store m3 kRight top))
      matrix
  else some matrix

/-- One launch of the kernel, its work-items taken in the order `order`. -/
def matrix_rotate_launch {α : Type} (n : Nat) (order : List Nat) (matrix : Nat → α) :
    Option (Nat → α) :=
  order.foldlM (fun m gid => matrix_rotate n gid m) matrix

/-- The device loop of `main`: `repeat` launches, the `k`-th of them running
its work-items in the order `orders k`. -/
def parallel_rotate {α : Type} (n : Nat) (orders : Nat → List Nat) :
    Nat → (Nat → α) → Option (Nat → α)
  | 0, matrix => some matrix
  | k + 1, matrix =>
    (parallel_rotate n orders k matrix).bind (fun a => matrix_rotate_launch n (orders k) a)

/-- The host loop of `main`: `repeat` calls of `rotate_matrix_serial`. -/
def serial_rotate {α : Type} (n : Nat) : Nat → (Nat → α) → Option (Nat → α)
  | 0, matrix => some matrix
  | k + 1, matrix => (serial_rotate n k matrix).bind (fun a => rotate_matrix_serial a n)

/-- Index of the concentric ring of the cell at row `r`, column `c` of an
`n * n` matrix: its distance to the nearest side. -/
def ringOf (n r c : Nat) : Nat := min (min r c) (min (n - 1 - r) (n - 1 - c))

/-- The clockwise quarter turn of an `n * n` row-major matrix, as the claim
words it: the entry at row `r`, column `c` is the original entry at row
`n - 1 - c`, column `r`; cells beyond the matrix are left alone. -/
def rotated_clockwise {α : Type} (n : Nat) (matrix : Nat → α) : Nat → α :=
  fun p => if p < n * n then matrix ((n - 1 - p % n) * n + p / n) else matrix p

/-! ### matrix-rotate: the loops with exact index arithmetic

The same loops with every index expression carried out over the unbounded
naturals. They are what the functions compute when no `int` expression
overflows, and only serve the proofs. -/

/-- One iteration of the inner loop, with exact indices. -/
def rotate_cell_exact {α : Type} (n first last i : Nat) (matrix : Nat → α) : Nat → α :=
  let offset := i - first
  let top := matrix (first * n + i)
  let m1 := store matrix (first * n + i) (matrix ((last - offset) * n + first))
  let m2 := store m1 ((last - offset) * n + first) (m1 (last * n + (last - offset)))
  let m3 := store m2 (last * n + (last - offset)) (m2 (i * n + last))
  store m3 (i * n + last) top

/-- The inner loop for one `layer`, with exact indices. -/
def rotate_layer_exact {α : Type} (n layer : Nat) (matrix : Nat → α) : Nat → α :=
  let first := layer
  let last := n - 1 - layer
  (List.range' first (last - first)).foldl (fun m i => rotate_cell_exact n first last i m) matrix

/-- The serial rotation with exact indices. -/
def rotate_matrix_serial_exact {α : Type} (matrix : Nat → α) (n : Nat) : Nat → α :=
  (List.range (n / 2)).foldl (fun m layer => rotate_layer_exact n layer m) matrix

/-- The kernel body for one work-item, with exact indices. -/
def matrix_rotate_exact {α : Type} (n gid : Nat) (matrix : Nat → α) : Nat → α :=
  if gid < n / 2 then rotate_layer_exact n gid matrix else matrix

/-- One launch with exact indices. -/
def matrix_rotate_launch_exact {α : Type} (n : Nat) (order : List Nat) (matrix : Nat → α) :
    Nat → α :=
  order.foldl (fun m gid => matrix_rotate_exact n gid m) matrix

/-- The device loop with exact indices. -/
def parallel_rotate_exact {α : Type} (n : Nat) (orders : Nat → List Nat) :
    Nat → (Nat → α) → (Nat → α)
  | 0, matrix => matrix
  | k + 1, matrix =>
    matrix_rotate_launch_exact n (orders k) (parallel_rotate_exact n orders k matrix)

/-- The host loop with exact indices. -/
def serial_rotate_exact {α : Type} (n : Nat) : Nat → (Nat → α) → (Nat → α)
  | 0, matrix => matrix
  | k + 1, matrix => rotate_matrix_serial_exact (serial_rotate_exact n k matrix) n

/-! ## convolutionSeparable-dpct/conv.dp.cpp

`KERNEL_RADIUS` comes from `conv.h`, which is not among the sources; it is the
parameter `R` of every definition below. A kernel is embedded as the list of
memory operations one work-item issues, before and after the barrier, and the
operations are then run over the scratch array and the destination image.
Every `int` expression of a kernel goes through `iadd`, `isub`, `imul`: a
work-item that evaluates an expression that overflows has no operations, and
the launch no result. `src` and `kernel` are only read, `dst` is only
written, and the two images do not overlap. -/

/-- The macro `ROWS_BLOCKDIM_X`. -/
def ROWS_BLOCKDIM_X : Nat := 16

/-- The macro `COLUMNS_BLOCKDIM_X`. -/
def COLUMNS_BLOCKDIM_X : Nat := 16

/-- The macro `ROWS_BLOCKDIM_Y`. -/
def ROWS_BLOCKDIM_Y : Nat := 4

/-- The macro `COLUMNS_BLOCKDIM_Y`. -/
def COLUMNS_BLOCKDIM_Y : Nat := 8

/-- The macro `ROWS_RESULT_STEPS`. -/
def ROWS_RESULT_STEPS : Nat := 8

/-- The macro `COLUMNS_RESULT_STEPS`. -/
def COLUMNS_RESULT_STEPS : Nat := 8

/-- The macro `ROWS_HALO_STEPS`. -/
def ROWS_HALO_STEPS : Nat := 1

/-- The macro `COLUMNS_HALO_STEPS`. -/
def COLUMNS_HALO_STEPS : Nat := 1

/-- Coordinates of a work-item of an `nd_item<3>` launch: group and local id
along dimension 2 (`X`) and dimension 1 (`Y`). -/
structure Item where
  gidX : Nat
  gidY : Nat
  lidX : Nat
  lidY : Nat

/-- A store into the scratch array before the barrier:
`l_Data[row][col] = src[k]` when `srcIdx = some k`, and `l_Data[row][col] = 0`
without any read of `src` when `srcIdx = none`. -/
structure Load where
  row : Int
  col : Int
  srcIdx : Option Int

/-- One term of the inner sum: `kernel[kIdx] * l_Data[row][col]`. -/
structure Tap where
  kIdx : Int
  row : Int
  col : Int

/-- One result of a work-item: `dst[dstIdx] = sum` over the terms `taps`,
taken in order. -/
structure Result where
  dstIdx : Int
  taps : List Tap

/-- What one work-item of a two-phase kernel does: its stores into the scratch
array before the barrier and its results after it. -/
structure KernelOps where
  loads : List Load
  results : List Result

/-- The values of `i` in `for (int i = lo; i < hi; i++)`. -/
def steps (lo hi : Nat) : List Int :=
  (List.range' lo (hi - lo)).map (fun (i : Nat) => (i : Int))

/-- The values of `j` in `for (int j = -R; j <= R; j++)`. -/
def radiusSteps (R : Int) : List Int :=
  (List.range (2 * R + 1).toNat).map (fun (t : Nat) => (t : Int) - R)

/-- All the values of a list, when every one of them is defined. -/
def allDefined {β : Type} : List (Option β) → Option (List β)
  | [] => some []
  | x :: xs => do
    let y ← x
    let ys ← allDefined xs
    pure (y :: ys)

/-- The head of `conv_rows`: `baseX`, `baseY` and the `int` offset
`baseY * pitch + baseX` that is added to `src` and to `dst`. -/
def conv_rows_base (pitch : Int) (it : Item) : Option (Int × Int × Int) := do
  let gidX : Int := toInt it.gidX
  let gidY : Int := toInt it.gidY
  let lidX : Int := toInt it.lidX
  let lidY : Int := toInt it.lidY
  let baseX ← iadd
    (imul (isub (imul gidX (ROWS_RESULT_STEPS : Int)) (ROWS_HALO_STEPS : Int))
      (ROWS_BLOCKDIM_X : Int))
    lidX
  let baseY ← iadd (imul gidY (ROWS_BLOCKDIM_Y : Int)) lidY
  let off ← iadd (imul baseY pitch) baseX
  pure (baseX, baseY, off)

/-- Body of the loop "Load main data" of `conv_rows`:
`l_Data[lidY][lidX + i * ROWS_BLOCKDIM_X] = src[i * ROWS_BLOCKDIM_X]`, where
`src` has been moved by `off`. -/
def conv_rows_main (lidX lidY off : Int) (i : Int) : Option Load := do
  let c ← iadd lidX (imul i (ROWS_BLOCKDIM_X : Int))
  let k ← imul i (ROWS_BLOCKDIM_X : Int)
  pure { row := lidY, col := c, srcIdx := some (off + k) }

/-- Body of the loop "Load left halo" of `conv_rows`: the read of `src` is
made only when `baseX + i * ROWS_BLOCKDIM_X >= 0`. -/
def conv_rows_left (lidX lidY baseX off : Int) (i : Int) : Option Load := do
  let c ← iadd lidX (imul i (ROWS_BLOCKDIM_X : Int))
  let t ← iadd baseX (imul i (ROWS_BLOCKDIM_X : Int))
  if t ≥ 0 then do
    let k ← imul i (ROWS_BLOCKDIM_X : Int)
    pure { row := lidY, col := c, srcIdx := some (off + k) }
  else pure { row := lidY, col := c, srcIdx := none }

/-- Body of the loop "Load right halo" of `conv_rows`: the read of `src` is
made only when `baseX + i * ROWS_BLOCKDIM_X < imageW`. -/
def conv_rows_right (imageW lidX lidY baseX off : Int) (i : Int) : Option Load := do
  let c ← iadd lidX (imul i (ROWS_BLOCKDIM_X : Int))
  let t ← iadd baseX (imul i (ROWS_BLOCKDIM_X : Int))
  if t < imageW then do
    let k ← imul i (ROWS_BLOCKDIM_X : Int)
    pure { row := lidY, col := c, srcIdx := some (off + k) }
  else pure { row := lidY, col := c, srcIdx := none }

/-- One term of the inner sum of `conv_rows`:
`kernel[KERNEL_RADIUS - j] * l_Data[lidY][lidX + i * ROWS_BLOCKDIM_X + j]`. -/
def conv_rows_tap (R lidX lidY : Int) (i j : Int) : Option Tap := do
  let kI ← isub R j
  let c ← iadd (iadd lidX (imul i (ROWS_BLOCKDIM_X : Int))) j
  pure { kIdx := kI, row := lidY, col := c }

/-- Body of the loop "Compute and store results" of `conv_rows`: the sum over
`j = -R .. R`, then `dst[i * ROWS_BLOCKDIM_X] = sum`, where `dst` has been
moved by `off`. -/
def conv_rows_result (R lidX lidY off : Int) (i : Int) : Option Result := do
  let taps ← allDefined ((radiusSteps R).map (conv_rows_tap R lidX lidY i))
  let k ← imul i (ROWS_BLOCKDIM_X : Int)
  pure { dstIdx := off + k, taps := taps }

/-- Operations of `conv_rows` before `item_ct1.barrier()`: main data, left
halo, right halo. -/
def conv_rows_loads (imageW imageH pitch : Int) (it : Item) : Option (List Load) := do
  let lidX : Int := toInt it.lidX
  let lidY : Int := toInt it.lidY
  let (baseX, _, off) ← conv_rows_base pitch it
  let main ← allDefined
    ((steps ROWS_HALO_STEPS (ROWS_HALO_STEPS + ROWS_RESULT_STEPS)).map
      (conv_rows_main lidX lidY off))
  let left ← allDefined ((steps 0 ROWS_HALO_STEPS).map (conv_rows_left lidX lidY baseX off))
  let right ← allDefined
    ((steps (ROWS_HALO_STEPS + ROWS_RESULT_STEPS)
        (ROWS_HALO_STEPS + ROWS_RESULT_STEPS + ROWS_HALO_STEPS)).map
      (conv_rows_right imageW lidX lidY baseX off))
  pure (main ++ left ++ right)

/-- Operations of `conv_rows` after the barrier. -/
def conv_rows_results (R : Int) (imageW imageH pitch : Int) (it : Item) :
    Option (List Result) := do
  let lidX : Int := toInt it.lidX
  let lidY : Int := toInt it.lidY
  let (_, _, off) ← conv_rows_base pitch it
  allDefined
    ((steps ROWS_HALO_STEPS (ROWS_HALO_STEPS + ROWS_RESULT_STEPS)).map
      (conv_rows_result R lidX lidY off))

/-- The kernel `conv_rows` for one work-item, split at `item_ct1.barrier()`. -/
def conv_rows (R : Int) (imageW imageH pitch : Int) (it : Item) : Option KernelOps := do
  let ls ← conv_rows_loads imageW imageH pitch it
  let rs ← conv_rows_results R imageW imageH pitch it
  pure { loads := ls, results := rs }

/-- The head of `conv_cols`: `baseX`, `baseY` and the `int` offset
`baseY * pitch + baseX` that is added to `src` and to `dst`. -/
def conv_cols_base (pitch : Int) (it : Item) : Option (Int × Int × Int) := do
  let gidX : Int := toInt it.gidX
  let gidY : Int := toInt it.gidY
  let lidX : Int := toInt it.lidX
  let lidY : Int := toInt it.lidY
  let baseX ← iadd (imul gidX (COLUMNS_BLOCKDIM_X : Int)) lidX
  let baseY ← iadd
    (imul (isub (imul gidY (COLUMNS_RESULT_STEPS : Int)) (COLUMNS_HALO_STEPS : Int))
      (COLUMNS_BLOCKDIM_Y : Int))
    lidY
  let off ← iadd (imul baseY pitch) baseX
  pure (baseX, baseY, off)

/-- Body of the loop "Load main data" of `conv_cols`:
`l_Data[lidX][lidY + i * COLUMNS_BLOCKDIM_Y] = src[i * COLUMNS_BLOCKDIM_Y * pitch]`. -/
def conv_cols_main (pitch lidX lidY off : Int) (i : Int) : Option Load := do
  let c ← iadd lidY (imul i (COLUMNS_BLOCKDIM_Y : Int))
  let k ← imul (imul i (COLUMNS_BLOCKDIM_Y : Int)) pitch
  pure { row := lidX, col := c, srcIdx := some (off + k) }

/-- Body of the loop "Load upper halo" of `conv_cols`: the read of `src` is
made only when `baseY + i * COLUMNS_BLOCKDIM_Y >= 0`. -/
def conv_cols_upper (pitch lidX lidY baseY off : Int) (i : Int) : Option Load := do
  let c ← iadd lidY (imul i (COLUMNS_BLOCKDIM_Y : Int))
  let t ← iadd baseY (imul i (COLUMNS_BLOCKDIM_Y : Int))
  if t ≥ 0 then do
    let k ← imul (imul i (COLUMNS_BLOCKDIM_Y : Int)) pitch
    pure { row := lidX, col := c, srcIdx := some (off + k) }
  else pure { row := lidX, col := c, srcIdx := none }

/-- Body of the loop "Load lower halo" of `conv_cols`: the read of `src` is
made only when `baseY + i * COLUMNS_BLOCKDIM_Y < imageH`. -/
def conv_cols_lower (imageH pitch lidX lidY baseY off : Int) (i : Int) : Option Load := do
  let c ← iadd lidY (imul i (COLUMNS_BLOCKDIM_Y : Int))
  let t ← iadd baseY (imul i (COLUMNS_BLOCKDIM_Y : Int))
  if t < imageH then do
    let k ← imul (imul i (COLUMNS_BLOCKDIM_Y : Int)) pitch
    pure { row := lidX, col := c, srcIdx := some (off + k) }
  else pure { row := lidX, col := c, srcIdx := none }

/-- One term of the inner sum of `conv_cols`:
`kernel[KERNEL_RADIUS - j] * l_Data[lidX][lidY + i * COLUMNS_BLOCKDIM_Y + j]`. -/
def conv_cols_tap (R lidX lidY : Int) (i j : Int) : Option Tap := do
  let kI ← isub R j
  let c ← iadd (iadd lidY (imul i (COLUMNS_BLOCKDIM_Y : Int))) j
  pure { kIdx := kI, row := lidX, col := c }

/-- Body of the loop "Compute and store results" of `conv_cols`: the sum over
`j = -R .. R`, then `dst[i * COLUMNS_BLOCKDIM_Y * pitch] = sum`. -/
def conv_cols_result (R pitch lidX lidY off : Int) (i : Int) : Option Result := do
  let taps ← allDefined ((radiusSteps R).map (conv_cols_tap R lidX lidY i))
  let k ← imul (imul i (COLUMNS_BLOCKDIM_Y : Int)) pitch
  pure { dstIdx := off + k, taps := taps }

/-- Operations of `conv_cols` before the barrier: main data, upper halo,
lower halo. -/
def conv_cols_loads (imageW imageH pitch : Int) (it : Item) : Option (List Load) := do
  let lidX : Int := toInt it.lidX
  let lidY : Int := toInt it.lidY
  let (_, baseY, off) ← conv_cols_base pitch it
  let main ← allDefined
    ((steps COLUMNS_HALO_STEPS (COLUMNS_HALO_STEPS + COLUMNS_RESULT_STEPS)).map
      (conv_cols_main pitch lidX lidY off))
  let upper ← allDefined
    ((steps 0 COLUMNS_HALO_STEPS).map (conv_cols_upper pitch lidX lidY baseY off))
  let lower ← allDefined
    ((steps (COLUMNS_HALO_STEPS + COLUMNS_RESULT_STEPS)
        (COLUMNS_HALO_STEPS + COLUMNS_RESULT_STEPS + COLUMNS_HALO_STEPS)).map
      (conv_cols_lower imageH pitch lidX lidY baseY off))
  pure (main ++ upper ++ lower)

/-- Operations of `conv_cols` after the barrier. -/
def conv_cols_results (R : Int) (imageW imageH pitch : Int) (it : Item) :
    Option (List Result) := do
  let lidX : Int := toInt it.lidX
  let lidY : Int := toInt it.lidY
  let (_, _, off) ← conv_cols_base pitch it
  allDefined
    ((steps COLUMNS_HALO_STEPS (COLUMNS_HALO_STEPS + COLUMNS_RESULT_STEPS)).map
      (conv_cols_result R pitch lidX lidY off))

/-- The kernel `conv_cols` for one work-item, split at `item_ct1.barrier()`. -/
def conv_cols (R : Int) (imageW imageH pitch : Int) (it : Item) : Option KernelOps := do
  let ls ← conv_cols_loads imageW imageH pitch it
  let rs ← conv_cols_results R imageW imageH pitch it
  pure { loads := ls, results := rs }

/-- Store into the two-dimensional scratch array. -/
def storeL {α : Type} (l : Int → Int → α) (row col : Int) (v : α) : Int → Int → α :=
  fun r c => if r = row ∧ c = col then v else l r c

/-- Store into a global buffer indexed by `Int`. -/
def storeG {α : Type} (d : Int → α) (k : Int) (v : α) : Int → α :=
  fun j => if j = k then v else d j

/-- The value a load puts into the scratch array. -/
def loadValue {α : Type} [Zero α] (src : Int → α) (op : Load) : α :=
  match op.srcIdx with
  | some k => src k
  | none => 0

/-- Run the loads of one work-item over the scratch array. -/
def runLoads {α : Type} [Zero α] (src : Int → α) (ops : List Load)
    (l : Int → Int → α) : Int → Int → α :=
  ops.foldl (fun l op => storeL l op.row op.col (loadValue src op)) l

/-- The inner sum: `float sum = 0;` then `sum += kernel[..] * l_Data[..][..]`
for each term in order. -/
def tapSum {α : Type} [Zero α] [Add α] [Mul α] (kernel : Int → α) (l : Int → Int → α)
    (taps : List Tap) : α :=
  taps.foldl (fun sum t => sum + kernel t.kIdx * l t.row t.col) 0

/-- Run the results of one work-item over the destination image. -/
def runResults {α : Type} [Zero α] [Add α] [Mul α] (kernel : Int → α) (l : Int → Int → α)
    (ops : List Result) (dst : Int → α) : Int → α :=
  ops.foldl (fun d op => storeG d op.dstIdx (tapSum kernel l op.taps)) dst

/-- The order in which a launch is carried out: the work-groups `(gidX, gidY)`
one after another, and inside each group the local ids `(lidX, lidY)` in one
order before the barrier and in one order after it. -/
structure Schedule where
  groups : List (Nat × Nat)
  loads : Nat → Nat → List (Nat × Nat)
  results : Nat → Nat → List (Nat × Nat)

/-- A list holds every pair below `(a, b)` exactly once: it is a permutation
of their row-major enumeration. -/
def Covers (l : List (Nat × Nat)) (a b : Nat) : Prop :=
  l.Perm (List.product (List.range a) (List.range b))

instance (l : List (Nat × Nat)) (a b : Nat) : Decidable (Covers l a b) := by
  unfold Covers
  infer_instance

/-- A schedule of a launch with `gridX * gridY` groups of `blockX * blockY`
work-items runs every group once and, in every group, every work-item once
before and once after the barrier. -/
def Schedule.Valid (s : Schedule) (gridX gridY blockX blockY : Nat) : Prop :=
  Covers s.groups gridX gridY ∧
  ∀ g ∈ s.groups,
    Covers (s.loads g.1 g.2) blockX blockY ∧ Covers (s.results g.1 g.2) blockX blockY

instance (s : Schedule) (gridX gridY blockX blockY : Nat) :
    Decidable (s.Valid gridX gridY blockX blockY) := by
  unfold Schedule.Valid
  infer_instance

/-- The schedule that takes groups and work-items in row-major order. -/
def Schedule.rowMajor (gridX gridY blockX blockY : Nat) : Schedule :=
  { groups := List.product (List.range gridX) (List.range gridY)
    loads := fun _ _ => List.product (List.range blockX) (List.range blockY)
    results := fun _ _ => List.product (List.range blockX) (List.range blockY) }

/-- One work-group of a two-phase kernel: every work-item issues its loads
into the group's scratch array (initial content `l0`), then, after the
barrier, every work-item computes and stores its results. A work-item whose
kernel has no result leaves the group without one. -/
def runGroup {α : Type} [Zero α] [Add α] [Mul α] (kernelOf : Item → Option KernelOps)
    (src kernel : Int → α) (gx gy : Nat)
    (loadOrder resultOrder : List (Nat × Nat)) (l0 : Int → Int → α) (dst : Int → α) :
    Option (Int → α) := do
  let l ← loadOrder.foldlM
    (fun l lid => do
      let ops ← kernelOf { gidX := gx, gidY := gy, lidX := lid.1, lidY := lid.2 }
      pure (runLoads src ops.loads l))
    l0
  resultOrder.foldlM
    (fun d lid => do
      let ops ← kernelOf { gidX := gx, gidY := gy, lidX := lid.1, lidY := lid.2 }
      pure (runResults kernel l ops.results d))
    dst

/-- A whole launch: the groups of the schedule one after another, each with
its own scratch array, whose initial content `l0 gx gy` is arbitrary. -/
def runLaunch {α : Type} [Zero α] [Add α] [Mul α] (kernelOf : Item → Option KernelOps)
    (src kernel : Int → α) (s : Schedule)
    (l0 : Nat → Nat → Int → Int → α) (dst : Int → α) : Option (Int → α) :=
  s.groups.foldlM
    (fun d g => runGroup kernelOf src kernel g.1 g.2 (s.loads g.1 g.2)
      (s.results g.1 g.2) (l0 g.1 g.2) d)
    dst

/-- The three `assert`s of `convolutionRows`. -/
def convolutionRows_asserts (R : Int) (imageW imageH : Nat) : Prop :=
  ((ROWS_BLOCKDIM_X * ROWS_HALO_STEPS : Nat) : Int) ≥ R ∧
  imageW % (ROWS_RESULT_STEPS * ROWS_BLOCKDIM_X) = 0 ∧
  imageH % ROWS_BLOCKDIM_Y = 0

instance (R : Int) (imageW imageH : Nat) : Decidable (convolutionRows_asserts R imageW imageH) := by
  unfold convolutionRows_asserts
  infer_instance

/-- Number of groups of the `convolutionRows` launch along `X` and `Y`:
`grid(1, imageH / ROWS_BLOCKDIM_Y, imageW / ROWS_RESULT_STEPS / ROWS_BLOCKDIM_X)`. -/
def convolutionRows_grid (imageW imageH : Nat) : Nat × Nat :=
  (imageW / ROWS_RESULT_STEPS / ROWS_BLOCKDIM_X, imageH / ROWS_BLOCKDIM_Y)

/-- Extent of the scratch array of `convolutionRows`: `l_Data_range_ct1(4, 160)`. -/
def convolutionRows_l_Data_range : Nat × Nat := (4, 160)

/-- The work-item is one of those launched by `convolutionRows`:
`nd_range<3>(grid * block, block)` with `block(1, ROWS_BLOCKDIM_Y, ROWS_BLOCKDIM_X)`. -/
def convolutionRows_item (imageW imageH : Nat) (it : Item) : Prop :=
  it.gidX < (convolutionRows_grid imageW imageH).1 ∧
  it.gidY < (convolutionRows_grid imageW imageH).2 ∧
  it.lidX < ROWS_BLOCKDIM_X ∧ it.lidY < ROWS_BLOCKDIM_Y

instance (imageW imageH : Nat) (it : Item) : Decidable (convolutionRows_item imageW imageH it) := by
  unfold convolutionRows_item
  infer_instance

/-- The host function `convolutionRows(dst, src, kernel, imageW, imageH, pitch)`
once its asserts have passed: the launch of `conv_rows`, whose `const int`
parameters receive the `unsigned int` arguments `imageW, imageH, imageW`
(the `pitch` argument of the host function is not used). -/
def convolutionRows {α : Type} [Zero α] [Add α] [Mul α] (R : Int) (dst src kernel : Int → α)
    (imageW imageH pitch : Nat) (s : Schedule) (l0 : Nat → Nat → Int → Int → α) :
    Option (Int → α) :=
  runLaunch (fun it => conv_rows R (toInt imageW) (toInt imageH) (toInt imageW) it)
    src kernel s l0 dst

/-- The three `assert`s of `convolutionColumns`. -/
def convolutionColumns_asserts (R : Int) (imageW imageH : Nat) : Prop :=
  ((COLUMNS_BLOCKDIM_Y * COLUMNS_HALO_STEPS : Nat) : Int) ≥ R ∧
  imageW % COLUMNS_BLOCKDIM_X = 0 ∧
  imageH % (COLUMNS_RESULT_STEPS * COLUMNS_BLOCKDIM_Y) = 0

instance (R : Int) (imageW imageH : Nat) :
    Decidable (convolutionColumns_asserts R imageW imageH) := by
  unfold convolutionColumns_asserts
  infer_instance

/-- Number of groups of the `convolutionColumns` launch along `X` and `Y`:
`grid(1, imageH / COLUMNS_RESULT_STEPS / COLUMNS_BLOCKDIM_Y, imageW / COLUMNS_BLOCKDIM_X)`. -/
def convolutionColumns_grid (imageW imageH : Nat) : Nat × Nat :=
  (imageW / COLUMNS_BLOCKDIM_X, imageH / COLUMNS_RESULT_STEPS / COLUMNS_BLOCKDIM_Y)

/-- Extent of the scratch array of `convolutionColumns`: `l_Data_range_ct1(16, 81)`. -/
def convolutionColumns_l_Data_range : Nat × Nat := (16, 81)

/-- The work-item is one of those launched by `convolutionColumns`. -/
def convolutionColumns_item (imageW imageH : Nat) (it : Item) : Prop :=
  it.gidX < (convolutionColumns_grid imageW imageH).1 ∧
  it.gidY < (convolutionColumns_grid imageW imageH).2 ∧
  it.lidX < COLUMNS_BLOCKDIM_X ∧ it.lidY < COLUMNS_BLOCKDIM_Y

instance (imageW imageH : Nat) (it : Item) :
    Decidable (convolutionColumns_item imageW imageH it) := by
  unfold convolutionColumns_item
  infer_instance

/-- The host function `convolutionColumns` once its asserts have passed: the
launch of `conv_cols` with the arguments `imageW, imageH, imageW` converted
to `int`. -/
def convolutionColumns {α : Type} [Zero α] [Add α] [Mul α] (R : Int) (dst src kernel : Int → α)
    (imageW imageH pitch : Nat) (s : Schedule) (l0 : Nat → Nat → Int → Int → α) :
    Option (Int → α) :=
  runLaunch (fun it => conv_cols R (toInt imageW) (toInt imageH) (toInt imageW) it)
    src kernel s l0 dst

/-- The sample of a row the claim calls `s(c, y)`: `src[y * imageW + c]` when
`0 <= c < imageW`, and 0 otherwise. -/
def rowSample {α : Type} [Zero α] (src : Int → α) (imageW : Int) (c y : Int) : α :=
  if 0 ≤ c ∧ c < imageW then src (y * imageW + c) else 0

/-- The zero-padded row convolution as the claim words it: the sum,
accumulated from 0 in the order `j = -R .. R`, of `kernel[R - j] * s(x + j, y)`. -/
def rowConvolution {α : Type} [Zero α] [Add α] [Mul α] (R : Int) (src kernel : Int → α)
    (imageW : Int) (x y : Int) : α :=
  (radiusSteps R).foldl (fun sum j => sum + kernel (R - j) * rowSample src imageW (x + j) y) 0

/-- The sample of a column the claim calls `s(x, r)`: `src[r * imageW + x]`
when `0 <= r < imageH`, and 0 otherwise. -/
def columnSample {α : Type} [Zero α] (src : Int → α) (imageW imageH : Int) (x r : Int) : α :=
  if 0 ≤ r ∧ r < imageH then src (r * imageW + x) else 0

/-- The zero-padded column convolution as the claim words it. -/
def columnConvolution {α : Type} [Zero α] [Add α] [Mul α] (R : Int) (src kernel : Int → α)
    (imageW imageH : Int) (x y : Int) : α :=
  (radiusSteps R).foldl
    (fun sum j => sum + kernel (R - j) * columnSample src imageW imageH x (y + j)) 0

/-! ### convolution: the kernels with exact index arithmetic

The same kernels with every `int` expression carried out over the unbounded
integers. They are what the kernels compute when no expression overflows, and
only serve the proofs. -/

/-- Operations of `conv_rows` before the barrier, with exact arithmetic. -/
def conv_rows_loads_exact (imageW imageH pitch : Int) (it : Item) : List Load :=
  let gidX : Int := it.gidX
  let gidY : Int := it.gidY
  let lidX : Int := it.lidX
  let lidY : Int := it.lidY
  let baseX : Int := (gidX * ROWS_RESULT_STEPS - ROWS_HALO_STEPS) * ROWS_BLOCKDIM_X + lidX
  let baseY : Int := gidY * ROWS_BLOCKDIM_Y + lidY
  let off : Int := baseY * pitch + baseX
  (steps ROWS_HALO_STEPS (ROWS_HALO_STEPS + ROWS_RESULT_STEPS)).map
      (fun i => { row := lidY, col := lidX + i * ROWS_BLOCKDIM_X,
                  srcIdx := some (off + i * ROWS_BLOCKDIM_X) })
    ++ (steps 0 ROWS_HALO_STEPS).map
      (fun i => { row := lidY, col := lidX + i * ROWS_BLOCKDIM_X,
                  srcIdx := if baseX + i * ROWS_BLOCKDIM_X ≥ 0
                            then some (off + i * ROWS_BLOCKDIM_X) else none })
    ++ (steps (ROWS_HALO_STEPS + ROWS_RESULT_STEPS)
          (ROWS_HALO_STEPS + ROWS_RESULT_STEPS + ROWS_HALO_STEPS)).map
      (fun i => { row := lidY, col := lidX + i * ROWS_BLOCKDIM_X,
                  srcIdx := if baseX + i * ROWS_BLOCKDIM_X < imageW
                            then some (off + i * ROWS_BLOCKDIM_X) else none })

/-- Operations of `conv_rows` after the barrier, with exact arithmetic. -/
def conv_rows_results_exact (R : Int) (imageW imageH pitch : Int) (it : Item) : List Result :=
  let gidX : Int := it.gidX
  let gidY : Int := it.gidY
  let lidX : Int := it.lidX
  let lidY : Int := it.lidY
  let baseX : Int := (gidX * ROWS_RESULT_STEPS - ROWS_HALO_STEPS) * ROWS_BLOCKDIM_X + lidX
  let baseY : Int := gidY * ROWS_BLOCKDIM_Y + lidY
  let off : Int := baseY * pitch + baseX
  (steps ROWS_HALO_STEPS (ROWS_HALO_STEPS + ROWS_RESULT_STEPS)).map
    (fun i => { dstIdx := off + i * ROWS_BLOCKDIM_X,
                taps := (radiusSteps R).map
                  (fun j => { kIdx := R - j, row := lidY,
                              col := lidX + i * ROWS_BLOCKDIM_X + j }) })

/-- The operations of `conv_rows` for one work-item, with exact arithmetic. -/
def conv_rows_exact (R : Int) (imageW imageH pitch : Int) (it : Item) : KernelOps :=
  { loads := conv_rows_loads_exact imageW imageH pitch it
    results := conv_rows_results_exact R imageW imageH pitch it }

/-- Operations of `conv_cols` before the barrier, with exact arithmetic. -/
def conv_cols_loads_exact (imageW imageH pitch : Int) (it : Item) : List Load :=
  let gidX : Int := it.gidX
  let gidY : Int := it.gidY
  let lidX : Int := it.lidX
  let lidY : Int := it.lidY
  let baseX : Int := gidX * COLUMNS_BLOCKDIM_X + lidX
  let baseY : Int := (gidY * COLUMNS_RESULT_STEPS - COLUMNS_HALO_STEPS) * COLUMNS_BLOCKDIM_Y + lidY
  let off : Int := baseY * pitch + baseX
  (steps COLUMNS_HALO_STEPS (COLUMNS_HALO_STEPS + COLUMNS_RESULT_STEPS)).map
      (fun i => { row := lidX, col := lidY + i * COLUMNS_BLOCKDIM_Y,
                  srcIdx := some (off + i * COLUMNS_BLOCKDIM_Y * pitch) })
    ++ (steps 0 COLUMNS_HALO_STEPS).map
      (fun i => { row := lidX, col := lidY + i * COLUMNS_BLOCKDIM_Y,
                  srcIdx := if baseY + i * COLUMNS_BLOCKDIM_Y ≥ 0
                            then some (off + i * COLUMNS_BLOCKDIM_Y * pitch) else none })
    ++ (steps (COLUMNS_HALO_STEPS + COLUMNS_RESULT_STEPS)
          (COLUMNS_HALO_STEPS + COLUMNS_RESULT_STEPS + COLUMNS_HALO_STEPS)).map
      (fun i => { row := lidX, col := lidY + i * COLUMNS_BLOCKDIM_Y,
                  srcIdx := if baseY + i * COLUMNS_BLOCKDIM_Y < imageH
                            then some (off + i * COLUMNS_BLOCKDIM_Y * pitch) else none })

/-- Operations of `conv_cols` after the barrier, with exact arithmetic. -/
def conv_cols_results_exact (R : Int) (imageW imageH pitch : Int) (it : Item) : List Result :=
  let gidX : Int := it.gidX
  let gidY : Int := it.gidY
  let lidX : Int := it.lidX
  let lidY : Int := it.lidY
  let baseX : Int := gidX * COLUMNS_BLOCKDIM_X + lidX
  let baseY : Int := (gidY * COLUMNS_RESULT_STEPS - COLUMNS_HALO_STEPS) * COLUMNS_BLOCKDIM_Y + lidY
  let off : Int := baseY * pitch + baseX
  (steps COLUMNS_HALO_STEPS (COLUMNS_HALO_STEPS + COLUMNS_RESULT_STEPS)).map
    (fun i => { dstIdx := off + i * COLUMNS_BLOCKDIM_Y * pitch,
                taps := (radiusSteps R).map
                  (fun j => { kIdx := R - j, row := lidX,
                              col := lidY + i * COLUMNS_BLOCKDIM_Y + j }) })

/-- The operations of `conv_cols` for one work-item, with exact arithmetic. -/
def conv_cols_exact (R : Int) (imageW imageH pitch : Int) (it : Item) : KernelOps :=
  { loads := conv_cols_loads_exact imageW imageH pitch it
    results := conv_cols_results_exact R imageW imageH pitch it }

/-- One work-group of a two-phase kernel whose operations are always defined. -/
def runGroup_exact {α : Type} [Zero α] [Add α] [Mul α] (loadsOf : Item → List Load)
    (resultsOf : Item → List Result) (src kernel : Int → α) (gx gy : Nat)
    (loadOrder resultOrder : List (Nat × Nat)) (l0 : Int → Int → α) (dst : Int → α) : Int → α :=
  let l := loadOrder.foldl
    (fun l lid => runLoads src (loadsOf { gidX := gx, gidY := gy, lidX := lid.1, lidY := lid.2 }) l)
    l0
  resultOrder.foldl
    (fun d lid =>
      runResults kernel l (resultsOf { gidX := gx, gidY := gy, lidX := lid.1, lidY := lid.2 }) d)
    dst

/-- A whole launch of a kernel whose operations are always defined. -/
def runLaunch_exact {α : Type} [Zero α] [Add α] [Mul α] (loadsOf : Item → List Load)
    (resultsOf : Item → List Result) (src kernel : Int → α) (s : Schedule)
    (l0 : Nat → Nat → Int → Int → α) (dst : Int → α) : Int → α :=
  s.groups.foldl
    (fun d g => runGroup_exact loadsOf resultsOf src kernel g.1 g.2 (s.loads g.1 g.2)
      (s.results g.1 g.2) (l0 g.1 g.2) d)
    dst

/-- The launch of `conv_rows` with exact arithmetic. -/
def convolutionRows_exact {α : Type} [Zero α] [Add α] [Mul α] (R : Int) (dst src kernel : Int → α)
    (imageW imageH pitch : Nat) (s : Schedule) (l0 : Nat → Nat → Int → Int → α) : Int → α :=
  runLaunch_exact (fun it => (conv_rows_exact R imageW imageH imageW it).loads)
    (fun it => (conv_rows_exact R imageW imageH imageW it).results) src kernel s l0 dst

/-- The launch of `conv_cols` with exact arithmetic. -/
def convolutionColumns_exact {α : Type} [Zero α] [Add α] [Mul α] (R : Int) (dst src kernel : Int → α)
    (imageW imageH pitch : Nat) (s : Schedule) (l0 : Nat → Nat → Int → Int → α) : Int → α :=
  runLaunch_exact (fun it => (conv_cols_exact R imageW imageH imageW it).loads)
    (fun it => (conv_cols_exact R imageW imageH imageW it).results) src kernel s l0 dst

/-! ### Folds and binds over `Option` -/

theorem foldlM_option_some {σ γ : Type} (f : σ → γ → Option σ) (g : σ → γ → σ) (l : List γ)
    (h : ∀ a ∈ l, ∀ s, f s a = some (g s a)) (s : σ) :
    l.foldlM f s = some (l.foldl g s) := by
  induction l generalizing s with
  | nil => rfl
  | cons a l ih =>
    rw [List.foldlM_cons, h a (List.mem_cons_self a l) s]
    exact ih (fun a' ha' => h a' (List.mem_cons_of_mem a ha')) (g s a)

theorem foldlM_option_none {σ γ : Type} (f : σ → γ → Option σ) (l : List γ) (a : γ)
    (ha : a ∈ l) (h : ∀ s, f s a = none) (s : σ) : l.foldlM f s = none := by
  induction l generalizing s with
  | nil => cases ha
  | cons b l ih =>
    rw [List.foldlM_cons]
    rcases List.mem_cons.1 ha with rfl | hl
    · rw [h s]
      rfl
    · cases hfb : f s b with
      | none => rfl
      | some s' => exact ih hl s'

theorem bind_some_eq {γ β : Type} (x : Option γ) (a : γ) (f : γ → Option β) (h : x = some a) :
    (x >>= f) = f a := by
  subst h
  rfl

/-! ### particles: lemmas -/

theorem uSnap_eq_exact (a b : Nat) (h : a % b ≠ 0 → a - a % b + b < 2 ^ 64) :
    uSnap a b = uSnapExact a b := by
  unfold uSnap uSnapExact sizeMod
  by_cases h0 : a % b = 0
  · simp [h0]
  · simp only [h0, if_false]
    exact Nat.mod_eq_of_lt (h h0)

theorem uSnapExact_dvd (a b : Nat) : b ∣ uSnapExact a b := by
  unfold uSnapExact
  by_cases h0 : a % b = 0
  · simp only [h0, if_true]; exact Nat.dvd_of_mod_eq_zero h0
  · simp only [h0, if_false]
    have h1 : a - a % b = b * (a / b) := by
      have := Nat.div_add_mod a b
      omega
    rw [h1]
    exact Dvd.intro (a / b + 1) (by ring)

theorem uSnapExact_ge (a b : Nat) (hb : 0 < b) : a ≤ uSnapExact a b := by
  unfold uSnapExact
  have := Nat.mod_lt a hb
  have := Nat.mod_le a b
  split <;> omega

theorem uSnapExact_lt (a b : Nat) (hb : 0 < b) : uSnapExact a b < a + b := by
  unfold uSnapExact
  have := Nat.mod_lt a hb
  have := Nat.mod_le a b
  split <;> omega

theorem uSnapExact_least (a b g : Nat) (hb : 0 < b) (hg : b ∣ g) (hag : a ≤ g) :
    uSnapExact a b ≤ g := by
  obtain ⟨k, rfl⟩ := hg
  obtain ⟨j, hj⟩ := uSnapExact_dvd a b
  have hlt := uSnapExact_lt a b hb
  rw [hj] at hlt ⊢
  have : j < k + 1 := by
    by_contra hcon
    have hk : k + 1 ≤ j := by omega
    have : b * (k + 1) ≤ b * j := Nat.mul_le_mul_left b hk
    have : b * (k + 1) = b * k + b := by ring
    omega
  exact Nat.mul_le_mul_left b (by omega)

theorem memSetK_apply (gid : Nat) (d : Nat → Nat) (val N i : Nat) :
    memSetK gid d val N i = if i = gid ∧ gid < N then val else d i := by
  unfold memSetK store
  by_cases hg : gid < N <;> by_cases hi : i = gid <;> simp [hg, hi]

theorem memSet_fold (val N : Nat) (d : Nat → Nat) (g : Nat) (i : Nat) :
    runItems g (fun gid d => memSetK gid d val N) d i
      = if i < g ∧ i < N then val else d i := by
  unfold runItems
  induction g with
  | zero => simp
  | succ g ih =>
    rw [List.range_succ, List.foldl_append]
    simp only [List.foldl_cons, List.foldl_nil]
    rw [memSetK_apply, ih]
    by_cases h1 : i = g ∧ g < N
    · have h2 : i < g + 1 ∧ i < N := by omega
      simp [h1, h2]
    · simp only [h1, if_false]
      have : (i < g + 1 ∧ i < N) ↔ (i < g ∧ i < N) := by omega
      simp only [this]

theorem memSet_apply (d : Nat → Nat) (val N : Nat) (hN : N < 2 ^ 32) (i : Nat) :
    memSet d val N i = if i < N then val else d i := by
  unfold memSet memSet_launch
  rw [memSet_fold]
  have hex : uSnap N wgSize = uSnapExact N wgSize := by
    apply uSnap_eq_exact
    intro _
    have := Nat.mod_le N wgSize
    unfold wgSize
    omega
  have hge := uSnapExact_ge N wgSize (by unfold wgSize; omega)
  simp only [hex]
  by_cases hi : i < N
  · have : i < uSnapExact N wgSize := by omega
    simp [hi, this]
  · simp [hi]


theorem findCellBoundsAndReorder_zero_eq {β : Type}
    (K : Nat → Nat → Nat → Buffers β → Buffers β) (b : Buffers β) (numCells : Nat) :
    findCellBoundsAndReorder K b 0 numCells = findCellBoundsAndReorder_reset b numCells := by
  have h0 : uSnap 0 wgSize = 0 := by decide
  simp [findCellBoundsAndReorder, findCellBoundsAndReorder_launch, runItems, h0]

/-! ### particles: claims -/

/-- C1 (counterexample). With one cell and both tables holding 0 before the
call, the buffers handed to the bounds/reorder kernel have `cellStart[0]`
reset to `0xFFFFFFFF` but `cellEnd[0]` still 0: `cellEnd` is not reset. -/
theorem findCellBoundsAndReorder_reset_cellEnd_stale :
    (findCellBoundsAndReorder_reset
        ({ cellStart := fun _ => 0, cellEnd := fun _ => 0,
           reorderedPos := fun _ => (), reorderedVel := fun _ => () } : Buffers Unit) 1).cellStart 0
      = sentinel ∧
    (findCellBoundsAndReorder_reset
        ({ cellStart := fun _ => 0, cellEnd := fun _ => 0,
           reorderedPos := fun _ => (), reorderedVel := fun _ => () } : Buffers Unit) 1).cellEnd 0
      ≠ sentinel := by
  constructor
  · simp [findCellBoundsAndReorder_reset, memSet_apply, sentinel]
  · simp [findCellBoundsAndReorder_reset, sentinel]

/-- C1 (amended). For every 32-bit `numCells` and every prior content of the
buffers, when the bounds/reorder kernel is dispatched every one of the
`numCells` entries of `cellStart` holds the sentinel `0xFFFFFFFF`, the
entries of `cellStart` from `numCells` on are untouched, and `cellEnd` and the
reordered arrays are exactly what they were before the call. -/
theorem findCellBoundsAndReorder_reset_spec {β : Type} (b : Buffers β) (numCells : Nat)
    (hN : numCells < 2 ^ 32) :
    (∀ i, i < numCells → (findCellBoundsAndReorder_reset b numCells).cellStart i = sentinel) ∧
    (∀ i, numCells ≤ i →
      (findCellBoundsAndReorder_reset b numCells).cellStart i = b.cellStart i) ∧
    (findCellBoundsAndReorder_reset b numCells).cellEnd = b.cellEnd ∧
    (findCellBoundsAndReorder_reset b numCells).reorderedPos = b.reorderedPos ∧
    (findCellBoundsAndReorder_reset b numCells).reorderedVel = b.reorderedVel := by
  refine ⟨?_, ?_, rfl, rfl, rfl⟩
  · intro i hi
    simp [findCellBoundsAndReorder_reset, memSet_apply _ _ _ hN, hi, sentinel]
  · intro i hi
    have : ¬ i < numCells := by omega
    simp [findCellBoundsAndReorder_reset, memSet_apply _ _ _ hN, this]

/-- Witness for C1 (amended): three cells, `cellStart[j] = j` and
`cellEnd[j] = j + 1` before the call. -/
theorem findCellBoundsAndReorder_reset_spec_witness :
    (3 : Nat) < 2 ^ 32 ∧
    ((∀ i, i < 3 → (findCellBoundsAndReorder_reset
        ({ cellStart := fun j => j, cellEnd := fun j => j + 1,
           reorderedPos := fun _ => (), reorderedVel := fun _ => () } : Buffers Unit) 3).cellStart i
          = sentinel) ∧
     (findCellBoundsAndReorder_reset
        ({ cellStart := fun j => j, cellEnd := fun j => j + 1,
           reorderedPos := fun _ => (), reorderedVel := fun _ => () } : Buffers Unit) 3).cellEnd
          = fun j => j + 1) :=
  ⟨by decide,
   (findCellBoundsAndReorder_reset_spec
      ({ cellStart := fun j => j, cellEnd := fun j => j + 1,
         reorderedPos := fun _ => (), reorderedVel := fun _ => () } : Buffers Unit) 3
      (by decide)).1,
   (findCellBoundsAndReorder_reset_spec
      ({ cellStart := fun j => j, cellEnd := fun j => j + 1,
         reorderedPos := fun _ => (), reorderedVel := fun _ => () } : Buffers Unit) 3
      (by decide)).2.2.1⟩

/-- C3 (counterexample). With no particles, one cell and `cellEnd[0] = 7`
before the call, `cellEnd[0]` is still 7 after `findCellBoundsAndReorder`,
not the sentinel (the kernel body used here stores the sentinel into
`cellEnd`, but no work-item runs). -/
theorem findCellBoundsAndReorder_zero_cellEnd_stale :
    (findCellBoundsAndReorder
        (fun _ _ _ (s : Buffers Unit) => { s with cellEnd := fun _ => sentinel })
        ({ cellStart := fun _ => 7, cellEnd := fun _ => 7,
           reorderedPos := fun _ => (), reorderedVel := fun _ => () } : Buffers Unit) 0 1).cellEnd 0
      = 7 ∧
    (7 : Nat) ≠ sentinel := by
  constructor
  · rw [findCellBoundsAndReorder_zero_eq]
    rfl
  · decide

/-- C3 (amended). For `numParticles = 0`, whatever the kernel body, the
global work size `uSnap(0, 64)` is 0 and no work-item runs: after
`findCellBoundsAndReorder` the buffers are those left by the reset, so
`reorderedPos`, `reorderedVel` and `cellEnd` are unchanged and every one of
the `numCells` entries of `cellStart` holds the sentinel. -/
theorem findCellBoundsAndReorder_zero_particles {β : Type}
    (K : Nat → Nat → Nat → Buffers β → Buffers β) (b : Buffers β) (numCells : Nat)
    (hN : numCells < 2 ^ 32) :
    (findCellBoundsAndReorder_launch 0).globalSize = 0 ∧
    findCellBoundsAndReorder K b 0 numCells = findCellBoundsAndReorder_reset b numCells ∧
    (findCellBoundsAndReorder K b 0 numCells).reorderedPos = b.reorderedPos ∧
    (findCellBoundsAndReorder K b 0 numCells).reorderedVel = b.reorderedVel ∧
    (findCellBoundsAndReorder K b 0 numCells).cellEnd = b.cellEnd ∧
    (∀ i, i < numCells → (findCellBoundsAndReorder K b 0 numCells).cellStart i = sentinel) := by
  rw [findCellBoundsAndReorder_zero_eq]
  refine ⟨by decide, rfl, rfl, rfl, rfl, ?_⟩
  intro i hi
  simp [findCellBoundsAndReorder_reset, memSet_apply _ _ _ hN, hi, sentinel]

/-- Witness for C3 (amended): two cells and a kernel body that would
overwrite everything if it ran. -/
theorem findCellBoundsAndReorder_zero_particles_witness :
    (2 : Nat) < 2 ^ 32 ∧
    (findCellBoundsAndReorder
        (fun _ _ _ (_ : Buffers Nat) =>
          { cellStart := fun _ => 1, cellEnd := fun _ => 1,
            reorderedPos := fun _ => 1, reorderedVel := fun _ => 1 })
        { cellStart := fun _ => 5, cellEnd := fun j => j,
          reorderedPos := fun j => 2 * j, reorderedVel := fun j => 3 * j } 0 2).reorderedPos
      = fun j => 2 * j :=
  ⟨by decide,
   (findCellBoundsAndReorder_zero_particles
      (fun _ _ _ (_ : Buffers Nat) =>
          { cellStart := fun _ => 1, cellEnd := fun _ => 1,
            reorderedPos := fun _ => 1, reorderedVel := fun _ => 1 })
      { cellStart := fun _ => 5, cellEnd := fun j => j,
        reorderedPos := fun j => 2 * j, reorderedVel := fun j => 3 * j } 2 (by decide)).2.2.1⟩

/-- C4 (counterexample). The 32-bit element count `N = 4294967295` reaches
`calcHash` through its parameter `const int numParticles` as `-1`, which
converts to the `size_t` value `2 ^ 64 - 1`; `uSnap` of it and 64 wraps to
0, so the global work size of `calcHash` is 0 and not `>= N`. -/
theorem calcHash_launch_wraps :
    (4294967295 : Nat) < 2 ^ 32 ∧
    toInt 4294967295 = -1 ∧
    toSizeT (toInt 4294967295) = 18446744073709551615 ∧
    (calcHash_launch (toInt 4294967295)).globalSize = 0 ∧
    ¬ (4294967295 ≤ (calcHash_launch (toInt 4294967295)).globalSize) := by
  decide

/-- C4 (amended). For every 32-bit element count `N` the global work size of
`memSet`, `integrateSystem`, `findCellBoundsAndReorder` and `collide`, and
for every `N < 2 ^ 31` that of `calcHash` (whose parameter is an `int`), is
`uSnap(N, 64)` computed in `size_t`, with work-group size 64; it does not
wrap, is a multiple of 64, lies in `[N, N + 64)`, is below every other
multiple of 64 that is `>= N`, and covers every index of `[0, N)`. For all
`size_t` values `a` and `b > 0` whose sum `a - a % b + b` does not overflow,
`uSnap(a, b)` is the least multiple of `b` that is `>= a`, and it is `a` when
`b` divides `a`. -/
theorem uSnap_least_multiple :
    (∀ N : Nat, N < 2 ^ 32 →
      (memSet_launch N).globalSize = uSnap N wgSize ∧
      (integrateSystem_launch N).globalSize = uSnap N wgSize ∧
      (findCellBoundsAndReorder_launch N).globalSize = uSnap N wgSize ∧
      (collide_launch N).globalSize = uSnap N wgSize ∧
      (memSet_launch N).localSize = 64 ∧
      (integrateSystem_launch N).localSize = 64 ∧
      (findCellBoundsAndReorder_launch N).localSize = 64 ∧
      (collide_launch N).localSize = 64 ∧
      uSnap N wgSize = uSnapExact N 64 ∧
      64 ∣ uSnap N wgSize ∧
      N ≤ uSnap N wgSize ∧
      uSnap N wgSize < N + 64 ∧
      (∀ g, 64 ∣ g → N ≤ g → uSnap N wgSize ≤ g) ∧
      (∀ i, i < N → i < uSnap N wgSize)) ∧
    (∀ N : Nat, N < 2 ^ 31 →
      (calcHash_launch (toInt N)).globalSize = uSnap N wgSize ∧
      (calcHash_launch (toInt N)).localSize = 64) ∧
    (∀ a b : Nat, 0 < b → a < 2 ^ 64 → b < 2 ^ 64 → (a % b ≠ 0 → a - a % b + b < 2 ^ 64) →
      uSnap a b = uSnapExact a b ∧
      b ∣ uSnap a b ∧
      a ≤ uSnap a b ∧
      (∀ g, b ∣ g → a ≤ g → uSnap a b ≤ g) ∧
      (b ∣ a → uSnap a b = a)) := by
  have gen : ∀ a b : Nat, 0 < b → (a % b ≠ 0 → a - a % b + b < 2 ^ 64) →
      uSnap a b = uSnapExact a b ∧ b ∣ uSnap a b ∧ a ≤ uSnap a b ∧
      uSnap a b < a + b ∧
      (∀ g, b ∣ g → a ≤ g → uSnap a b ≤ g) ∧ (b ∣ a → uSnap a b = a) := by
    intro a b hb hov
    have hex := uSnap_eq_exact a b hov
    rw [hex]
    refine ⟨rfl, uSnapExact_dvd a b, uSnapExact_ge a b hb, uSnapExact_lt a b hb,
      fun g hg hag => uSnapExact_least a b g hb hg hag, ?_⟩
    intro hdvd
    unfold uSnapExact
    simp [Nat.mod_eq_zero_of_dvd hdvd]
  refine ⟨?_, ?_, ?_⟩
  · intro N hN
    have hov : N % 64 ≠ 0 → N - N % 64 + 64 < 2 ^ 64 := by
      intro _
      have := Nat.mod_le N 64
      omega
    obtain ⟨h1, h2, h3, h4, h5, _⟩ := gen N 64 (by decide) hov
    have h3' : N ≤ uSnap N wgSize := h3
    refine ⟨rfl, rfl, rfl, rfl, rfl, rfl, rfl, rfl, h1, h2, h3, h4, h5, ?_⟩
    intro i hi
    omega
  · intro N hN
    have hconv : toSizeT (toInt N) = N := by
      unfold toSizeT toInt
      omega
    refine ⟨?_, rfl⟩
    simp only [calcHash_launch, hconv]
  · intro a b hb _ _ hov
    obtain ⟨h1, h2, h3, _, h5, h6⟩ := gen a b hb hov
    exact ⟨h1, h2, h3, h5, h6⟩

/-- Witness for C4 (amended): `N = 100` for the launches and `a = 100`,
`b = 7` for the general statement. -/
theorem uSnap_least_multiple_witness :
    ((100 : Nat) < 2 ^ 32 ∧ 64 ∣ uSnap 100 wgSize ∧ 100 ≤ uSnap 100 wgSize ∧
      uSnap 100 wgSize < 100 + 64) ∧
    ((100 : Nat) < 2 ^ 31 ∧ (calcHash_launch (toInt 100)).globalSize = uSnap 100 wgSize) ∧
    ((0 : Nat) < 7 ∧ (100 % 7 ≠ 0 → 100 - 100 % 7 + 7 < 2 ^ 64) ∧ 7 ∣ uSnap 100 7 ∧
      100 ≤ uSnap 100 7) :=
  ⟨⟨by decide, (uSnap_least_multiple.1 100 (by decide)).2.2.2.2.2.2.2.2.2.1,
      (uSnap_least_multiple.1 100 (by decide)).2.2.2.2.2.2.2.2.2.2.1,
      (uSnap_least_multiple.1 100 (by decide)).2.2.2.2.2.2.2.2.2.2.2.1⟩,
   ⟨by decide, (uSnap_least_multiple.2.1 100 (by decide)).1⟩,
   ⟨by decide, by decide,
      (uSnap_least_multiple.2.2 100 7 (by decide) (by decide) (by decide) (by decide)).2.1,
      (uSnap_least_multiple.2.2 100 7 (by decide) (by decide) (by decide) (by decide)).2.2.1⟩⟩

/-- C5. The local accessor that `findCellBoundsAndReorder` allocates for the
bounds/reorder kernel has capacity exactly the work-group size of the same
launch plus one; the work-group size is `wgSize = 64`, so the capacity is 65,
and it is the capacity handed to every work-item of the kernel. -/
theorem findCellBoundsAndReorder_scratch_capacity (numParticles : Nat) :
    (findCellBoundsAndReorder_launch numParticles).scratch
      = (findCellBoundsAndReorder_launch numParticles).localSize + 1 ∧
    (findCellBoundsAndReorder_launch numParticles).localSize = wgSize ∧
    wgSize = 64 ∧
    (findCellBoundsAndReorder_launch numParticles).scratch = 65 ∧
    (∀ (β : Type) (K : Nat → Nat → Nat → Buffers β → Buffers β) (b : Buffers β) (numCells : Nat),
      findCellBoundsAndReorder K b numParticles numCells
        = runItems (uSnap numParticles wgSize) (fun gid st => K gid 65 numParticles st)
            (findCellBoundsAndReorder_reset b numCells)) := by
  refine ⟨rfl, rfl, rfl, rfl, ?_⟩
  intro β K b numCells
  rfl

/-! ### matrix-rotate: lemmas -/

theorem idx_eq_iff {n r c r' c' : Nat} (hc : c < n) (hc' : c' < n) :
    r * n + c = r' * n + c' ↔ r = r' ∧ c = c' := by
  constructor
  · intro h
    have hn : 0 < n := by omega
    have h1 : (r * n + c) / n = r := by
      rw [Nat.add_comm, Nat.add_mul_div_right _ _ hn, Nat.div_eq_of_lt hc]; simp
    have h2 : (r' * n + c') / n = r' := by
      rw [Nat.add_comm, Nat.add_mul_div_right _ _ hn, Nat.div_eq_of_lt hc']; simp
    have hr : r = r' := by rw [← h1, ← h2, h]
    subst hr
    exact ⟨rfl, by omega⟩
  · rintro ⟨rfl, rfl⟩; rfl

theorem idx_congr {n a b c d : Nat} (h1 : a = c) (h2 : b = d) : a * n + b = c * n + d := by
  rw [h1, h2]

theorem rotate4 {α : Type} (m : Nat → α) (T Lf B Rt : Nat)
    (h2 : T ≠ B) (h3 : T ≠ Rt) (h5 : Lf ≠ Rt) (p : Nat) :
    store (store (store (store m T (m Lf)) Lf (store m T (m Lf) B)) B
        (store (store m T (m Lf)) Lf (store m T (m Lf) B) Rt)) Rt (m T) p
      = if p = Rt then m T else if p = B then m Rt else if p = Lf then m B
        else if p = T then m Lf else m p := by
  unfold store
  have h2' := h2.symm
  have h3' := h3.symm
  have h5' := h5.symm
  simp only [h2', h3', h5', if_false]

theorem rotate_cell_apply {α : Type} (n first last i : Nat) (m : Nat → α)
    (hfi : first ≤ i) (hil : i < last) (hsum : first + last + 1 = n) (r c : Nat) (hc : c < n) :
    rotate_cell_exact n first last i m (r * n + c)
      = if r = i ∧ c = last then m (first * n + i)
        else if r = last ∧ c = n - 1 - i then m (i * n + last)
        else if r = n - 1 - i ∧ c = first then m (last * n + (n - 1 - i))
        else if r = first ∧ c = i then m ((n - 1 - i) * n + first)
        else m (r * n + c) := by
  have hq : last - (i - first) = n - 1 - i := by omega
  have hi : i < n := by omega
  have hl : last < n := by omega
  have hf : first < n := by omega
  have hqn : n - 1 - i < n := by omega
  unfold rotate_cell_exact
  simp only [hq]
  rw [rotate4]
  · simp only [idx_eq_iff hc hl, idx_eq_iff hc hqn, idx_eq_iff hc hf, idx_eq_iff hc hi]
  · rw [Ne, idx_eq_iff hi hqn]; omega
  · rw [Ne, idx_eq_iff hi hl]; omega
  · rw [Ne, idx_eq_iff hf hl]; omega

theorem rotate_layer_fold {α : Type} (n first last : Nat) (m : Nat → α)
    (hsum : first + last + 1 = n) (k : Nat) (hk : first + k ≤ last) (r c : Nat) (hc : c < n) :
    (List.range' first k).foldl (fun m i => rotate_cell_exact n first last i m) m (r * n + c)
      = if (r = first ∧ first ≤ c ∧ c < first + k) ∨ (c = last ∧ first ≤ r ∧ r < first + k) ∨
            (r = last ∧ c ≤ last ∧ last < c + k) ∨ (c = first ∧ r ≤ last ∧ last < r + k)
        then m ((n - 1 - c) * n + r) else m (r * n + c) := by
  induction k generalizing r c with
  | zero =>
    have : ¬ ((r = first ∧ first ≤ c ∧ c < first + 0) ∨ (c = last ∧ first ≤ r ∧ r < first + 0) ∨
            (r = last ∧ c ≤ last ∧ last < c + 0) ∨ (c = first ∧ r ≤ last ∧ last < r + 0)) := by
      omega
    simp only [this, if_false, List.range'_zero, List.foldl_nil]
  | succ k ih =>
    rw [List.range'_1_concat, List.foldl_append]
    simp only [List.foldl_cons, List.foldl_nil]
    rw [rotate_cell_apply n first last (first + k) _ (by omega) (by omega) hsum r c hc]
    have hk' : first + k ≤ last := by omega
    rw [ih hk' first (first + k) (by omega), ih hk' (first + k) last (by omega),
      ih hk' last (n - 1 - (first + k)) (by omega), ih hk' (n - 1 - (first + k)) first (by omega),
      ih hk' r c hc]
    split_ifs <;>
      first
      | rfl
      | (exfalso; omega)
      | (congr 1; apply idx_congr <;> omega)

theorem rotate_layer_apply {α : Type} (n L : Nat) (m : Nat → α) (hL : L < n / 2)
    (r c : Nat) (hc : c < n) :
    rotate_layer_exact n L m (r * n + c)
      = if r < n ∧ ringOf n r c = L then m ((n - 1 - c) * n + r) else m (r * n + c) := by
  unfold rotate_layer_exact
  rw [rotate_layer_fold n L (n - 1 - L) m (by omega) (n - 1 - L - L) (by omega) r c hc]
  have hiff : ((r = L ∧ L ≤ c ∧ c < L + (n - 1 - L - L)) ∨
      (c = n - 1 - L ∧ L ≤ r ∧ r < L + (n - 1 - L - L)) ∨
      (r = n - 1 - L ∧ c ≤ n - 1 - L ∧ n - 1 - L < c + (n - 1 - L - L)) ∨
      (c = L ∧ r ≤ n - 1 - L ∧ n - 1 - L < r + (n - 1 - L - L)))
      ↔ (r < n ∧ ringOf n r c = L) := by
    unfold ringOf
    omega
  simp only [hiff]

theorem matrix_rotate_eq_layer {α : Type} (n gid : Nat) (m : Nat → α) (h : gid < n / 2) :
    matrix_rotate_exact n gid m = rotate_layer_exact n gid m := by
  unfold matrix_rotate_exact
  simp only [h, if_true]

theorem matrix_rotate_skip {α : Type} (n gid : Nat) (m : Nat → α) (h : ¬ gid < n / 2) :
    matrix_rotate_exact n gid m = m := by
  unfold matrix_rotate_exact
  simp only [h, if_false]

theorem ringOf_turn (n r c : Nat) (hr : r < n) (hc : c < n) :
    ringOf n (n - 1 - c) r = ringOf n r c := by
  unfold ringOf
  omega

theorem matrix_rotate_apply {α : Type} (n gid : Nat) (m : Nat → α) (r c : Nat) (hc : c < n) :
    matrix_rotate_exact n gid m (r * n + c)
      = if r < n ∧ ringOf n r c = gid ∧ gid < n / 2 then m ((n - 1 - c) * n + r)
        else m (r * n + c) := by
  by_cases h : gid < n / 2
  · rw [matrix_rotate_eq_layer n gid m h, rotate_layer_apply n gid m h r c hc]
    simp only [h, and_true]
  · rw [matrix_rotate_skip n gid m h]
    simp only [h, and_false, if_false]

theorem matrix_rotate_launch_apply {α : Type} (n : Nat) (order : List Nat) (hnd : order.Nodup)
    (m : Nat → α) (r c : Nat) (hc : c < n) :
    matrix_rotate_launch_exact n order m (r * n + c)
      = if r < n ∧ ringOf n r c ∈ order ∧ ringOf n r c < n / 2 then m ((n - 1 - c) * n + r)
        else m (r * n + c) := by
  unfold matrix_rotate_launch_exact
  induction order using List.reverseRecOn generalizing r c with
  | nil => simp
  | append_singleton l g ih =>
    rw [List.foldl_append]
    simp only [List.foldl_cons, List.foldl_nil]
    rw [matrix_rotate_apply n g _ r c hc]
    have hnd' : l.Nodup := (List.nodup_append.1 hnd).1
    have hg : g ∉ l := by
      intro hmem
      have := (List.nodup_append.1 hnd).2.2
      exact this hmem (List.mem_singleton_self g)
    by_cases hcond : r < n ∧ ringOf n r c = g ∧ g < n / 2
    · obtain ⟨hr, hring, hlt⟩ := hcond
      simp only [hr, hring, hlt, and_self, if_true, true_and, List.mem_append,
        List.mem_singleton, or_true]
      rw [ih hnd' (n - 1 - c) r hr]
      have hturn := ringOf_turn n r c hr hc
      rw [hturn, hring]
      simp only [hg, false_and, and_false, if_false]
    · rw [if_neg hcond, ih hnd' r c hc]
      have hiff : (r < n ∧ ringOf n r c ∈ l ++ [g] ∧ ringOf n r c < n / 2)
          ↔ (r < n ∧ ringOf n r c ∈ l ∧ ringOf n r c < n / 2) := by
        simp only [List.mem_append, List.mem_singleton]
        constructor
        · rintro ⟨h1, h2 | h2, h3⟩
          · exact ⟨h1, h2, h3⟩
          · exact absurd ⟨h1, h2, h2 ▸ h3⟩ hcond
        · rintro ⟨h1, h2, h3⟩
          exact ⟨h1, Or.inl h2, h3⟩
      simp only [hiff]

theorem rotate_matrix_serial_eq_launch {α : Type} (n : Nat) (m : Nat → α) :
    rotate_matrix_serial_exact m n = matrix_rotate_launch_exact n (List.range (n / 2)) m := by
  unfold rotate_matrix_serial_exact matrix_rotate_launch_exact
  have key : ∀ (l : List Nat), (∀ g ∈ l, g < n / 2) → ∀ m : Nat → α,
      l.foldl (fun m layer => rotate_layer_exact n layer m) m
        = l.foldl (fun m gid => matrix_rotate_exact n gid m) m := by
    intro l
    induction l with
    | nil => intro _ _; rfl
    | cons g l ih =>
      intro hl m
      simp only [List.foldl_cons]
      rw [matrix_rotate_eq_layer n g m (hl g (List.mem_cons_self g l))]
      exact ih (fun x hx => hl x (List.mem_cons_of_mem g hx)) _
  exact key _ (fun g hg => List.mem_range.1 hg) m

theorem rotate_matrix_serial_apply {α : Type} (n : Nat) (m : Nat → α) (r c : Nat) (hc : c < n) :
    rotate_matrix_serial_exact m n (r * n + c)
      = if r < n then m ((n - 1 - c) * n + r) else m (r * n + c) := by
  rw [rotate_matrix_serial_eq_launch,
    matrix_rotate_launch_apply n _ (List.nodup_range _) m r c hc]
  by_cases hr : r < n
  · simp only [hr, true_and, List.mem_range, and_self, if_true]
    by_cases hring : ringOf n r c < n / 2
    · simp only [hring, if_true]
    · simp only [hring, if_false]
      congr 1
      unfold ringOf at hring
      apply idx_congr <;> omega
  · simp only [hr, false_and, if_false]

theorem rotate_matrix_serial_eq_rotated {α : Type} (n : Nat) (m : Nat → α) :
    rotate_matrix_serial_exact m n = rotated_clockwise n m := by
  funext p
  unfold rotated_clockwise
  rcases Nat.eq_zero_or_pos n with h0 | hn
  · subst h0
    simp [rotate_matrix_serial_exact]
  · have hmod : p % n < n := Nat.mod_lt p hn
    have hp : p = p / n * n + p % n := by
      have := Nat.div_add_mod p n
      rw [Nat.mul_comm] at this
      omega
    have hdiv : p / n < n ↔ p < n * n := Nat.div_lt_iff_lt_mul hn
    conv_lhs => rw [hp]
    rw [rotate_matrix_serial_apply n m (p / n) (p % n) hmod]
    simp only [hdiv, ← hp]

theorem matrix_rotate_launch_eq_serial {α : Type} (n : Nat) (order : List Nat)
    (hperm : order.Perm (List.range (matrix_rotate_globalRange n))) (m : Nat → α) :
    matrix_rotate_launch_exact n order m = rotate_matrix_serial_exact m n := by
  funext p
  rcases Nat.eq_zero_or_pos n with h0 | hn
  · subst h0
    have hskip : ∀ (l : List Nat) (m : Nat → α),
        l.foldl (fun m gid => matrix_rotate_exact 0 gid m) m = m := by
      intro l
      induction l with
      | nil => intro _; rfl
      | cons g l ih =>
        intro m
        simp only [List.foldl_cons]
        rw [matrix_rotate_skip 0 g m (by omega)]
        exact ih m
    simp [rotate_matrix_serial_exact, matrix_rotate_launch_exact, hskip]
  · have hmod : p % n < n := Nat.mod_lt p hn
    have hp : p = p / n * n + p % n := by
      have := Nat.div_add_mod p n
      rw [Nat.mul_comm] at this
      omega
    have hnd : order.Nodup := hperm.nodup_iff.2 (List.nodup_range _)
    rw [hp, rotate_matrix_serial_eq_launch,
      matrix_rotate_launch_apply n order hnd m _ _ hmod,
      matrix_rotate_launch_apply n _ (List.nodup_range _) m _ _ hmod]
    have hmem : ∀ g, g < n / 2 → (g ∈ order ↔ g ∈ List.range (n / 2)) := by
      intro g hg
      rw [hperm.mem_iff, List.mem_range, List.mem_range]
      unfold matrix_rotate_globalRange
      constructor
      · intro _; exact hg
      · intro _; omega
    by_cases hring : ringOf n (p / n) (p % n) < n / 2
    · simp only [hmem _ hring]
    · simp only [hring, and_false, if_false]

theorem rotate_matrix_serial_outside {α : Type} (n : Nat) (m : Nat → α) (p : Nat)
    (hp : n * n ≤ p) : rotate_matrix_serial_exact m n p = m p := by
  rw [rotate_matrix_serial_eq_rotated]
  unfold rotated_clockwise
  simp only [Nat.not_lt.2 hp, if_false]

theorem rotate_matrix_serial_inside {α : Type} (n : Nat) (m : Nat → α) (r c : Nat)
    (hr : r < n) (hc : c < n) :
    rotate_matrix_serial_exact m n (r * n + c) = m ((n - 1 - c) * n + r) := by
  rw [rotate_matrix_serial_apply n m r c hc]
  simp only [hr, if_true]

theorem idx_lt_sq {n r c : Nat} (hr : r < n) (hc : c < n) : r * n + c < n * n := by
  have h1 : (r + 1) * n ≤ n * n := Nat.mul_le_mul_right n hr
  have h2 : (r + 1) * n = r * n + n := by ring
  omega

theorem turn_index_perm (n : Nat) :
    ((List.range (n * n)).map (fun p => (n - 1 - p % n) * n + p / n)).Perm
      (List.range (n * n)) := by
  rcases Nat.eq_zero_or_pos n with h0 | hn
  · subst h0; simp
  apply List.Subperm.perm_of_length_le
  · apply List.subperm_of_subset
    · apply List.Nodup.map_on _ (List.nodup_range _)
      intro x hx y hy hxy
      rw [List.mem_range] at hx hy
      have hxd : x / n < n := (Nat.div_lt_iff_lt_mul hn).2 hx
      have hyd : y / n < n := (Nat.div_lt_iff_lt_mul hn).2 hy
      have hxm : x % n < n := Nat.mod_lt x hn
      have hym : y % n < n := Nat.mod_lt y hn
      obtain ⟨h1, h2⟩ := (idx_eq_iff hxd hyd).1 hxy
      have hx' := Nat.div_add_mod x n
      have hy' := Nat.div_add_mod y n
      have h3 : x % n = y % n := by omega
      rw [← hx', ← hy', h2, h3]
    · intro q hq
      rw [List.mem_map] at hq
      obtain ⟨p, hp, rfl⟩ := hq
      rw [List.mem_range] at hp ⊢
      have hpd : p / n < n := (Nat.div_lt_iff_lt_mul hn).2 hp
      exact idx_lt_sq (by omega) hpd
  · simp

theorem serial_rotate_eq_parallel {α : Type} (n : Nat) (orders : Nat → List Nat)
    (h : ∀ k, (orders k).Perm (List.range (matrix_rotate_globalRange n)))
    (rep : Nat) (m : Nat → α) :
    parallel_rotate_exact n orders rep m = serial_rotate_exact n rep m := by
  induction rep with
  | zero => rfl
  | succ k ih =>
    simp only [parallel_rotate_exact, serial_rotate_exact]
    rw [ih, matrix_rotate_launch_eq_serial n (orders k) (h k)]



/-! ### matrix-rotate: the exact loops -/

/-- The rotation with exact indices is the clockwise quarter turn, in all the
forms the claim gives it. -/
theorem rotate_matrix_serial_exact_props {α : Type} (n : Nat) (m : Nat → α) :
    (∀ r c, r < n → c < n → rotate_matrix_serial_exact m n (r * n + c) = m ((n - 1 - c) * n + r)) ∧
    (∀ p, n * n ≤ p → rotate_matrix_serial_exact m n p = m p) ∧
    rotate_matrix_serial_exact m n = rotated_clockwise n m ∧
    ((List.range (n * n)).map (rotate_matrix_serial_exact m n)).Perm ((List.range (n * n)).map m) ∧
    (n % 2 = 1 →
      rotate_matrix_serial_exact m n (n / 2 * n + n / 2) = m (n / 2 * n + n / 2)) ∧
    rotate_matrix_serial_exact (rotate_matrix_serial_exact (rotate_matrix_serial_exact
      (rotate_matrix_serial_exact m n) n) n) n = m := by
  refine ⟨fun r c hr hc => rotate_matrix_serial_inside n m r c hr hc,
    fun p hp => rotate_matrix_serial_outside n m p hp,
    rotate_matrix_serial_eq_rotated n m, ?_, ?_, ?_⟩
  · have hmap : (List.range (n * n)).map (rotate_matrix_serial_exact m n)
        = ((List.range (n * n)).map (fun p => (n - 1 - p % n) * n + p / n)).map m := by
      rw [List.map_map]
      apply List.map_congr_left
      intro p hp
      rw [List.mem_range] at hp
      rw [rotate_matrix_serial_eq_rotated]
      unfold rotated_clockwise
      simp only [hp, if_true, Function.comp]
    rw [hmap]
    exact (turn_index_perm n).map m
  · intro hodd
    rw [rotate_matrix_serial_inside n m (n / 2) (n / 2) (by omega) (by omega)]
    congr 1
    apply idx_congr <;> omega
  · funext p
    rcases Nat.eq_zero_or_pos n with h0 | hn
    · subst h0
      simp [rotate_matrix_serial_exact]
    · by_cases hp : p < n * n
      · have hc : p % n < n := Nat.mod_lt p hn
        have hr : p / n < n := (Nat.div_lt_iff_lt_mul hn).2 hp
        have hpe : p = p / n * n + p % n := by
          have := Nat.div_add_mod p n
          rw [Nat.mul_comm] at this
          omega
        generalize p / n = r at hr hpe
        generalize p % n = c at hc hpe
        subst hpe
        rw [rotate_matrix_serial_inside n _ r c hr hc,
          rotate_matrix_serial_inside n _ (n - 1 - c) r (by omega) hr,
          rotate_matrix_serial_inside n _ (n - 1 - r) (n - 1 - c) (by omega) (by omega),
          rotate_matrix_serial_inside n _ (n - 1 - (n - 1 - c)) (n - 1 - r) (by omega) (by omega)]
        congr 1
        apply idx_congr <;> omega
      · have hp' : n * n ≤ p := Nat.not_lt.1 hp
        rw [rotate_matrix_serial_outside n _ p hp', rotate_matrix_serial_outside n _ p hp',
          rotate_matrix_serial_outside n _ p hp', rotate_matrix_serial_outside n _ p hp']

/-- With exact indices every order of the work-items gives the serial result,
and each work-item touches its own ring only. -/
theorem parallel_rotate_exact_props {α : Type} (n : Nat) (m : Nat → α) (rep : Nat)
    (orders : Nat → List Nat)
    (h : ∀ k, (orders k).Perm (List.range (matrix_rotate_globalRange n))) :
    parallel_rotate_exact n orders rep m = serial_rotate_exact n rep m ∧
    matrix_rotate_localRange ∣ matrix_rotate_globalRange n ∧
    (∀ layer, layer < n / 2 →
      layer < matrix_rotate_globalRange n ∧ ∀ k, (orders k).count layer = 1) ∧
    (∀ gid (a : Nat → α), n / 2 ≤ gid → matrix_rotate_exact n gid a = a) ∧
    (∀ layer (a : Nat → α) r c, layer < n / 2 → c < n →
      matrix_rotate_exact n layer a (r * n + c)
        = if r < n ∧ ringOf n r c = layer then a ((n - 1 - c) * n + r) else a (r * n + c)) ∧
    (∀ r c, r < n → c < n → ringOf n (n - 1 - c) r = ringOf n r c) := by
  refine ⟨serial_rotate_eq_parallel n orders h rep m, ?_, ?_, ?_, ?_, ?_⟩
  · unfold matrix_rotate_localRange matrix_rotate_globalRange
    exact Dvd.intro_left _ rfl
  · intro layer hl
    have hlt : layer < matrix_rotate_globalRange n := by
      unfold matrix_rotate_globalRange
      omega
    refine ⟨hlt, fun k => ?_⟩
    rw [(h k).count_eq]
    exact List.count_eq_one_of_mem (List.nodup_range _) (List.mem_range.2 hlt)
  · intro gid a hg
    exact matrix_rotate_skip n gid a (by omega)
  · intro layer a r c hl hc
    rw [matrix_rotate_apply n layer a r c hc]
    simp only [hl, and_true]
  · intro r c hr hc
    exact ringOf_turn n r c hr hc



/-! ### matrix-rotate: the loops with `int` indices -/

theorem intCell_eq (a n b : Nat) (h : a * n + b ≤ 2147483647) :
    intCell a n b = some (a * n + b) := by
  unfold intCell
  have h1 : a * n ≤ 2147483647 := by omega
  simp only [h1, h, if_true]

theorem intCell_overflow (a n b : Nat) (h : 2147483647 < a * n + b) : intCell a n b = none := by
  unfold intCell
  have h1 : ¬ a * n + b ≤ 2147483647 := by omega
  by_cases h2 : a * n ≤ 2147483647
  · simp only [h2, h1, if_true, if_false]
  · simp only [h2, if_false]

theorem rotate_cell_eq_exact {α : Type} (n first last i : Nat) (m : Nat → α)
    (hn : n * n ≤ 2147483647) (hfi : first ≤ i) (hil : i < last) (hln : last < n) :
    rotate_cell n first last i m = some (rotate_cell_exact n first last i m) := by
  unfold rotate_cell rotate_cell_exact
  dsimp only
  have b1 := idx_lt_sq (show first < n by omega) (show i < n by omega)
  have b2 := idx_lt_sq (show last - (i - first) < n by omega) (show first < n by omega)
  have b3 := idx_lt_sq hln (show last - (i - first) < n by omega)
  have b4 := idx_lt_sq (show i < n by omega) hln
  rw [intCell_eq first n i (by omega), intCell_eq (last - (i - first)) n first (by omega),
    intCell_eq last n (last - (i - first)) (by omega), intCell_eq i n last (by omega)]
  rfl

theorem rotate_layer_eq_exact {α : Type} (n layer : Nat) (m : Nat → α)
    (hn : n * n ≤ 2147483647) (hl : layer < n / 2) :
    rotate_layer n layer m = some (rotate_layer_exact n layer m) := by
  unfold rotate_layer rotate_layer_exact
  apply foldlM_option_some
  intro i hi s
  rw [List.mem_range'_1] at hi
  exact rotate_cell_eq_exact n layer (n - 1 - layer) i s hn hi.1 (by omega) (by omega)

theorem rotate_matrix_serial_eq_exact {α : Type} (n : Nat) (m : Nat → α)
    (hn : n * n ≤ 2147483647) :
    rotate_matrix_serial m n = some (rotate_matrix_serial_exact m n) := by
  unfold rotate_matrix_serial rotate_matrix_serial_exact
  apply foldlM_option_some
  intro layer hl s
  exact rotate_layer_eq_exact n layer s hn (List.mem_range.1 hl)

theorem matrix_rotate_eq_rotate_layer {α : Type} (n gid : Nat) (m : Nat → α)
    (h : gid < n / 2) : matrix_rotate n gid m = rotate_layer n gid m := by
  unfold matrix_rotate rotate_layer rotate_cell
  simp only [h, if_true]

theorem matrix_rotate_idle {α : Type} (n gid : Nat) (m : Nat → α) (h : ¬ gid < n / 2) :
    matrix_rotate n gid m = some m := by
  unfold matrix_rotate
  simp only [h, if_false]

theorem matrix_rotate_eq_exact {α : Type} (n gid : Nat) (m : Nat → α)
    (hn : n * n ≤ 2147483647) :
    matrix_rotate n gid m = some (matrix_rotate_exact n gid m) := by
  by_cases h : gid < n / 2
  · rw [matrix_rotate_eq_rotate_layer n gid m h, rotate_layer_eq_exact n gid m hn h,
      matrix_rotate_eq_layer n gid m h]
  · rw [matrix_rotate_idle n gid m h, matrix_rotate_skip n gid m h]

theorem matrix_rotate_launch_eq_exact {α : Type} (n : Nat) (order : List Nat) (m : Nat → α)
    (hn : n * n ≤ 2147483647) :
    matrix_rotate_launch n order m = some (matrix_rotate_launch_exact n order m) := by
  unfold matrix_rotate_launch matrix_rotate_launch_exact
  apply foldlM_option_some
  intro gid _ s
  exact matrix_rotate_eq_exact n gid s hn

theorem parallel_rotate_eq_exact {α : Type} (n : Nat) (orders : Nat → List Nat) (rep : Nat)
    (m : Nat → α) (hn : n * n ≤ 2147483647) :
    parallel_rotate n orders rep m = some (parallel_rotate_exact n orders rep m) := by
  induction rep with
  | zero => rfl
  | succ k ih =>
    simp only [parallel_rotate, parallel_rotate_exact]
    rw [ih, Option.some_bind, matrix_rotate_launch_eq_exact n _ _ hn]

theorem serial_rotate_eq_exact {α : Type} (n : Nat) (rep : Nat) (m : Nat → α)
    (hn : n * n ≤ 2147483647) :
    serial_rotate n rep m = some (serial_rotate_exact n rep m) := by
  induction rep with
  | zero => rfl
  | succ k ih =>
    simp only [serial_rotate, serial_rotate_exact]
    rw [ih, Option.some_bind, rotate_matrix_serial_eq_exact n _ hn]

/-- The first iteration of layer 0 evaluates `last * n + (last - offset)` with
`last = n - 1` and `offset = 0`; when that exceeds `INT_MAX` the iteration has
no result. -/
theorem rotate_cell_overflow {α : Type} (n : Nat) (m : Nat → α)
    (hov : 2147483647 < (n - 1) * n + (n - 1)) : rotate_cell n 0 (n - 1) 0 m = none := by
  unfold rotate_cell
  dsimp only
  have h3 : intCell (n - 1) n (n - 1 - (0 - 0)) = none :=
    intCell_overflow _ _ _ (by simpa using hov)
  cases h1 : intCell 0 n 0 with
  | none => rfl
  | some k1 =>
    cases h2 : intCell (n - 1 - (0 - 0)) n 0 with
    | none => rfl
    | some k2 =>
      simp only [h3, Option.bind_eq_bind, Option.some_bind, Option.none_bind]

theorem rotate_layer_overflow {α : Type} (n : Nat) (m : Nat → α)
    (hov : 2147483647 < (n - 1) * n + (n - 1)) : rotate_layer n 0 m = none := by
  unfold rotate_layer
  have hn : 2 ≤ n := by
    by_contra hcon
    have h1 : n = 0 ∨ n = 1 := by omega
    rcases h1 with rfl | rfl <;> simp at hov
  apply foldlM_option_none _ _ 0
  · rw [List.mem_range'_1]
    omega
  · intro s
    have := rotate_cell_overflow n s hov
    simpa using this

theorem rotate_matrix_serial_overflow {α : Type} (n : Nat) (m : Nat → α)
    (hov : 2147483647 < (n - 1) * n + (n - 1)) : rotate_matrix_serial m n = none := by
  unfold rotate_matrix_serial
  have hn : 2 ≤ n := by
    by_contra hcon
    have h1 : n = 0 ∨ n = 1 := by omega
    rcases h1 with rfl | rfl <;> simp at hov
  apply foldlM_option_none _ _ 0
  · rw [List.mem_range]
    omega
  · intro s
    exact rotate_layer_overflow n s hov

theorem matrix_rotate_launch_overflow {α : Type} (n : Nat) (order : List Nat) (m : Nat → α)
    (hov : 2147483647 < (n - 1) * n + (n - 1)) (h0 : 0 ∈ order) :
    matrix_rotate_launch n order m = none := by
  unfold matrix_rotate_launch
  have hn : 2 ≤ n := by
    by_contra hcon
    have h1 : n = 0 ∨ n = 1 := by omega
    rcases h1 with rfl | rfl <;> simp at hov
  apply foldlM_option_none _ _ 0 h0
  intro s
  rw [matrix_rotate_eq_rotate_layer n 0 s (by omega)]
  exact rotate_layer_overflow n s hov


/-! ### matrix-rotate: claims -/

/-- C8 (counterexample). For `n = 46341` the first iteration of
`rotate_matrix_serial` (layer 0, `i = 0`) evaluates the `int` expression
`last * n + (last - offset) = 46340 * 46341 + 46340 = 2147488280`, which
exceeds `INT_MAX`: the function has undefined behaviour and yields no rotated
matrix. -/
theorem rotate_matrix_serial_overflows :
    (46340 : Nat) * 46341 + 46340 = 2147488280 ∧
    intCell 46340 46341 46340 = none ∧
    rotate_matrix_serial (fun p : Nat => p) 46341 = none :=
  ⟨by decide, by decide, rotate_matrix_serial_overflow 46341 (fun p : Nat => p) (by decide)⟩

/-- C8 (amended). For every `n` with `n * n <= 2 ^ 31 - 1` and every `n * n`
row-major matrix, `rotate_matrix_serial` returns, and turns the matrix a
quarter turn clockwise in place: the entry at row `r`, column `c` becomes the
original entry at row `n - 1 - c`, column `r`; cells beyond the matrix are
untouched; the result is the function `rotated_clockwise`; its entries are a
permutation of the original entries; the centre of an odd-sized matrix is
unchanged; and four successive rotations give back the original matrix. -/
theorem rotate_matrix_serial_clockwise {α : Type} (n : Nat) (m : Nat → α)
    (hn : n * n ≤ 2147483647) :
    ∃ result : Nat → α,
      rotate_matrix_serial m n = some result ∧
      (∀ r c, r < n → c < n → result (r * n + c) = m ((n - 1 - c) * n + r)) ∧
      (∀ p, n * n ≤ p → result p = m p) ∧
      result = rotated_clockwise n m ∧
      ((List.range (n * n)).map result).Perm ((List.range (n * n)).map m) ∧
      (n % 2 = 1 → result (n / 2 * n + n / 2) = m (n / 2 * n + n / 2)) ∧
      (((rotate_matrix_serial m n).bind (fun a => rotate_matrix_serial a n)).bind
          (fun a => rotate_matrix_serial a n)).bind (fun a => rotate_matrix_serial a n)
        = some m := by
  obtain ⟨h1, h2, h3, h4, h5, h6⟩ := rotate_matrix_serial_exact_props n m
  refine ⟨rotate_matrix_serial_exact m n, rotate_matrix_serial_eq_exact n m hn,
    h1, h2, h3, h4, h5, ?_⟩
  rw [rotate_matrix_serial_eq_exact n m hn, Option.some_bind,
    rotate_matrix_serial_eq_exact n _ hn, Option.some_bind,
    rotate_matrix_serial_eq_exact n _ hn, Option.some_bind,
    rotate_matrix_serial_eq_exact n _ hn, h6]

/-- Witness for C8 (amended) on the 3 x 3 matrix whose entries are their own
indices: the function returns a matrix. -/
theorem rotate_matrix_serial_clockwise_witness :
    (3 : Nat) * 3 ≤ 2147483647 ∧
    ∃ result : Nat → Nat,
      rotate_matrix_serial (fun p => p) 3 = some result ∧
      (∀ r c, r < 3 → c < 3 → result (r * 3 + c) = (3 - 1 - c) * 3 + r) :=
  ⟨by decide,
   (rotate_matrix_serial_clockwise 3 (fun p => p) (by decide)).elim
     (fun result hres => ⟨result, hres.1, hres.2.1⟩)⟩

/-- C2 (counterexample). For `n = 46341` and one repetition, the work-item of
layer 0 and the first iteration of `rotate_matrix_serial` both evaluate the
`int` expression `46340 * 46341 + 46340 = 2147488280 > INT_MAX`: the launch
(work-items in increasing order of id) and the serial run have undefined
behaviour, and neither yields a matrix to compare. -/
theorem parallel_rotate_overflows :
    parallel_rotate 46341 (fun _ => List.range (matrix_rotate_globalRange 46341)) 1
      (fun p : Nat => p) = none ∧
    serial_rotate 46341 1 (fun p : Nat => p) = none := by
  constructor
  · show (some (fun p : Nat => p)).bind
      (fun a => matrix_rotate_launch 46341 (List.range (matrix_rotate_globalRange 46341)) a) = none
    rw [Option.some_bind]
    apply matrix_rotate_launch_overflow 46341 _ _ (by decide)
    rw [List.mem_range]
    decide
  · show (some (fun p : Nat => p)).bind (fun a => rotate_matrix_serial a 46341) = none
    rw [Option.some_bind]
    exact rotate_matrix_serial_overflow 46341 _ (by decide)

/-- C2 (amended). For every `n` with `n * n <= 2 ^ 31 - 1`, every matrix and
every repeat count, running the `matrix_rotate` kernel `rep` times, each
launch taking the work-items of the global range `(n/2+255)/256*256` in an
arbitrary order, yields a matrix, and it is exactly the matrix that `rep`
calls of `rotate_matrix_serial` yield. The global range is made of whole
groups of 256, every layer below `n / 2` is the id of exactly one work-item
of each launch, the work-items from `n / 2` on change nothing, and the
work-item of a layer writes only cells of the ring of that layer, each from a
cell of the same ring, so that distinct layers touch disjoint cells. -/
theorem parallel_rotate_eq_serial_rotate {α : Type} (n : Nat) (m : Nat → α) (rep : Nat)
    (orders : Nat → List Nat) (hn : n * n ≤ 2147483647)
    (h : ∀ k, (orders k).Perm (List.range (matrix_rotate_globalRange n))) :
    (∃ result : Nat → α,
      parallel_rotate n orders rep m = some result ∧ serial_rotate n rep m = some result) ∧
    matrix_rotate_localRange ∣ matrix_rotate_globalRange n ∧
    (∀ layer, layer < n / 2 →
      layer < matrix_rotate_globalRange n ∧ ∀ k, (orders k).count layer = 1) ∧
    (∀ gid (a : Nat → α), n / 2 ≤ gid → matrix_rotate n gid a = some a) ∧
    (∀ layer (a : Nat → α), layer < n / 2 →
      ∃ b : Nat → α, matrix_rotate n layer a = some b ∧
        ∀ r c, c < n →
          b (r * n + c)
            = if r < n ∧ ringOf n r c = layer then a ((n - 1 - c) * n + r) else a (r * n + c)) ∧
    (∀ r c, r < n → c < n → ringOf n (n - 1 - c) r = ringOf n r c) := by
  obtain ⟨h1, h2, h3, _, h5, h6⟩ := parallel_rotate_exact_props n m rep orders h
  refine ⟨⟨serial_rotate_exact n rep m, ?_, serial_rotate_eq_exact n rep m hn⟩, h2, h3, ?_, ?_, h6⟩
  · rw [parallel_rotate_eq_exact n orders rep m hn, h1]
  · intro gid a hg
    exact matrix_rotate_idle n gid a (by omega)
  · intro layer a hl
    refine ⟨matrix_rotate_exact n layer a, matrix_rotate_eq_exact n layer a hn, ?_⟩
    intro r c hc
    rw [matrix_rotate_apply n layer a r c hc]
    simp only [hl, and_true]

/-- Witness for C2 (amended): a 4 x 4 matrix rotated twice, the work-items of
each launch taken from the highest id down. -/
theorem parallel_rotate_eq_serial_rotate_witness :
    (4 : Nat) * 4 ≤ 2147483647 ∧
    ((List.range (matrix_rotate_globalRange 4)).reverse).Perm
      (List.range (matrix_rotate_globalRange 4)) ∧
    ∃ result : Nat → Nat,
      parallel_rotate 4 (fun _ => (List.range (matrix_rotate_globalRange 4)).reverse) 2
          (fun p => p) = some result ∧
      serial_rotate 4 2 (fun p => p) = some result :=
  ⟨by decide, List.reverse_perm _,
   (parallel_rotate_eq_serial_rotate 4 (fun p => p) 2
      (fun _ => (List.range (matrix_rotate_globalRange 4)).reverse) (by decide)
      (fun _ => List.reverse_perm _)).1⟩

/-! ### convolution: lemmas on folds of stores -/

theorem foldl_obs_keep {σ β γ : Type} (obs : σ → β) (v : β) (f : σ → γ → σ) (l : List γ)
    (hkeep : ∀ a ∈ l, ∀ s, obs (f s a) = v ∨ obs (f s a) = obs s) (s : σ) :
    obs (l.foldl f s) = v ∨ obs (l.foldl f s) = obs s := by
  induction l generalizing s with
  | nil => right; rfl
  | cons a l ih =>
    simp only [List.foldl_cons]
    have hl : ∀ a' ∈ l, ∀ s, obs (f s a') = v ∨ obs (f s a') = obs s :=
      fun a' ha' => hkeep a' (List.mem_cons_of_mem a ha')
    rcases ih hl (f s a) with h | h
    · left; exact h
    · rcases hkeep a (List.mem_cons_self a l) s with h' | h'
      · left; rw [h, h']
      · right; rw [h, h']

theorem foldl_obs_set {σ β γ : Type} (obs : σ → β) (v : β) (f : σ → γ → σ) (l : List γ)
    (hkeep : ∀ a ∈ l, ∀ s, obs (f s a) = v ∨ obs (f s a) = obs s)
    (hset : ∃ a ∈ l, ∀ s, obs (f s a) = v) (s : σ) :
    obs (l.foldl f s) = v := by
  induction l generalizing s with
  | nil => obtain ⟨a, ha, _⟩ := hset; cases ha
  | cons a l ih =>
    simp only [List.foldl_cons]
    have hl : ∀ a' ∈ l, ∀ s, obs (f s a') = v ∨ obs (f s a') = obs s :=
      fun a' ha' => hkeep a' (List.mem_cons_of_mem a ha')
    obtain ⟨b, hb, hbset⟩ := hset
    rcases List.mem_cons.1 hb with rfl | hbl
    · rcases foldl_obs_keep obs v f l hl (f s b) with h | h
      · exact h
      · rw [h]; exact hbset s
    · exact ih hl ⟨b, hbl, hbset⟩ (f s a)

theorem foldl_obs_skip {σ β γ : Type} (obs : σ → β) (f : σ → γ → σ) (l : List γ)
    (hskip : ∀ a ∈ l, ∀ s, obs (f s a) = obs s) (s : σ) :
    obs (l.foldl f s) = obs s := by
  induction l generalizing s with
  | nil => rfl
  | cons a l ih =>
    simp only [List.foldl_cons]
    rw [ih (fun a' ha' => hskip a' (List.mem_cons_of_mem a ha')),
      hskip a (List.mem_cons_self a l)]

theorem mem_steps (lo hi : Nat) (i : Int) :
    i ∈ steps lo hi ↔ (lo : Int) ≤ i ∧ i < (hi : Int) := by
  unfold steps
  simp only [List.mem_map, List.mem_range'_1]
  constructor
  · rintro ⟨n, ⟨h1, h2⟩, rfl⟩
    omega
  · rintro ⟨h1, h2⟩
    refine ⟨i.toNat, ⟨by omega, by omega⟩, by omega⟩

theorem mem_radiusSteps (R j : Int) : j ∈ radiusSteps R ↔ -R ≤ j ∧ j ≤ R := by
  unfold radiusSteps
  simp only [List.mem_map, List.mem_range]
  constructor
  · rintro ⟨t, ht, rfl⟩
    omega
  · rintro ⟨h1, h2⟩
    refine ⟨(j + R).toNat, by omega, by omega⟩

theorem image_index_bounds (W H x y : Int) (hx0 : 0 ≤ x) (hx : x < W) (hy0 : 0 ≤ y)
    (hy : y < H) : 0 ≤ y * W + x ∧ y * W + x < W * H := by
  have hW : 0 ≤ W := by omega
  constructor
  · have := mul_nonneg hy0 hW
    omega
  · have h1 : (y + 1) * W ≤ H * W := mul_le_mul_of_nonneg_right (by omega) hW
    have h2 : (y + 1) * W = y * W + W := by ring
    have h3 : H * W = W * H := by ring
    omega

theorem image_index_inj (W x y x' y' : Int) (hx0 : 0 ≤ x) (hx : x < W) (hx0' : 0 ≤ x')
    (hx' : x' < W) (h : y * W + x = y' * W + x') : x = x' ∧ y = y' := by
  have hW : 0 < W := by omega
  have hy : y = y' := by
    rcases lt_trichotomy y y' with hlt | heq | hgt
    · exfalso
      have h1 : (y + 1) * W ≤ y' * W := mul_le_mul_of_nonneg_right (by omega) (by omega)
      have h2 : (y + 1) * W = y * W + W := by ring
      omega
    · exact heq
    · exfalso
      have h1 : (y' + 1) * W ≤ y * W := mul_le_mul_of_nonneg_right (by omega) (by omega)
      have h2 : (y' + 1) * W = y' * W + W := by ring
      omega
  subst hy
  exact ⟨by omega, rfl⟩

/-! ### convolution: the row kernel -/

theorem convolutionRows_item_bounds (W H : Nat) (hW : W % 128 = 0) (hH : H % 4 = 0)
    (it : Item) (hit : convolutionRows_item W H it) :
    (it.gidX : Int) * 128 + 128 ≤ W ∧ (it.gidY : Int) * 4 + 4 ≤ H ∧
    (it.lidX : Int) < 16 ∧ (it.lidY : Int) < 4 := by
  unfold convolutionRows_item convolutionRows_grid ROWS_RESULT_STEPS ROWS_BLOCKDIM_X
    ROWS_BLOCKDIM_Y at hit
  simp only at hit
  omega

theorem conv_rows_loads_spec (W H : Nat) (hW : W % 128 = 0) (hH : H % 4 = 0)
    (it : Item) (hit : convolutionRows_item W H it) (op : Load)
    (hop : op ∈ conv_rows_loads_exact W H W it) :
    op.row = it.lidY ∧ 0 ≤ op.col ∧ op.col < 160 ∧ op.col % 16 = it.lidX ∧
    op.srcIdx =
      if 0 ≤ (it.gidX : Int) * 128 - 16 + op.col ∧ (it.gidX : Int) * 128 - 16 + op.col < W
      then some (((it.gidY : Int) * 4 + it.lidY) * W + ((it.gidX : Int) * 128 - 16 + op.col))
      else none := by
  obtain ⟨h1, h2, h3, h4⟩ := convolutionRows_item_bounds W H hW hH it hit
  unfold conv_rows_loads_exact at hop
  simp only [List.mem_append, List.mem_map, mem_steps, ROWS_RESULT_STEPS, ROWS_BLOCKDIM_X,
    ROWS_BLOCKDIM_Y, ROWS_HALO_STEPS, Nat.cast_ofNat, Nat.cast_one, Nat.cast_zero] at hop
  rcases hop with (⟨i, ⟨hi1, hi2⟩, rfl⟩ | ⟨i, ⟨hi1, hi2⟩, rfl⟩) | ⟨i, ⟨hi1, hi2⟩, rfl⟩
  · refine ⟨rfl, by simp only; omega, by simp only; omega, by simp only; omega, ?_⟩
    simp only
    rw [if_pos (by omega)]
    congr 1
    ring
  · refine ⟨rfl, by simp only; omega, by simp only; omega, by simp only; omega, ?_⟩
    simp only
    have hi : i = 0 := by omega
    subst hi
    by_cases hg : (it.gidX : Int) * 128 - 16 + (it.lidX : Int) ≥ 0
    · rw [if_pos (by omega), if_pos (by omega)]
      congr 1
      ring
    · rw [if_neg (by omega), if_neg (by omega)]
  · refine ⟨rfl, by simp only; omega, by simp only; omega, by simp only; omega, ?_⟩
    simp only
    have hi : i = 9 := by omega
    subst hi
    by_cases hg : (it.gidX : Int) * 128 - 16 + (it.lidX : Int) + 144 < W
    · rw [if_pos (by omega), if_pos (by omega)]
      congr 1
      ring
    · rw [if_neg (by omega), if_neg (by omega)]


/-! ### convolution: generic facts on a two-phase launch -/

theorem foldl_congr_mem {σ γ : Type} (f g : σ → γ → σ) (l : List γ)
    (h : ∀ a ∈ l, ∀ s, f s a = g s a) (s : σ) : l.foldl f s = l.foldl g s := by
  induction l generalizing s with
  | nil => rfl
  | cons a l ih =>
    simp only [List.foldl_cons]
    rw [h a (List.mem_cons_self a l) s]
    exact ih (fun a' ha' => h a' (List.mem_cons_of_mem a ha')) _

theorem storeL_apply {α : Type} (l : Int → Int → α) (row col : Int) (v : α) (r c : Int) :
    storeL l row col v r c = if r = row ∧ c = col then v else l r c := rfl

theorem storeG_apply {α : Type} (d : Int → α) (k : Int) (v : α) (j : Int) :
    storeG d k v j = if j = k then v else d j := rfl

/-- The scratch array after the loads of some work-items, at a cell that one
of them stores into, when every store into any cell carries the value `cell`
prescribes for it. -/
theorem scratch_after_loads {α : Type} [Zero α] (src : Int → α) (loadsOf : Item → List Load)
    (gx gy : Nat) (order : List (Nat × Nat)) (cell : Int → Int → α)
    (hval : ∀ lid ∈ order, ∀ op ∈ loadsOf { gidX := gx, gidY := gy, lidX := lid.1, lidY := lid.2 },
      loadValue src op = cell op.row op.col)
    (r c : Int)
    (hex : ∃ lid ∈ order, ∃ op ∈ loadsOf { gidX := gx, gidY := gy, lidX := lid.1, lidY := lid.2 },
      op.row = r ∧ op.col = c)
    (l0 : Int → Int → α) :
    order.foldl
      (fun l lid =>
        runLoads src (loadsOf { gidX := gx, gidY := gy, lidX := lid.1, lidY := lid.2 }) l)
      l0 r c = cell r c := by
  have hop : ∀ lid ∈ order,
      ∀ op ∈ loadsOf { gidX := gx, gidY := gy, lidX := lid.1, lidY := lid.2 },
      ∀ l : Int → Int → α,
        storeL l op.row op.col (loadValue src op) r c = cell r c ∨
        storeL l op.row op.col (loadValue src op) r c = l r c := by
    intro lid hlid op hop l
    rw [storeL_apply]
    by_cases h : r = op.row ∧ c = op.col
    · left
      rw [if_pos h, hval lid hlid op hop, h.1, h.2]
    · right
      rw [if_neg h]
  apply foldl_obs_set (fun l : Int → Int → α => l r c) (cell r c)
  · intro lid hlid l
    exact foldl_obs_keep (fun l : Int → Int → α => l r c) (cell r c) _ _
      (fun op hop' l' => hop lid hlid op hop' l') l
  · obtain ⟨lid, hlid, op, hop', hr, hc⟩ := hex
    refine ⟨lid, hlid, fun l => ?_⟩
    apply foldl_obs_set (fun l : Int → Int → α => l r c) (cell r c)
    · exact fun op hop'' l' => hop lid hlid op hop'' l'
    · refine ⟨op, hop', fun l' => ?_⟩
      show storeL l' op.row op.col (loadValue src op) r c = cell r c
      rw [storeL_apply, if_pos ⟨hr.symm, hc.symm⟩, hval lid hlid op hop', hr, hc]

/-- The destination after a launch, at an index that some work-item of the
launch stores into, when every store of the launch carries the value `val`
prescribes for its index. -/
theorem runLaunch_written {α : Type} [Zero α] [Add α] [Mul α] (loadsOf : Item → List Load)
    (resultsOf : Item → List Result) (src kernel : Int → α) (s : Schedule)
    (l0 : Nat → Nat → Int → Int → α) (val : Int → α)
    (hval : ∀ g ∈ s.groups, ∀ lid ∈ s.results g.1 g.2,
      ∀ op ∈ resultsOf { gidX := g.1, gidY := g.2, lidX := lid.1, lidY := lid.2 },
      tapSum kernel
        ((s.loads g.1 g.2).foldl
          (fun l lid' => runLoads src
            (loadsOf { gidX := g.1, gidY := g.2, lidX := lid'.1, lidY := lid'.2 }) l)
          (l0 g.1 g.2))
        op.taps = val op.dstIdx)
    (p : Int)
    (hex : ∃ g ∈ s.groups, ∃ lid ∈ s.results g.1 g.2,
      ∃ op ∈ resultsOf { gidX := g.1, gidY := g.2, lidX := lid.1, lidY := lid.2 },
      op.dstIdx = p)
    (dst : Int → α) :
    runLaunch_exact loadsOf resultsOf src kernel s l0 dst p = val p := by
  unfold runLaunch_exact
  have hop : ∀ g ∈ s.groups, ∀ lid ∈ s.results g.1 g.2,
      ∀ op ∈ resultsOf { gidX := g.1, gidY := g.2, lidX := lid.1, lidY := lid.2 },
      ∀ d : Int → α,
        storeG d op.dstIdx (tapSum kernel
          ((s.loads g.1 g.2).foldl
            (fun l lid' => runLoads src
              (loadsOf { gidX := g.1, gidY := g.2, lidX := lid'.1, lidY := lid'.2 }) l)
            (l0 g.1 g.2)) op.taps) p = val p ∨
        storeG d op.dstIdx (tapSum kernel
          ((s.loads g.1 g.2).foldl
            (fun l lid' => runLoads src
              (loadsOf { gidX := g.1, gidY := g.2, lidX := lid'.1, lidY := lid'.2 }) l)
            (l0 g.1 g.2)) op.taps) p = d p := by
    intro g hg lid hlid op hop d
    rw [storeG_apply]
    by_cases h : p = op.dstIdx
    · left
      rw [if_pos h, hval g hg lid hlid op hop, h]
    · right
      rw [if_neg h]
  have hitem : ∀ g ∈ s.groups, ∀ lid ∈ s.results g.1 g.2, ∀ d : Int → α,
      runResults kernel
        ((s.loads g.1 g.2).foldl
          (fun l lid' => runLoads src
            (loadsOf { gidX := g.1, gidY := g.2, lidX := lid'.1, lidY := lid'.2 }) l)
          (l0 g.1 g.2))
        (resultsOf { gidX := g.1, gidY := g.2, lidX := lid.1, lidY := lid.2 }) d p = val p ∨
      runResults kernel
        ((s.loads g.1 g.2).foldl
          (fun l lid' => runLoads src
            (loadsOf { gidX := g.1, gidY := g.2, lidX := lid'.1, lidY := lid'.2 }) l)
          (l0 g.1 g.2))
        (resultsOf { gidX := g.1, gidY := g.2, lidX := lid.1, lidY := lid.2 }) d p = d p := by
    intro g hg lid hlid d
    exact foldl_obs_keep (fun d : Int → α => d p) (val p) _ _
      (fun op hop' d' => hop g hg lid hlid op hop' d') d
  apply foldl_obs_set (fun d : Int → α => d p) (val p)
  · intro g hg d
    exact foldl_obs_keep (fun d : Int → α => d p) (val p) _ _
      (fun lid hlid d' => hitem g hg lid hlid d') d
  · obtain ⟨g, hg, lid, hlid, op, hop', hp⟩ := hex
    refine ⟨g, hg, fun d => ?_⟩
    apply foldl_obs_set (fun d : Int → α => d p) (val p)
    · exact fun lid' hlid' d' => hitem g hg lid' hlid' d'
    · refine ⟨lid, hlid, fun d' => ?_⟩
      apply foldl_obs_set (fun d : Int → α => d p) (val p)
      · exact fun op' hop'' d'' => hop g hg lid hlid op' hop'' d''
      · refine ⟨op, hop', fun d'' => ?_⟩
        show storeG d'' op.dstIdx _ p = val p
        rw [storeG_apply, if_pos hp.symm, hval g hg lid hlid op hop', hp]

/-- The destination after a launch is untouched at an index that no
work-item of the launch stores into. -/
theorem runLaunch_untouched {α : Type} [Zero α] [Add α] [Mul α] (loadsOf : Item → List Load)
    (resultsOf : Item → List Result) (src kernel : Int → α) (s : Schedule)
    (l0 : Nat → Nat → Int → Int → α) (p : Int)
    (hno : ∀ g ∈ s.groups, ∀ lid ∈ s.results g.1 g.2,
      ∀ op ∈ resultsOf { gidX := g.1, gidY := g.2, lidX := lid.1, lidY := lid.2 },
      op.dstIdx ≠ p)
    (dst : Int → α) :
    runLaunch_exact loadsOf resultsOf src kernel s l0 dst p = dst p := by
  unfold runLaunch_exact
  apply foldl_obs_skip (fun d : Int → α => d p)
  intro g hg d
  apply foldl_obs_skip (fun d : Int → α => d p)
  intro lid hlid d'
  apply foldl_obs_skip (fun d : Int → α => d p)
  intro op hop d''
  show storeG d'' op.dstIdx _ p = d'' p
  rw [storeG_apply, if_neg (fun h => hno g hg lid hlid op hop h.symm)]

theorem Covers.mem_iff {l : List (Nat × Nat)} {a b : Nat} (h : Covers l a b) (p : Nat × Nat) :
    p ∈ l ↔ p.1 < a ∧ p.2 < b := by
  obtain ⟨x, y⟩ := p
  rw [List.Perm.mem_iff h]
  simp only [List.pair_mem_product, List.mem_range]

theorem covers_rowMajor (a b : Nat) : Covers (List.product (List.range a) (List.range b)) a b :=
  List.Perm.refl _

theorem rowMajor_valid (gridX gridY blockX blockY : Nat) :
    (Schedule.rowMajor gridX gridY blockX blockY).Valid gridX gridY blockX blockY :=
  ⟨covers_rowMajor gridX gridY, fun _ _ => ⟨covers_rowMajor blockX blockY,
    covers_rowMajor blockX blockY⟩⟩


/-! ### convolution: the row pass -/

theorem conv_rows_loads_value {α : Type} [Zero α] (src : Int → α) (W H : Nat)
    (hW : W % 128 = 0) (hH : H % 4 = 0) (it : Item) (hit : convolutionRows_item W H it)
    (op : Load) (hop : op ∈ conv_rows_loads_exact W H W it) :
    loadValue src op
      = rowSample src W ((it.gidX : Int) * 128 - 16 + op.col) ((it.gidY : Int) * 4 + op.row) := by
  obtain ⟨h1, _, _, _, h5⟩ := conv_rows_loads_spec W H hW hH it hit op hop
  unfold loadValue rowSample
  rw [h5, h1]
  by_cases hc : 0 ≤ (it.gidX : Int) * 128 - 16 + op.col ∧ (it.gidX : Int) * 128 - 16 + op.col < W
  · simp only [hc, and_self, if_true]
  · simp only [hc, if_false]

theorem conv_rows_loads_mem (W H pitch : Int) (it : Item) (i : Int) (h0 : 0 ≤ i) (h10 : i < 10) :
    ∃ op ∈ conv_rows_loads_exact W H pitch it, op.row = it.lidY ∧ op.col = (it.lidX : Int) + i * 16 := by
  unfold conv_rows_loads_exact
  simp only [List.mem_append, List.mem_map, mem_steps, ROWS_RESULT_STEPS, ROWS_BLOCKDIM_X,
    ROWS_BLOCKDIM_Y, ROWS_HALO_STEPS, Nat.cast_ofNat, Nat.cast_one, Nat.cast_zero]
  by_cases hA : 1 ≤ i ∧ i < 9
  · exact ⟨_, Or.inl (Or.inl ⟨i, ⟨by omega, by omega⟩, rfl⟩), rfl, rfl⟩
  · by_cases hB : i = 0
    · exact ⟨_, Or.inl (Or.inr ⟨i, ⟨by omega, by omega⟩, rfl⟩), rfl, rfl⟩
    · exact ⟨_, Or.inr ⟨i, ⟨by omega, by omega⟩, rfl⟩, rfl, rfl⟩

theorem conv_rows_results_spec (R : Int) (W H : Nat) (it : Item) (op : Result)
    (hop : op ∈ conv_rows_results_exact R W H W it) :
    ∃ i : Int, 1 ≤ i ∧ i < 9 ∧
      op.dstIdx = ((it.gidY : Int) * 4 + it.lidY) * W
        + ((it.gidX : Int) * 128 + (i - 1) * 16 + it.lidX) ∧
      op.taps = (radiusSteps R).map
        (fun j => { kIdx := R - j, row := it.lidY, col := (it.lidX : Int) + i * 16 + j }) := by
  unfold conv_rows_results_exact at hop
  simp only [List.mem_map, mem_steps, ROWS_RESULT_STEPS, ROWS_BLOCKDIM_X,
    ROWS_BLOCKDIM_Y, ROWS_HALO_STEPS, Nat.cast_ofNat, Nat.cast_one] at hop
  obtain ⟨i, ⟨hi1, hi2⟩, rfl⟩ := hop
  refine ⟨i, by omega, by omega, ?_, rfl⟩
  simp only
  ring

theorem conv_rows_results_mem (R : Int) (W H pitch : Int) (it : Item) (i : Int) (h1 : 1 ≤ i)
    (h9 : i < 9) :
    ∃ op ∈ conv_rows_results_exact R W H pitch it,
      op.dstIdx = ((it.gidY : Int) * 4 + it.lidY) * pitch
        + ((it.gidX : Int) * 128 + (i - 1) * 16 + it.lidX) := by
  unfold conv_rows_results_exact
  simp only [List.mem_map, mem_steps, ROWS_RESULT_STEPS, ROWS_BLOCKDIM_X,
    ROWS_BLOCKDIM_Y, ROWS_HALO_STEPS, Nat.cast_ofNat, Nat.cast_one]
  refine ⟨_, ⟨i, ⟨by omega, by omega⟩, rfl⟩, ?_⟩
  simp only
  ring

theorem tapSum_map {α : Type} [Zero α] [Add α] [Mul α] (kernel : Int → α) (l : Int → Int → α)
    (js : List Int) (g : Int → Tap) :
    tapSum kernel l (js.map g)
      = js.foldl (fun sum j => sum + kernel (g j).kIdx * l (g j).row (g j).col) 0 := by
  unfold tapSum
  rw [List.foldl_map]

/-- The scratch array of a group of `conv_rows_exact` after the loads: cell
`(r, c)` holds the zero-padded sample of column `gx * 128 - 16 + c` of image
row `gy * 4 + r`. -/
theorem conv_rows_scratch {α : Type} [Zero α] (src : Int → α) (W H : Nat)
    (hW : W % 128 = 0) (hH : H % 4 = 0) (gx gy : Nat)
    (hgx : gx < (convolutionRows_grid W H).1) (hgy : gy < (convolutionRows_grid W H).2)
    (order : List (Nat × Nat)) (hcov : Covers order ROWS_BLOCKDIM_X ROWS_BLOCKDIM_Y)
    (l0 : Int → Int → α) (r c : Int) (hr0 : 0 ≤ r) (hr : r < 4) (hc0 : 0 ≤ c) (hc : c < 160) :
    order.foldl
      (fun l lid => runLoads src
        (conv_rows_loads_exact W H W { gidX := gx, gidY := gy, lidX := lid.1, lidY := lid.2 }) l)
      l0 r c = rowSample src W ((gx : Int) * 128 - 16 + c) ((gy : Int) * 4 + r) := by
  apply scratch_after_loads src (conv_rows_loads_exact W H W) gx gy order
    (fun r c => rowSample src W ((gx : Int) * 128 - 16 + c) ((gy : Int) * 4 + r))
  · intro lid hlid op hop
    have hlid' := (hcov.mem_iff lid).1 hlid
    have hit : convolutionRows_item W H { gidX := gx, gidY := gy, lidX := lid.1, lidY := lid.2 } :=
      ⟨hgx, hgy, hlid'.1, hlid'.2⟩
    exact conv_rows_loads_value src W H hW hH
      { gidX := gx, gidY := gy, lidX := lid.1, lidY := lid.2 } hit op hop
  · have hmem : ((c % 16).toNat, r.toNat) ∈ order := by
      rw [hcov.mem_iff]
      unfold ROWS_BLOCKDIM_X ROWS_BLOCKDIM_Y
      simp only
      omega
    refine ⟨_, hmem, ?_⟩
    obtain ⟨op, hop, h1, h2⟩ := conv_rows_loads_mem W H W
      { gidX := gx, gidY := gy, lidX := (c % 16).toNat, lidY := r.toNat } (c / 16)
      (by omega) (by omega)
    refine ⟨op, hop, ?_, ?_⟩
    · rw [h1]; simp only; omega
    · rw [h2]; simp only; omega

/-- Every store of the `convolutionRows_exact` launch carries the row convolution
of the pixel it stores into. -/
theorem conv_rows_result_value {α : Type} [Zero α] [Add α] [Mul α] (R : Int)
    (src kernel : Int → α) (W H : Nat) (hR : R ≤ 16)
    (hW : W % 128 = 0) (hH : H % 4 = 0) (it : Item) (hit : convolutionRows_item W H it)
    (l : Int → Int → α)
    (hl : ∀ r c : Int, 0 ≤ r → r < 4 → 0 ≤ c → c < 160 →
      l r c = rowSample src W ((it.gidX : Int) * 128 - 16 + c) ((it.gidY : Int) * 4 + r))
    (op : Result) (hop : op ∈ conv_rows_results_exact R W H W it) :
    ∃ x y : Int, 0 ≤ x ∧ x < W ∧ 0 ≤ y ∧ y < H ∧ op.dstIdx = y * W + x ∧
      tapSum kernel l op.taps = rowConvolution R src kernel W x y := by
  obtain ⟨h1, h2, h3, h4⟩ := convolutionRows_item_bounds W H hW hH it hit
  obtain ⟨i, hi1, hi9, hdst, htaps⟩ := conv_rows_results_spec R W H it op hop
  refine ⟨(it.gidX : Int) * 128 + (i - 1) * 16 + it.lidX, (it.gidY : Int) * 4 + it.lidY,
    by omega, by omega, by omega, by omega, hdst, ?_⟩
  rw [htaps, tapSum_map]
  unfold rowConvolution
  apply foldl_congr_mem
  intro j hj sum
  rw [mem_radiusSteps] at hj
  simp only
  rw [hl _ _ (by omega) (by omega) (by omega) (by omega)]
  congr 3
  omega


theorem steps_getElem? (lo hi k : Nat) :
    (steps lo hi)[k]? = if k < hi - lo then some ((lo + k : Nat) : Int) else none := by
  unfold steps
  rw [List.getElem?_map]
  by_cases h : k < hi - lo
  · rw [List.getElem?_range' _ _ h, if_pos h]
    simp
  · rw [if_neg h, List.getElem?_eq_none (by simpa using h)]
    rfl

theorem conv_rows_results_getElem? (R W H pitch : Int) (it : Item) (k : Nat) :
    ((conv_rows_results_exact R W H pitch it)[k]?).map Result.dstIdx
      = if k < 8 then
          some (((it.gidY : Int) * 4 + it.lidY) * pitch
            + ((it.gidX : Int) * 128 + (k : Int) * 16 + it.lidX))
        else none := by
  unfold conv_rows_results_exact
  rw [List.getElem?_map, steps_getElem?]
  simp only [ROWS_RESULT_STEPS, ROWS_BLOCKDIM_X, ROWS_BLOCKDIM_Y, ROWS_HALO_STEPS,
    Nat.cast_ofNat, Nat.cast_one]
  by_cases h : k < 8
  · rw [if_pos (by omega), if_pos h]
    simp only [Option.map_some', Option.some.injEq]
    push_cast
    ring
  · rw [if_neg (by omega), if_neg h]
    rfl

/-! ### convolution: the row pass with exact arithmetic -/

/-- With exact arithmetic every access of every launched work-item of
`conv_rows` is in bounds. -/
theorem conv_rows_exact_in_bounds (R : Int) (W H : Nat)
    (hpre : convolutionRows_asserts R W H) (it : Item) (hit : convolutionRows_item W H it) :
    convolutionRows_l_Data_range = (4, 160) ∧
    convolutionRows_l_Data_range.1 = ROWS_BLOCKDIM_Y ∧
    convolutionRows_l_Data_range.2
      = (ROWS_RESULT_STEPS + 2 * ROWS_HALO_STEPS) * ROWS_BLOCKDIM_X ∧
    (∀ op ∈ conv_rows_loads_exact W H W it,
      0 ≤ op.row ∧ op.row < (convolutionRows_l_Data_range.1 : Int) ∧
      0 ≤ op.col ∧ op.col < (convolutionRows_l_Data_range.2 : Int) ∧
      (∀ k, op.srcIdx = some k → 0 ≤ k ∧ k < (W : Int) * H) ∧
      op.srcIdx =
        if 0 ≤ (it.gidX : Int) * 128 - 16 + op.col ∧ (it.gidX : Int) * 128 - 16 + op.col < W
        then some (((it.gidY : Int) * 4 + it.lidY) * W + ((it.gidX : Int) * 128 - 16 + op.col))
        else none) ∧
    (∀ op ∈ conv_rows_results_exact R W H W it,
      0 ≤ op.dstIdx ∧ op.dstIdx < (W : Int) * H ∧
      ∀ t ∈ op.taps,
        0 ≤ t.kIdx ∧ t.kIdx ≤ 2 * R ∧
        0 ≤ t.row ∧ t.row < (convolutionRows_l_Data_range.1 : Int) ∧
        0 ≤ t.col ∧ t.col < (convolutionRows_l_Data_range.2 : Int)) := by
  obtain ⟨hR, hW, hH⟩ := hpre
  have hW' : W % 128 = 0 := hW
  have hH' : H % 4 = 0 := hH
  have hR' : R ≤ 16 := hR
  obtain ⟨h1, h2, h3, h4⟩ := convolutionRows_item_bounds W H hW' hH' it hit
  have hr1 : ((convolutionRows_l_Data_range.1 : Nat) : Int) = 4 := rfl
  have hr2 : ((convolutionRows_l_Data_range.2 : Nat) : Int) = 160 := rfl
  refine ⟨rfl, rfl, rfl, ?_, ?_⟩
  · intro op hop
    obtain ⟨g1, g2, g3, _, g5⟩ := conv_rows_loads_spec W H hW' hH' it hit op hop
    rw [hr1, hr2]
    refine ⟨by omega, by omega, g2, g3, ?_, g5⟩
    intro k hk
    rw [g5] at hk
    by_cases hc : 0 ≤ (it.gidX : Int) * 128 - 16 + op.col ∧
        (it.gidX : Int) * 128 - 16 + op.col < W
    · rw [if_pos hc] at hk
      have hk' := Option.some.inj hk
      rw [← hk']
      exact image_index_bounds W H _ _ hc.1 hc.2 (by omega) (by omega)
    · rw [if_neg hc] at hk
      cases hk
  · intro op hop
    obtain ⟨i, hi1, hi9, hdst, htaps⟩ := conv_rows_results_spec R W H it op hop
    rw [hr1, hr2, hdst]
    have hb := image_index_bounds W H ((it.gidX : Int) * 128 + (i - 1) * 16 + it.lidX)
      ((it.gidY : Int) * 4 + it.lidY) (by omega) (by omega) (by omega) (by omega)
    refine ⟨hb.1, hb.2, ?_⟩
    intro t ht
    rw [htaps, List.mem_map] at ht
    obtain ⟨j, hj, rfl⟩ := ht
    rw [mem_radiusSteps] at hj
    simp only
    omega


/-- With exact arithmetic the launch of `conv_rows` computes the zero-padded
row convolution at every pixel, each pixel has one writer, and nothing
outside the image is written. -/
theorem convolutionRows_exact_spec {α : Type} [Zero α] [Add α] [Mul α] (R : Int)
    (dst src kernel : Int → α) (W H pitch : Nat) (s : Schedule)
    (l0 : Nat → Nat → Int → Int → α)
    (hpre : convolutionRows_asserts R W H)
    (hs : s.Valid (convolutionRows_grid W H).1 (convolutionRows_grid W H).2
      ROWS_BLOCKDIM_X ROWS_BLOCKDIM_Y) :
    (∀ x y : Nat, x < W → y < H →
      convolutionRows_exact R dst src kernel W H pitch s l0 ((y : Int) * W + x)
        = rowConvolution R src kernel W x y) ∧
    (∀ x y : Nat, x < W → y < H →
      ∃! w : Item × Nat, convolutionRows_item W H w.1 ∧
        ((conv_rows_results_exact R W H W w.1)[w.2]?).map Result.dstIdx = some ((y : Int) * W + x)) ∧
    (∀ p : Int, (p < 0 ∨ (W : Int) * H ≤ p) →
      convolutionRows_exact R dst src kernel W H pitch s l0 p = dst p) := by
  obtain ⟨hR, hW, hH⟩ := hpre
  have hW' : W % 128 = 0 := hW
  have hH' : H % 4 = 0 := hH
  have hR' : R ≤ 16 := hR
  obtain ⟨hgroups, hitems⟩ := hs
  have hval : ∀ g ∈ s.groups, ∀ lid ∈ s.results g.1 g.2,
      ∀ op ∈ conv_rows_results_exact R W H W { gidX := g.1, gidY := g.2, lidX := lid.1, lidY := lid.2 },
      ∃ x y : Int, 0 ≤ x ∧ x < W ∧ 0 ≤ y ∧ y < H ∧ op.dstIdx = y * W + x ∧
        tapSum kernel
          ((s.loads g.1 g.2).foldl
            (fun l lid' => runLoads src
              (conv_rows_loads_exact W H W
                { gidX := g.1, gidY := g.2, lidX := lid'.1, lidY := lid'.2 }) l)
            (l0 g.1 g.2))
          op.taps = rowConvolution R src kernel W x y := by
    intro g hg lid hlid op hop
    have hg' := (hgroups.mem_iff g).1 hg
    have hlid' := ((hitems g hg).2.mem_iff lid).1 hlid
    have hit : convolutionRows_item W H
        { gidX := g.1, gidY := g.2, lidX := lid.1, lidY := lid.2 } :=
      ⟨hg'.1, hg'.2, hlid'.1, hlid'.2⟩
    exact conv_rows_result_value R src kernel W H hR' hW' hH'
      { gidX := g.1, gidY := g.2, lidX := lid.1, lidY := lid.2 } hit _
      (fun r c hr0 hr hc0 hc => conv_rows_scratch src W H hW' hH' g.1 g.2 hg'.1 hg'.2
        (s.loads g.1 g.2) (hitems g hg).1 (l0 g.1 g.2) r c hr0 hr hc0 hc)
      op hop
  refine ⟨?_, ?_, ?_⟩
  · intro x y hx hy
    show runLaunch_exact (conv_rows_loads_exact W H W) (conv_rows_results_exact R W H W) src kernel s l0 dst _ = _
    have key := runLaunch_written (conv_rows_loads_exact W H W) (conv_rows_results_exact R W H W) src kernel
      s l0
      (fun p => if 0 ≤ p ∧ p < (W : Int) * H
        then rowConvolution R src kernel W (p % W) (p / W) else dst p)
      ?_ ((y : Int) * W + x) ?_ dst
    · rw [key]
      have hb := image_index_bounds W H x y (by omega) (by omega) (by omega) (by omega)
      simp only [hb.1, hb.2, and_self, if_true]
      have hWpos : (0 : Int) < W := by omega
      have hmod : ((y : Int) * W + x) % W = x := by
        rw [Int.add_comm, Int.add_mul_emod_self]
        exact Int.emod_eq_of_lt (by omega) (by omega)
      have hdiv : ((y : Int) * W + x) / W = y := by
        rw [Int.add_comm, Int.add_mul_ediv_right _ _ (by omega),
          Int.ediv_eq_zero_of_lt (by omega) (by omega)]
        omega
      rw [hmod, hdiv]
    · intro g hg lid hlid op hop
      obtain ⟨x', y', hx0, hx', hy0, hy', hdst, hsum⟩ := hval g hg lid hlid op hop
      rw [hsum, hdst]
      have hb := image_index_bounds W H x' y' hx0 hx' hy0 hy'
      simp only [hb.1, hb.2, and_self, if_true]
      have hmod : (y' * W + x') % W = x' := by
        rw [Int.add_comm, Int.add_mul_emod_self]
        exact Int.emod_eq_of_lt hx0 hx'
      have hdiv : (y' * W + x') / W = y' := by
        rw [Int.add_comm, Int.add_mul_ediv_right _ _ (by omega),
          Int.ediv_eq_zero_of_lt hx0 hx']
        omega
      rw [hmod, hdiv]
    · have hg : (x / 128, y / 4) ∈ s.groups := by
        rw [hgroups.mem_iff]
        unfold convolutionRows_grid ROWS_RESULT_STEPS ROWS_BLOCKDIM_X ROWS_BLOCKDIM_Y
        simp only
        omega
      have hlid : (x % 16, y % 4) ∈ s.results (x / 128) (y / 4) := by
        rw [(hitems (x / 128, y / 4) hg).2.mem_iff]
        unfold ROWS_BLOCKDIM_X ROWS_BLOCKDIM_Y
        simp only
        omega
      refine ⟨_, hg, _, hlid, ?_⟩
      obtain ⟨op, hop, hdst⟩ := conv_rows_results_mem R W H W
        { gidX := x / 128, gidY := y / 4, lidX := x % 16, lidY := y % 4 }
        (((x % 128 / 16 : Nat) : Int) + 1) (by omega) (by omega)
      refine ⟨op, hop, ?_⟩
      rw [hdst]
      simp only
      congr 1
      · congr 1
        omega
      · omega
  · intro x y hx hy
    refine ⟨({ gidX := x / 128, gidY := y / 4, lidX := x % 16, lidY := y % 4 }, x % 128 / 16),
      ⟨?_, ?_⟩, ?_⟩
    · unfold convolutionRows_item convolutionRows_grid ROWS_RESULT_STEPS ROWS_BLOCKDIM_X
        ROWS_BLOCKDIM_Y
      simp only
      omega
    · rw [conv_rows_results_getElem?, if_pos (by omega)]
      simp only [Option.some.injEq]
      congr 1
      · congr 1
        omega
      · omega
    · rintro ⟨it, k⟩ ⟨hit, hk⟩
      obtain ⟨h1, h2, h3, h4⟩ := convolutionRows_item_bounds W H hW' hH' it hit
      simp only at hk hit
      rw [conv_rows_results_getElem?] at hk
      by_cases hk8 : k < 8
      · rw [if_pos hk8] at hk
        have hk' := Option.some.inj hk
        obtain ⟨e1, e2⟩ := image_index_inj W _ _ _ _ (by omega) (by omega) (by omega) (by omega)
          hk'
        obtain ⟨gX, gY, lX, lY⟩ := it
        simp only at e1 e2 h1 h2 h3 h4
        simp only [Prod.mk.injEq, Item.mk.injEq]
        omega
      · rw [if_neg hk8] at hk
        cases hk
  · intro p hp
    show runLaunch_exact (conv_rows_loads_exact W H W) (conv_rows_results_exact R W H W) src kernel s l0 dst _ = _
    apply runLaunch_untouched
    intro g hg lid hlid op hop
    obtain ⟨x', y', hx0, hx', hy0, hy', hdst, _⟩ := hval g hg lid hlid op hop
    have hb := image_index_bounds W H x' y' hx0 hx' hy0 hy'
    rw [hdst]
    omega


/-! ### convolution: the column pass -/

theorem convolutionColumns_item_bounds (W H : Nat) (hW : W % 16 = 0) (hH : H % 64 = 0)
    (it : Item) (hit : convolutionColumns_item W H it) :
    (it.gidX : Int) * 16 + 16 ≤ W ∧ (it.gidY : Int) * 64 + 64 ≤ H ∧
    (it.lidX : Int) < 16 ∧ (it.lidY : Int) < 8 := by
  unfold convolutionColumns_item convolutionColumns_grid COLUMNS_RESULT_STEPS COLUMNS_BLOCKDIM_X
    COLUMNS_BLOCKDIM_Y at hit
  simp only at hit
  omega

theorem conv_cols_loads_spec (W H : Nat) (hW : W % 16 = 0) (hH : H % 64 = 0)
    (it : Item) (hit : convolutionColumns_item W H it) (op : Load)
    (hop : op ∈ conv_cols_loads_exact W H W it) :
    op.row = it.lidX ∧ 0 ≤ op.col ∧ op.col < 80 ∧ op.col % 8 = it.lidY ∧
    op.srcIdx =
      if 0 ≤ (it.gidY : Int) * 64 - 8 + op.col ∧ (it.gidY : Int) * 64 - 8 + op.col < H
      then some (((it.gidY : Int) * 64 - 8 + op.col) * W + ((it.gidX : Int) * 16 + it.lidX))
      else none := by
  obtain ⟨h1, h2, h3, h4⟩ := convolutionColumns_item_bounds W H hW hH it hit
  unfold conv_cols_loads_exact at hop
  simp only [List.mem_append, List.mem_map, mem_steps, COLUMNS_RESULT_STEPS, COLUMNS_BLOCKDIM_X,
    COLUMNS_BLOCKDIM_Y, COLUMNS_HALO_STEPS, Nat.cast_ofNat, Nat.cast_one, Nat.cast_zero] at hop
  rcases hop with (⟨i, ⟨hi1, hi2⟩, rfl⟩ | ⟨i, ⟨hi1, hi2⟩, rfl⟩) | ⟨i, ⟨hi1, hi2⟩, rfl⟩
  · refine ⟨rfl, by simp only; omega, by simp only; omega, by simp only; omega, ?_⟩
    simp only
    rw [if_pos (by omega)]
    congr 1
    ring
  · refine ⟨rfl, by simp only; omega, by simp only; omega, by simp only; omega, ?_⟩
    simp only
    have hi : i = 0 := by omega
    subst hi
    by_cases hg : (it.gidY : Int) * 64 - 8 + (it.lidY : Int) ≥ 0
    · rw [if_pos (by omega), if_pos (by omega)]
      congr 1
      ring
    · rw [if_neg (by omega), if_neg (by omega)]
  · refine ⟨rfl, by simp only; omega, by simp only; omega, by simp only; omega, ?_⟩
    simp only
    have hi : i = 9 := by omega
    subst hi
    by_cases hg : (it.gidY : Int) * 64 - 8 + (it.lidY : Int) + 72 < H
    · rw [if_pos (by omega), if_pos (by omega)]
      congr 1
      ring
    · rw [if_neg (by omega), if_neg (by omega)]

theorem conv_cols_loads_value {α : Type} [Zero α] (src : Int → α) (W H : Nat)
    (hW : W % 16 = 0) (hH : H % 64 = 0) (it : Item) (hit : convolutionColumns_item W H it)
    (op : Load) (hop : op ∈ conv_cols_loads_exact W H W it) :
    loadValue src op
      = columnSample src W H ((it.gidX : Int) * 16 + op.row)
          ((it.gidY : Int) * 64 - 8 + op.col) := by
  obtain ⟨h1, _, _, _, h5⟩ := conv_cols_loads_spec W H hW hH it hit op hop
  unfold loadValue columnSample
  rw [h5, h1]
  by_cases hc : 0 ≤ (it.gidY : Int) * 64 - 8 + op.col ∧ (it.gidY : Int) * 64 - 8 + op.col < H
  · simp only [hc, and_self, if_true]
  · simp only [hc, if_false]

theorem conv_cols_loads_mem (W H pitch : Int) (it : Item) (i : Int) (h0 : 0 ≤ i) (h10 : i < 10) :
    ∃ op ∈ conv_cols_loads_exact W H pitch it, op.row = it.lidX ∧ op.col = (it.lidY : Int) + i * 8 := by
  unfold conv_cols_loads_exact
  simp only [List.mem_append, List.mem_map, mem_steps, COLUMNS_RESULT_STEPS, COLUMNS_BLOCKDIM_X,
    COLUMNS_BLOCKDIM_Y, COLUMNS_HALO_STEPS, Nat.cast_ofNat, Nat.cast_one, Nat.cast_zero]
  by_cases hA : 1 ≤ i ∧ i < 9
  · exact ⟨_, Or.inl (Or.inl ⟨i, ⟨by omega, by omega⟩, rfl⟩), rfl, rfl⟩
  · by_cases hB : i = 0
    · exact ⟨_, Or.inl (Or.inr ⟨i, ⟨by omega, by omega⟩, rfl⟩), rfl, rfl⟩
    · exact ⟨_, Or.inr ⟨i, ⟨by omega, by omega⟩, rfl⟩, rfl, rfl⟩

theorem conv_cols_results_spec (R : Int) (W H : Nat) (it : Item) (op : Result)
    (hop : op ∈ conv_cols_results_exact R W H W it) :
    ∃ i : Int, 1 ≤ i ∧ i < 9 ∧
      op.dstIdx = ((it.gidY : Int) * 64 + (i - 1) * 8 + it.lidY) * W
        + ((it.gidX : Int) * 16 + it.lidX) ∧
      op.taps = (radiusSteps R).map
        (fun j => { kIdx := R - j, row := it.lidX, col := (it.lidY : Int) + i * 8 + j }) := by
  unfold conv_cols_results_exact at hop
  simp only [List.mem_map, mem_steps, COLUMNS_RESULT_STEPS, COLUMNS_BLOCKDIM_X,
    COLUMNS_BLOCKDIM_Y, COLUMNS_HALO_STEPS, Nat.cast_ofNat, Nat.cast_one] at hop
  obtain ⟨i, ⟨hi1, hi2⟩, rfl⟩ := hop
  refine ⟨i, by omega, by omega, ?_, rfl⟩
  simp only
  ring

theorem conv_cols_results_mem (R : Int) (W H pitch : Int) (it : Item) (i : Int) (h1 : 1 ≤ i)
    (h9 : i < 9) :
    ∃ op ∈ conv_cols_results_exact R W H pitch it,
      op.dstIdx = ((it.gidY : Int) * 64 + (i - 1) * 8 + it.lidY) * pitch
        + ((it.gidX : Int) * 16 + it.lidX) := by
  unfold conv_cols_results_exact
  simp only [List.mem_map, mem_steps, COLUMNS_RESULT_STEPS, COLUMNS_BLOCKDIM_X,
    COLUMNS_BLOCKDIM_Y, COLUMNS_HALO_STEPS, Nat.cast_ofNat, Nat.cast_one]
  refine ⟨_, ⟨i, ⟨by omega, by omega⟩, rfl⟩, ?_⟩
  simp only
  ring

theorem conv_cols_results_getElem? (R W H pitch : Int) (it : Item) (k : Nat) :
    ((conv_cols_results_exact R W H pitch it)[k]?).map Result.dstIdx
      = if k < 8 then
          some (((it.gidY : Int) * 64 + (k : Int) * 8 + it.lidY) * pitch
            + ((it.gidX : Int) * 16 + it.lidX))
        else none := by
  unfold conv_cols_results_exact
  rw [List.getElem?_map, steps_getElem?]
  simp only [COLUMNS_RESULT_STEPS, COLUMNS_BLOCKDIM_X, COLUMNS_BLOCKDIM_Y, COLUMNS_HALO_STEPS,
    Nat.cast_ofNat, Nat.cast_one]
  by_cases h : k < 8
  · rw [if_pos (by omega), if_pos h]
    simp only [Option.map_some', Option.some.injEq]
    push_cast
    ring
  · rw [if_neg (by omega), if_neg h]
    rfl

/-- The scratch array of a group of `conv_cols_exact` after the loads: cell
`(r, c)` holds the zero-padded sample of row `gy * 64 - 8 + c` of image
column `gx * 16 + r`. -/
theorem conv_cols_scratch {α : Type} [Zero α] (src : Int → α) (W H : Nat)
    (hW : W % 16 = 0) (hH : H % 64 = 0) (gx gy : Nat)
    (hgx : gx < (convolutionColumns_grid W H).1) (hgy : gy < (convolutionColumns_grid W H).2)
    (order : List (Nat × Nat)) (hcov : Covers order COLUMNS_BLOCKDIM_X COLUMNS_BLOCKDIM_Y)
    (l0 : Int → Int → α) (r c : Int) (hr0 : 0 ≤ r) (hr : r < 16) (hc0 : 0 ≤ c) (hc : c < 80) :
    order.foldl
      (fun l lid => runLoads src
        (conv_cols_loads_exact W H W { gidX := gx, gidY := gy, lidX := lid.1, lidY := lid.2 }) l)
      l0 r c = columnSample src W H ((gx : Int) * 16 + r) ((gy : Int) * 64 - 8 + c) := by
  apply scratch_after_loads src (conv_cols_loads_exact W H W) gx gy order
    (fun r c => columnSample src W H ((gx : Int) * 16 + r) ((gy : Int) * 64 - 8 + c))
  · intro lid hlid op hop
    have hlid' := (hcov.mem_iff lid).1 hlid
    have hit : convolutionColumns_item W H
        { gidX := gx, gidY := gy, lidX := lid.1, lidY := lid.2 } :=
      ⟨hgx, hgy, hlid'.1, hlid'.2⟩
    exact conv_cols_loads_value src W H hW hH
      { gidX := gx, gidY := gy, lidX := lid.1, lidY := lid.2 } hit op hop
  · have hmem : (r.toNat, (c % 8).toNat) ∈ order := by
      rw [hcov.mem_iff]
      unfold COLUMNS_BLOCKDIM_X COLUMNS_BLOCKDIM_Y
      simp only
      omega
    refine ⟨_, hmem, ?_⟩
    obtain ⟨op, hop, h1, h2⟩ := conv_cols_loads_mem W H W
      { gidX := gx, gidY := gy, lidX := r.toNat, lidY := (c % 8).toNat } (c / 8)
      (by omega) (by omega)
    refine ⟨op, hop, ?_, ?_⟩
    · rw [h1]; simp only; omega
    · rw [h2]; simp only; omega

/-- Every store of the `convolutionColumns_exact` launch carries the column
convolution of the pixel it stores into. -/
theorem conv_cols_result_value {α : Type} [Zero α] [Add α] [Mul α] (R : Int)
    (src kernel : Int → α) (W H : Nat) (hR : R ≤ 8)
    (hW : W % 16 = 0) (hH : H % 64 = 0) (it : Item) (hit : convolutionColumns_item W H it)
    (l : Int → Int → α)
    (hl : ∀ r c : Int, 0 ≤ r → r < 16 → 0 ≤ c → c < 80 →
      l r c = columnSample src W H ((it.gidX : Int) * 16 + r) ((it.gidY : Int) * 64 - 8 + c))
    (op : Result) (hop : op ∈ conv_cols_results_exact R W H W it) :
    ∃ x y : Int, 0 ≤ x ∧ x < W ∧ 0 ≤ y ∧ y < H ∧ op.dstIdx = y * W + x ∧
      tapSum kernel l op.taps = columnConvolution R src kernel W H x y := by
  obtain ⟨h1, h2, h3, h4⟩ := convolutionColumns_item_bounds W H hW hH it hit
  obtain ⟨i, hi1, hi9, hdst, htaps⟩ := conv_cols_results_spec R W H it op hop
  refine ⟨(it.gidX : Int) * 16 + it.lidX, (it.gidY : Int) * 64 + (i - 1) * 8 + it.lidY,
    by omega, by omega, by omega, by omega, hdst, ?_⟩
  rw [htaps, tapSum_map]
  unfold columnConvolution
  apply foldl_congr_mem
  intro j hj sum
  rw [mem_radiusSteps] at hj
  simp only
  rw [hl _ _ (by omega) (by omega) (by omega) (by omega)]
  congr 3
  omega


/-! ### convolution: the column pass with exact arithmetic -/

/-- With exact arithmetic every access of every launched work-item of
`conv_cols` is in bounds. -/
theorem conv_cols_exact_in_bounds (R : Int) (W H : Nat)
    (hpre : convolutionColumns_asserts R W H) (it : Item)
    (hit : convolutionColumns_item W H it) :
    convolutionColumns_l_Data_range = (16, 81) ∧
    convolutionColumns_l_Data_range.1 = COLUMNS_BLOCKDIM_X ∧
    convolutionColumns_l_Data_range.2
      = (COLUMNS_RESULT_STEPS + 2 * COLUMNS_HALO_STEPS) * COLUMNS_BLOCKDIM_Y + 1 ∧
    (∀ op ∈ conv_cols_loads_exact W H W it,
      0 ≤ op.row ∧ op.row < (convolutionColumns_l_Data_range.1 : Int) ∧
      0 ≤ op.col ∧ op.col < (convolutionColumns_l_Data_range.2 : Int) ∧
      (∀ k, op.srcIdx = some k → 0 ≤ k ∧ k < (W : Int) * H) ∧
      op.srcIdx =
        if 0 ≤ (it.gidY : Int) * 64 - 8 + op.col ∧ (it.gidY : Int) * 64 - 8 + op.col < H
        then some (((it.gidY : Int) * 64 - 8 + op.col) * W + ((it.gidX : Int) * 16 + it.lidX))
        else none) ∧
    (∀ op ∈ conv_cols_results_exact R W H W it,
      0 ≤ op.dstIdx ∧ op.dstIdx < (W : Int) * H ∧
      ∀ t ∈ op.taps,
        0 ≤ t.kIdx ∧ t.kIdx ≤ 2 * R ∧
        0 ≤ t.row ∧ t.row < (convolutionColumns_l_Data_range.1 : Int) ∧
        0 ≤ t.col ∧ t.col < (convolutionColumns_l_Data_range.2 : Int)) := by
  obtain ⟨hR, hW, hH⟩ := hpre
  have hW' : W % 16 = 0 := hW
  have hH' : H % 64 = 0 := hH
  have hR' : R ≤ 8 := hR
  obtain ⟨h1, h2, h3, h4⟩ := convolutionColumns_item_bounds W H hW' hH' it hit
  have hr1 : ((convolutionColumns_l_Data_range.1 : Nat) : Int) = 16 := rfl
  have hr2 : ((convolutionColumns_l_Data_range.2 : Nat) : Int) = 81 := rfl
  refine ⟨rfl, rfl, rfl, ?_, ?_⟩
  · intro op hop
    obtain ⟨g1, g2, g3, _, g5⟩ := conv_cols_loads_spec W H hW' hH' it hit op hop
    rw [hr1, hr2]
    refine ⟨by omega, by omega, g2, by omega, ?_, g5⟩
    intro k hk
    rw [g5] at hk
    by_cases hc : 0 ≤ (it.gidY : Int) * 64 - 8 + op.col ∧
        (it.gidY : Int) * 64 - 8 + op.col < H
    · rw [if_pos hc] at hk
      have hk' := Option.some.inj hk
      rw [← hk']
      exact image_index_bounds W H _ _ (by omega) (by omega) hc.1 hc.2
    · rw [if_neg hc] at hk
      cases hk
  · intro op hop
    obtain ⟨i, hi1, hi9, hdst, htaps⟩ := conv_cols_results_spec R W H it op hop
    rw [hr1, hr2, hdst]
    have hb := image_index_bounds W H ((it.gidX : Int) * 16 + it.lidX)
      ((it.gidY : Int) * 64 + (i - 1) * 8 + it.lidY) (by omega) (by omega) (by omega) (by omega)
    refine ⟨hb.1, hb.2, ?_⟩
    intro t ht
    rw [htaps, List.mem_map] at ht
    obtain ⟨j, hj, rfl⟩ := ht
    rw [mem_radiusSteps] at hj
    simp only
    omega


/-- With exact arithmetic the launch of `conv_cols` computes the zero-padded
column convolution at every pixel, each pixel has one writer, and nothing
outside the image is written. -/
theorem convolutionColumns_exact_spec {α : Type} [Zero α] [Add α] [Mul α] (R : Int)
    (dst src kernel : Int → α) (W H pitch : Nat) (s : Schedule)
    (l0 : Nat → Nat → Int → Int → α)
    (hpre : convolutionColumns_asserts R W H)
    (hs : s.Valid (convolutionColumns_grid W H).1 (convolutionColumns_grid W H).2
      COLUMNS_BLOCKDIM_X COLUMNS_BLOCKDIM_Y) :
    (∀ x y : Nat, x < W → y < H →
      convolutionColumns_exact R dst src kernel W H pitch s l0 ((y : Int) * W + x)
        = columnConvolution R src kernel W H x y) ∧
    (∀ x y : Nat, x < W → y < H →
      ∃! w : Item × Nat, convolutionColumns_item W H w.1 ∧
        ((conv_cols_results_exact R W H W w.1)[w.2]?).map Result.dstIdx = some ((y : Int) * W + x)) ∧
    (∀ p : Int, (p < 0 ∨ (W : Int) * H ≤ p) →
      convolutionColumns_exact R dst src kernel W H pitch s l0 p = dst p) := by
  obtain ⟨hR, hW, hH⟩ := hpre
  have hW' : W % 16 = 0 := hW
  have hH' : H % 64 = 0 := hH
  have hR' : R ≤ 8 := hR
  obtain ⟨hgroups, hitems⟩ := hs
  have hval : ∀ g ∈ s.groups, ∀ lid ∈ s.results g.1 g.2,
      ∀ op ∈ conv_cols_results_exact R W H W { gidX := g.1, gidY := g.2, lidX := lid.1, lidY := lid.2 },
      ∃ x y : Int, 0 ≤ x ∧ x < W ∧ 0 ≤ y ∧ y < H ∧ op.dstIdx = y * W + x ∧
        tapSum kernel
          ((s.loads g.1 g.2).foldl
            (fun l lid' => runLoads src
              (conv_cols_loads_exact W H W
                { gidX := g.1, gidY := g.2, lidX := lid'.1, lidY := lid'.2 }) l)
            (l0 g.1 g.2))
          op.taps = columnConvolution R src kernel W H x y := by
    intro g hg lid hlid op hop
    have hg' := (hgroups.mem_iff g).1 hg
    have hlid' := ((hitems g hg).2.mem_iff lid).1 hlid
    have hit : convolutionColumns_item W H
        { gidX := g.1, gidY := g.2, lidX := lid.1, lidY := lid.2 } :=
      ⟨hg'.1, hg'.2, hlid'.1, hlid'.2⟩
    exact conv_cols_result_value R src kernel W H hR' hW' hH'
      { gidX := g.1, gidY := g.2, lidX := lid.1, lidY := lid.2 } hit _
      (fun r c hr0 hr hc0 hc => conv_cols_scratch src W H hW' hH' g.1 g.2 hg'.1 hg'.2
        (s.loads g.1 g.2) (hitems g hg).1 (l0 g.1 g.2) r c hr0 hr hc0 hc)
      op hop
  refine ⟨?_, ?_, ?_⟩
  · intro x y hx hy
    show runLaunch_exact (conv_cols_loads_exact W H W) (conv_cols_results_exact R W H W) src kernel s l0 dst _ = _
    have key := runLaunch_written (conv_cols_loads_exact W H W) (conv_cols_results_exact R W H W) src kernel
      s l0
      (fun p => if 0 ≤ p ∧ p < (W : Int) * H
        then columnConvolution R src kernel W H (p % W) (p / W) else dst p)
      ?_ ((y : Int) * W + x) ?_ dst
    · rw [key]
      have hb := image_index_bounds W H x y (by omega) (by omega) (by omega) (by omega)
      simp only [hb.1, hb.2, and_self, if_true]
      have hWpos : (0 : Int) < W := by omega
      have hmod : ((y : Int) * W + x) % W = x := by
        rw [Int.add_comm, Int.add_mul_emod_self]
        exact Int.emod_eq_of_lt (by omega) (by omega)
      have hdiv : ((y : Int) * W + x) / W = y := by
        rw [Int.add_comm, Int.add_mul_ediv_right _ _ (by omega),
          Int.ediv_eq_zero_of_lt (by omega) (by omega)]
        omega
      rw [hmod, hdiv]
    · intro g hg lid hlid op hop
      obtain ⟨x', y', hx0, hx', hy0, hy', hdst, hsum⟩ := hval g hg lid hlid op hop
      rw [hsum, hdst]
      have hb := image_index_bounds W H x' y' hx0 hx' hy0 hy'
      simp only [hb.1, hb.2, and_self, if_true]
      have hmod : (y' * W + x') % W = x' := by
        rw [Int.add_comm, Int.add_mul_emod_self]
        exact Int.emod_eq_of_lt hx0 hx'
      have hdiv : (y' * W + x') / W = y' := by
        rw [Int.add_comm, Int.add_mul_ediv_right _ _ (by omega),
          Int.ediv_eq_zero_of_lt hx0 hx']
        omega
      rw [hmod, hdiv]
    · have hg : (x / 16, y / 64) ∈ s.groups := by
        rw [hgroups.mem_iff]
        unfold convolutionColumns_grid COLUMNS_RESULT_STEPS COLUMNS_BLOCKDIM_X COLUMNS_BLOCKDIM_Y
        simp only
        omega
      have hlid : (x % 16, y % 8) ∈ s.results (x / 16) (y / 64) := by
        rw [(hitems (x / 16, y / 64) hg).2.mem_iff]
        unfold COLUMNS_BLOCKDIM_X COLUMNS_BLOCKDIM_Y
        simp only
        omega
      refine ⟨_, hg, _, hlid, ?_⟩
      obtain ⟨op, hop, hdst⟩ := conv_cols_results_mem R W H W
        { gidX := x / 16, gidY := y / 64, lidX := x % 16, lidY := y % 8 }
        (((y % 64 / 8 : Nat) : Int) + 1) (by omega) (by omega)
      refine ⟨op, hop, ?_⟩
      rw [hdst]
      simp only
      congr 1
      · congr 1
        omega
      · omega
  · intro x y hx hy
    refine ⟨({ gidX := x / 16, gidY := y / 64, lidX := x % 16, lidY := y % 8 }, y % 64 / 8),
      ⟨?_, ?_⟩, ?_⟩
    · unfold convolutionColumns_item convolutionColumns_grid COLUMNS_RESULT_STEPS
        COLUMNS_BLOCKDIM_X COLUMNS_BLOCKDIM_Y
      simp only
      omega
    · rw [conv_cols_results_getElem?, if_pos (by omega)]
      simp only [Option.some.injEq]
      congr 1
      · congr 1
        omega
      · omega
    · rintro ⟨it, k⟩ ⟨hit, hk⟩
      obtain ⟨h1, h2, h3, h4⟩ := convolutionColumns_item_bounds W H hW' hH' it hit
      simp only at hk hit
      rw [conv_cols_results_getElem?] at hk
      by_cases hk8 : k < 8
      · rw [if_pos hk8] at hk
        have hk' := Option.some.inj hk
        obtain ⟨e1, e2⟩ := image_index_inj W _ _ _ _ (by omega) (by omega) (by omega) (by omega)
          hk'
        obtain ⟨gX, gY, lX, lY⟩ := it
        simp only at e1 e2 h1 h2 h3 h4
        simp only [Prod.mk.injEq, Item.mk.injEq]
        omega
      · rw [if_neg hk8] at hk
        cases hk
  · intro p hp
    show runLaunch_exact (conv_cols_loads_exact W H W) (conv_cols_results_exact R W H W) src kernel s l0 dst _ = _
    apply runLaunch_untouched
    intro g hg lid hlid op hop
    obtain ⟨x', y', hx0, hx', hy0, hy', hdst, _⟩ := hval g hg lid hlid op hop
    have hb := image_index_bounds W H x' y' hx0 hx' hy0 hy'
    rw [hdst]
    omega


/-! ### convolution: the kernels with `int` arithmetic -/

theorem toInt_eq (u : Nat) (h : u ≤ 2147483647) : toInt u = (u : Int) := by
  unfold toInt
  omega

theorem int32_eq (v : Int) (h1 : -2147483648 ≤ v) (h2 : v ≤ 2147483647) : int32 v = some v := by
  unfold int32 INT_MIN INT_MAX
  simp only [h1, h2, and_self, if_true]

theorem int32_overflow (v : Int) (h : 2147483647 < v) : int32 v = none := by
  unfold int32 INT_MIN INT_MAX
  have : ¬ (-2147483648 ≤ v ∧ v ≤ 2147483647) := by omega
  simp only [this, if_false]

theorem iadd_some (a b : Int) : iadd (some a) (some b) = int32 (a + b) := rfl

theorem isub_some (a b : Int) : isub (some a) (some b) = int32 (a - b) := rfl

theorem imul_some (a b : Int) : imul (some a) (some b) = int32 (a * b) := rfl

theorem allDefined_map {γ β : Type} (f : γ → Option β) (g : γ → β) (l : List γ)
    (h : ∀ a ∈ l, f a = some (g a)) : allDefined (l.map f) = some (l.map g) := by
  induction l with
  | nil => rfl
  | cons a l ih =>
    simp only [List.map_cons, allDefined]
    rw [h a (List.mem_cons_self a l), ih (fun a' ha' => h a' (List.mem_cons_of_mem a ha'))]
    rfl

theorem conv_rows_sizes (W H : Nat) (hW : W % 128 = 0) (hH : H % 4 = 0)
    (hWH : W * H ≤ 2147483647) (it : Item) (hit : convolutionRows_item W H it) :
    W ≤ 536870911 ∧ H ≤ 2147483647 ∧
    0 ≤ ((it.gidY : Int) * 4 + it.lidY) * W ∧
    ((it.gidY : Int) * 4 + it.lidY) * W + W ≤ 2147483647 := by
  obtain ⟨h1, h2, h3, h4⟩ := convolutionRows_item_bounds W H hW hH it hit
  have hW4 : W * 4 ≤ W * H := Nat.mul_le_mul_left W (by omega)
  have hHle : H ≤ W * H := Nat.le_mul_of_pos_left H (by omega)
  have hWHi : (W : Int) * H ≤ 2147483647 := by exact_mod_cast hWH
  have hy : ((it.gidY : Int) * 4 + it.lidY + 1) * W ≤ (H : Int) * W :=
    mul_le_mul_of_nonneg_right (by omega) (by omega)
  have hy0 : 0 ≤ ((it.gidY : Int) * 4 + it.lidY) * W := mul_nonneg (by omega) (by omega)
  have e1 : ((it.gidY : Int) * 4 + it.lidY + 1) * W
      = ((it.gidY : Int) * 4 + it.lidY) * W + W := by ring
  have e2 : (H : Int) * W = W * H := by ring
  refine ⟨by omega, by omega, hy0, by omega⟩

theorem conv_rows_base_eq (W H : Nat) (hW : W % 128 = 0) (hH : H % 4 = 0)
    (hWH : W * H ≤ 2147483647) (it : Item) (hit : convolutionRows_item W H it) :
    conv_rows_base W it
      = some (((it.gidX : Int) * 8 - 1) * 16 + it.lidX, (it.gidY : Int) * 4 + it.lidY,
          ((it.gidY : Int) * 4 + it.lidY) * W + (((it.gidX : Int) * 8 - 1) * 16 + it.lidX)) := by
  obtain ⟨h1, h2, h3, h4⟩ := convolutionRows_item_bounds W H hW hH it hit
  obtain ⟨s1, s2, s3, s4⟩ := conv_rows_sizes W H hW hH hWH it hit
  unfold conv_rows_base
  rw [toInt_eq it.gidX (by omega), toInt_eq it.gidY (by omega), toInt_eq it.lidX (by omega),
    toInt_eq it.lidY (by omega)]
  simp only [ROWS_RESULT_STEPS, ROWS_BLOCKDIM_X, ROWS_BLOCKDIM_Y, ROWS_HALO_STEPS,
    Nat.cast_ofNat, Nat.cast_one]
  simp (disch := omega) only [imul_some, isub_some, iadd_some, int32_eq, Option.bind_eq_bind,
    Option.some_bind, Option.pure_def]

theorem conv_rows_main_eq (lx ly off i : Int) (hl0 : 0 ≤ lx) (hl : lx < 16) (hi0 : 0 ≤ i)
    (hi : i < 10) :
    conv_rows_main lx ly off i = some { row := ly, col := lx + i * 16, srcIdx := some (off + i * 16) } := by
  unfold conv_rows_main
  simp (disch := omega) only [ROWS_BLOCKDIM_X, Nat.cast_ofNat, imul_some, iadd_some, int32_eq,
    Option.bind_eq_bind, Option.some_bind, Option.pure_def]

theorem conv_rows_left_eq (lx ly bX off i : Int) (hl0 : 0 ≤ lx) (hl : lx < 16) (hi0 : 0 ≤ i)
    (hi : i < 10) (hb0 : -16 ≤ bX) (hb : bX ≤ 536870911) :
    conv_rows_left lx ly bX off i
      = some { row := ly, col := lx + i * 16,
               srcIdx := if bX + i * 16 ≥ 0 then some (off + i * 16) else none } := by
  unfold conv_rows_left
  simp (disch := omega) only [ROWS_BLOCKDIM_X, Nat.cast_ofNat, imul_some, iadd_some, int32_eq,
    Option.bind_eq_bind, Option.some_bind, Option.pure_def]
  split <;> rfl

theorem conv_rows_right_eq (w lx ly bX off i : Int) (hl0 : 0 ≤ lx) (hl : lx < 16) (hi0 : 0 ≤ i)
    (hi : i < 10) (hb0 : -16 ≤ bX) (hb : bX ≤ 536870911) :
    conv_rows_right w lx ly bX off i
      = some { row := ly, col := lx + i * 16,
               srcIdx := if bX + i * 16 < w then some (off + i * 16) else none } := by
  unfold conv_rows_right
  simp (disch := omega) only [ROWS_BLOCKDIM_X, Nat.cast_ofNat, imul_some, iadd_some, int32_eq,
    Option.bind_eq_bind, Option.some_bind, Option.pure_def]
  split <;> rfl

theorem conv_rows_tap_eq (R lx ly i j : Int) (hR : R ≤ 16) (hj0 : -R ≤ j) (hj : j ≤ R)
    (hl0 : 0 ≤ lx) (hl : lx < 16) (hi0 : 0 ≤ i) (hi : i < 10) :
    conv_rows_tap R lx ly i j = some { kIdx := R - j, row := ly, col := lx + i * 16 + j } := by
  unfold conv_rows_tap
  simp (disch := omega) only [ROWS_BLOCKDIM_X, Nat.cast_ofNat, imul_some, iadd_some, isub_some,
    int32_eq, Option.bind_eq_bind, Option.some_bind, Option.pure_def]

theorem conv_rows_result_eq (R lx ly off i : Int) (hR : R ≤ 16)
    (hl0 : 0 ≤ lx) (hl : lx < 16) (hi0 : 0 ≤ i) (hi : i < 10) :
    conv_rows_result R lx ly off i
      = some { dstIdx := off + i * 16,
               taps := (radiusSteps R).map
                 (fun j => { kIdx := R - j, row := ly, col := lx + i * 16 + j }) } := by
  unfold conv_rows_result
  rw [allDefined_map (conv_rows_tap R lx ly i)
    (fun j => { kIdx := R - j, row := ly, col := lx + i * 16 + j }) (radiusSteps R)
    (fun j hj => conv_rows_tap_eq R lx ly i j hR ((mem_radiusSteps R j).1 hj).1
      ((mem_radiusSteps R j).1 hj).2 hl0 hl hi0 hi)]
  simp (disch := omega) only [ROWS_BLOCKDIM_X, Nat.cast_ofNat, imul_some, int32_eq,
    Option.bind_eq_bind, Option.some_bind, Option.pure_def]

theorem conv_rows_loads_eq_exact (W H : Nat) (hW : W % 128 = 0) (hH : H % 4 = 0)
    (hWH : W * H ≤ 2147483647) (it : Item) (hit : convolutionRows_item W H it) :
    conv_rows_loads (toInt W) (toInt H) (toInt W) it = some (conv_rows_loads_exact W H W it) := by
  obtain ⟨h1, h2, h3, h4⟩ := convolutionRows_item_bounds W H hW hH it hit
  obtain ⟨s1, s2, s3, s4⟩ := conv_rows_sizes W H hW hH hWH it hit
  have hmain : ∀ i ∈ steps ROWS_HALO_STEPS (ROWS_HALO_STEPS + ROWS_RESULT_STEPS),
      conv_rows_main (it.lidX : Int) (it.lidY : Int)
        (((it.gidY : Int) * 4 + it.lidY) * W + (((it.gidX : Int) * 8 - 1) * 16 + it.lidX)) i
      = some { row := (it.lidY : Int), col := (it.lidX : Int) + i * 16,
               srcIdx := some (((it.gidY : Int) * 4 + it.lidY) * W
                 + (((it.gidX : Int) * 8 - 1) * 16 + it.lidX) + i * 16) } := by
    intro i hi
    rw [mem_steps] at hi
    unfold ROWS_HALO_STEPS ROWS_RESULT_STEPS at hi
    exact conv_rows_main_eq _ _ _ i (by omega) (by omega) (by omega) (by omega)
  have hleft : ∀ i ∈ steps 0 ROWS_HALO_STEPS,
      conv_rows_left (it.lidX : Int) (it.lidY : Int) (((it.gidX : Int) * 8 - 1) * 16 + it.lidX)
        (((it.gidY : Int) * 4 + it.lidY) * W + (((it.gidX : Int) * 8 - 1) * 16 + it.lidX)) i
      = some { row := (it.lidY : Int), col := (it.lidX : Int) + i * 16,
               srcIdx := if ((it.gidX : Int) * 8 - 1) * 16 + it.lidX + i * 16 ≥ 0
                 then some (((it.gidY : Int) * 4 + it.lidY) * W
                   + (((it.gidX : Int) * 8 - 1) * 16 + it.lidX) + i * 16)
                 else none } := by
    intro i hi
    rw [mem_steps] at hi
    unfold ROWS_HALO_STEPS at hi
    exact conv_rows_left_eq _ _ _ _ i (by omega) (by omega) (by omega) (by omega) (by omega)
      (by omega)
  have hright : ∀ i ∈ steps (ROWS_HALO_STEPS + ROWS_RESULT_STEPS)
        (ROWS_HALO_STEPS + ROWS_RESULT_STEPS + ROWS_HALO_STEPS),
      conv_rows_right (W : Int) (it.lidX : Int) (it.lidY : Int)
        (((it.gidX : Int) * 8 - 1) * 16 + it.lidX)
        (((it.gidY : Int) * 4 + it.lidY) * W + (((it.gidX : Int) * 8 - 1) * 16 + it.lidX)) i
      = some { row := (it.lidY : Int), col := (it.lidX : Int) + i * 16,
               srcIdx := if ((it.gidX : Int) * 8 - 1) * 16 + it.lidX + i * 16 < W
                 then some (((it.gidY : Int) * 4 + it.lidY) * W
                   + (((it.gidX : Int) * 8 - 1) * 16 + it.lidX) + i * 16)
                 else none } := by
    intro i hi
    rw [mem_steps] at hi
    unfold ROWS_HALO_STEPS ROWS_RESULT_STEPS at hi
    exact conv_rows_right_eq _ _ _ _ _ i (by omega) (by omega) (by omega) (by omega) (by omega)
      (by omega)
  rw [toInt_eq W (by omega), toInt_eq H (by omega)]
  unfold conv_rows_loads
  rw [toInt_eq it.lidX (by omega), toInt_eq it.lidY (by omega)]
  dsimp only
  rw [bind_some_eq _ _ _ (conv_rows_base_eq W H hW hH hWH it hit),
    bind_some_eq _ _ _ (allDefined_map _ _ _ hmain),
    bind_some_eq _ _ _ (allDefined_map _ _ _ hleft),
    bind_some_eq _ _ _ (allDefined_map _ _ _ hright)]
  rfl

theorem conv_rows_results_eq_exact (R : Int) (W H : Nat) (hR : R ≤ 16) (hW : W % 128 = 0)
    (hH : H % 4 = 0) (hWH : W * H ≤ 2147483647) (it : Item)
    (hit : convolutionRows_item W H it) :
    conv_rows_results R (toInt W) (toInt H) (toInt W) it
      = some (conv_rows_results_exact R W H W it) := by
  obtain ⟨h1, h2, h3, h4⟩ := convolutionRows_item_bounds W H hW hH it hit
  obtain ⟨s1, s2, s3, s4⟩ := conv_rows_sizes W H hW hH hWH it hit
  have hres : ∀ i ∈ steps ROWS_HALO_STEPS (ROWS_HALO_STEPS + ROWS_RESULT_STEPS),
      conv_rows_result R (it.lidX : Int) (it.lidY : Int)
        (((it.gidY : Int) * 4 + it.lidY) * W + (((it.gidX : Int) * 8 - 1) * 16 + it.lidX)) i
      = some { dstIdx := ((it.gidY : Int) * 4 + it.lidY) * W
                 + (((it.gidX : Int) * 8 - 1) * 16 + it.lidX) + i * 16,
               taps := (radiusSteps R).map
                 (fun j => { kIdx := R - j, row := (it.lidY : Int),
                             col := (it.lidX : Int) + i * 16 + j }) } := by
    intro i hi
    rw [mem_steps] at hi
    unfold ROWS_HALO_STEPS ROWS_RESULT_STEPS at hi
    exact conv_rows_result_eq R _ _ _ i hR (by omega) (by omega) (by omega) (by omega)
  rw [toInt_eq W (by omega), toInt_eq H (by omega)]
  unfold conv_rows_results
  rw [toInt_eq it.lidX (by omega), toInt_eq it.lidY (by omega)]
  dsimp only
  rw [bind_some_eq _ _ _ (conv_rows_base_eq W H hW hH hWH it hit),
    allDefined_map _ _ _ hres]
  rfl

theorem conv_rows_eq_exact (R : Int) (W H : Nat) (hR : R ≤ 16) (hW : W % 128 = 0)
    (hH : H % 4 = 0) (hWH : W * H ≤ 2147483647) (it : Item)
    (hit : convolutionRows_item W H it) :
    conv_rows R (toInt W) (toInt H) (toInt W) it = some (conv_rows_exact R W H W it) := by
  unfold conv_rows
  rw [bind_some_eq _ _ _ (conv_rows_loads_eq_exact W H hW hH hWH it hit),
    bind_some_eq _ _ _ (conv_rows_results_eq_exact R W H hR hW hH hWH it hit)]
  rfl

theorem conv_cols_sizes (W H : Nat) (hW : W % 16 = 0) (hH : H % 64 = 0)
    (hWH : W * H ≤ 2147483647) (it : Item) (hit : convolutionColumns_item W H it) :
    64 * W ≤ 2147483647 ∧ H ≤ 2147483647 ∧ (72 < H → 72 * W ≤ 2147483647) ∧
    -2147483648 ≤ (((it.gidY : Int) * 8 - 1) * 8 + it.lidY) * W ∧
    (((it.gidY : Int) * 8 - 1) * 8 + it.lidY) * W + W ≤ 2147483647 := by
  obtain ⟨h1, h2, h3, h4⟩ := convolutionColumns_item_bounds W H hW hH it hit
  have hW64 : W * 64 ≤ W * H := Nat.mul_le_mul_left W (by omega)
  have hHle : H ≤ W * H := Nat.le_mul_of_pos_left H (by omega)
  have hWHi : (W : Int) * H ≤ 2147483647 := by exact_mod_cast hWH
  have hy : ((((it.gidY : Int) * 8 - 1) * 8 + it.lidY) + 1) * W ≤ (H : Int) * W :=
    mul_le_mul_of_nonneg_right (by omega) (by omega)
  have hy0 : 0 ≤ ((((it.gidY : Int) * 8 - 1) * 8 + it.lidY) + 8) * W :=
    mul_nonneg (by omega) (by omega)
  have e1 : ((((it.gidY : Int) * 8 - 1) * 8 + it.lidY) + 1) * W
      = (((it.gidY : Int) * 8 - 1) * 8 + it.lidY) * W + W := by ring
  have e0 : ((((it.gidY : Int) * 8 - 1) * 8 + it.lidY) + 8) * W
      = (((it.gidY : Int) * 8 - 1) * 8 + it.lidY) * W + 8 * W := by ring
  have e2 : (H : Int) * W = W * H := by ring
  refine ⟨by omega, by omega, ?_, by omega, by omega⟩
  intro h72
  have hW72 : W * 72 ≤ W * H := Nat.mul_le_mul_left W (by omega)
  omega

theorem conv_cols_step_sizes (W : Nat) (i : Int) (hi0 : 0 ≤ i) (n : Int) (hi : i * 8 ≤ n)
    (hn : n * W ≤ 2147483647) :
    -2147483648 ≤ i * 8 * W ∧ i * 8 * W ≤ 2147483647 := by
  have h0 : 0 ≤ i * 8 * (W : Int) := mul_nonneg (by omega) (by omega)
  have h1 : i * 8 * (W : Int) ≤ n * W := mul_le_mul_of_nonneg_right hi (by omega)
  omega

theorem conv_cols_base_eq (W H : Nat) (hW : W % 16 = 0) (hH : H % 64 = 0)
    (hWH : W * H ≤ 2147483647) (it : Item) (hit : convolutionColumns_item W H it) :
    conv_cols_base W it
      = some ((it.gidX : Int) * 16 + it.lidX, ((it.gidY : Int) * 8 - 1) * 8 + it.lidY,
          (((it.gidY : Int) * 8 - 1) * 8 + it.lidY) * W + ((it.gidX : Int) * 16 + it.lidX)) := by
  obtain ⟨h1, h2, h3, h4⟩ := convolutionColumns_item_bounds W H hW hH it hit
  obtain ⟨s1, s2, s3, s4, s5⟩ := conv_cols_sizes W H hW hH hWH it hit
  unfold conv_cols_base
  rw [toInt_eq it.gidX (by omega), toInt_eq it.gidY (by omega), toInt_eq it.lidX (by omega),
    toInt_eq it.lidY (by omega)]
  simp only [COLUMNS_RESULT_STEPS, COLUMNS_BLOCKDIM_X, COLUMNS_BLOCKDIM_Y, COLUMNS_HALO_STEPS,
    Nat.cast_ofNat, Nat.cast_one]
  simp (disch := omega) only [imul_some, isub_some, iadd_some, int32_eq, Option.bind_eq_bind,
    Option.some_bind, Option.pure_def]

theorem conv_cols_main_eq (p lx ly off i : Int) (hl0 : 0 ≤ ly) (hl : ly < 8) (hi0 : 0 ≤ i)
    (hi : i < 10) (hk0 : -2147483648 ≤ i * 8 * p) (hk : i * 8 * p ≤ 2147483647) :
    conv_cols_main p lx ly off i
      = some { row := lx, col := ly + i * 8, srcIdx := some (off + i * 8 * p) } := by
  unfold conv_cols_main
  simp (disch := omega) only [COLUMNS_BLOCKDIM_Y, Nat.cast_ofNat, imul_some, iadd_some, int32_eq,
    Option.bind_eq_bind, Option.some_bind, Option.pure_def]

theorem conv_cols_upper_eq (p lx ly bY off i : Int) (hl0 : 0 ≤ ly) (hl : ly < 8) (hi0 : 0 ≤ i)
    (hi : i < 10) (hb0 : -8 ≤ bY) (hb : bY ≤ 2147483527)
    (hk0 : -2147483648 ≤ i * 8 * p) (hk : i * 8 * p ≤ 2147483647) :
    conv_cols_upper p lx ly bY off i
      = some { row := lx, col := ly + i * 8,
               srcIdx := if bY + i * 8 ≥ 0 then some (off + i * 8 * p) else none } := by
  unfold conv_cols_upper
  simp (disch := omega) only [COLUMNS_BLOCKDIM_Y, Nat.cast_ofNat, imul_some, iadd_some, int32_eq,
    Option.bind_eq_bind, Option.some_bind, Option.pure_def]
  split <;> rfl

theorem conv_cols_lower_eq (h p lx ly bY off i : Int) (hl0 : 0 ≤ ly) (hl : ly < 8)
    (hi0 : 0 ≤ i) (hi : i < 10) (hb0 : -8 ≤ bY) (hb : bY ≤ 2147483527)
    (hk : bY + i * 8 < h → -2147483648 ≤ i * 8 * p ∧ i * 8 * p ≤ 2147483647) :
    conv_cols_lower h p lx ly bY off i
      = some { row := lx, col := ly + i * 8,
               srcIdx := if bY + i * 8 < h then some (off + i * 8 * p) else none } := by
  unfold conv_cols_lower
  simp (disch := omega) only [COLUMNS_BLOCKDIM_Y, Nat.cast_ofNat, imul_some, iadd_some, int32_eq,
    Option.bind_eq_bind, Option.some_bind, Option.pure_def]
  split
  · rename_i hc
    obtain ⟨k0, k1⟩ := hk hc
    simp (disch := omega) only [int32_eq, Option.some_bind]
  · rfl

theorem conv_cols_tap_eq (R lx ly i j : Int) (hR : R ≤ 8) (hj0 : -R ≤ j) (hj : j ≤ R)
    (hl0 : 0 ≤ ly) (hl : ly < 8) (hi0 : 0 ≤ i) (hi : i < 10) :
    conv_cols_tap R lx ly i j = some { kIdx := R - j, row := lx, col := ly + i * 8 + j } := by
  unfold conv_cols_tap
  simp (disch := omega) only [COLUMNS_BLOCKDIM_Y, Nat.cast_ofNat, imul_some, iadd_some,
    isub_some, int32_eq, Option.bind_eq_bind, Option.some_bind, Option.pure_def]

theorem conv_cols_result_eq (R p lx ly off i : Int) (hR : R ≤ 8)
    (hl0 : 0 ≤ ly) (hl : ly < 8) (hi0 : 0 ≤ i) (hi : i < 10)
    (hk0 : -2147483648 ≤ i * 8 * p) (hk : i * 8 * p ≤ 2147483647) :
    conv_cols_result R p lx ly off i
      = some { dstIdx := off + i * 8 * p,
               taps := (radiusSteps R).map
                 (fun j => { kIdx := R - j, row := lx, col := ly + i * 8 + j }) } := by
  unfold conv_cols_result
  rw [allDefined_map (conv_cols_tap R lx ly i)
    (fun j => { kIdx := R - j, row := lx, col := ly + i * 8 + j }) (radiusSteps R)
    (fun j hj => conv_cols_tap_eq R lx ly i j hR ((mem_radiusSteps R j).1 hj).1
      ((mem_radiusSteps R j).1 hj).2 hl0 hl hi0 hi)]
  simp (disch := omega) only [COLUMNS_BLOCKDIM_Y, Nat.cast_ofNat, imul_some, int32_eq,
    Option.bind_eq_bind, Option.some_bind, Option.pure_def]

theorem conv_cols_loads_eq_exact (W H : Nat) (hW : W % 16 = 0) (hH : H % 64 = 0)
    (hWH : W * H ≤ 2147483647) (it : Item) (hit : convolutionColumns_item W H it) :
    conv_cols_loads (toInt W) (toInt H) (toInt W) it = some (conv_cols_loads_exact W H W it) := by
  obtain ⟨h1, h2, h3, h4⟩ := convolutionColumns_item_bounds W H hW hH it hit
  obtain ⟨s1, s2, s3, s4, s5⟩ := conv_cols_sizes W H hW hH hWH it hit
  have hmain : ∀ i ∈ steps COLUMNS_HALO_STEPS (COLUMNS_HALO_STEPS + COLUMNS_RESULT_STEPS),
      conv_cols_main (W : Int) (it.lidX : Int) (it.lidY : Int)
        ((((it.gidY : Int) * 8 - 1) * 8 + it.lidY) * W + ((it.gidX : Int) * 16 + it.lidX)) i
      = some { row := (it.lidX : Int), col := (it.lidY : Int) + i * 8,
               srcIdx := some ((((it.gidY : Int) * 8 - 1) * 8 + it.lidY) * W
                 + ((it.gidX : Int) * 16 + it.lidX) + i * 8 * W) } := by
    intro i hi
    rw [mem_steps] at hi
    unfold COLUMNS_HALO_STEPS COLUMNS_RESULT_STEPS at hi
    obtain ⟨k0, k1⟩ := conv_cols_step_sizes W i (by omega) 64 (by omega) (by omega)
    exact conv_cols_main_eq _ _ _ _ i (by omega) (by omega) (by omega) (by omega) k0 k1
  have hupper : ∀ i ∈ steps 0 COLUMNS_HALO_STEPS,
      conv_cols_upper (W : Int) (it.lidX : Int) (it.lidY : Int)
        (((it.gidY : Int) * 8 - 1) * 8 + it.lidY)
        ((((it.gidY : Int) * 8 - 1) * 8 + it.lidY) * W + ((it.gidX : Int) * 16 + it.lidX)) i
      = some { row := (it.lidX : Int), col := (it.lidY : Int) + i * 8,
               srcIdx := if ((it.gidY : Int) * 8 - 1) * 8 + it.lidY + i * 8 ≥ 0
                 then some ((((it.gidY : Int) * 8 - 1) * 8 + it.lidY) * W
                   + ((it.gidX : Int) * 16 + it.lidX) + i * 8 * W)
                 else none } := by
    intro i hi
    rw [mem_steps] at hi
    unfold COLUMNS_HALO_STEPS at hi
    obtain ⟨k0, k1⟩ := conv_cols_step_sizes W i (by omega) 64 (by omega) (by omega)
    exact conv_cols_upper_eq _ _ _ _ _ i (by omega) (by omega) (by omega) (by omega) (by omega)
      (by omega) k0 k1
  have hlower : ∀ i ∈ steps (COLUMNS_HALO_STEPS + COLUMNS_RESULT_STEPS)
        (COLUMNS_HALO_STEPS + COLUMNS_RESULT_STEPS + COLUMNS_HALO_STEPS),
      conv_cols_lower (H : Int) (W : Int) (it.lidX : Int) (it.lidY : Int)
        (((it.gidY : Int) * 8 - 1) * 8 + it.lidY)
        ((((it.gidY : Int) * 8 - 1) * 8 + it.lidY) * W + ((it.gidX : Int) * 16 + it.lidX)) i
      = some { row := (it.lidX : Int), col := (it.lidY : Int) + i * 8,
               srcIdx := if ((it.gidY : Int) * 8 - 1) * 8 + it.lidY + i * 8 < H
                 then some ((((it.gidY : Int) * 8 - 1) * 8 + it.lidY) * W
                   + ((it.gidX : Int) * 16 + it.lidX) + i * 8 * W)
                 else none } := by
    intro i hi
    rw [mem_steps] at hi
    unfold COLUMNS_HALO_STEPS COLUMNS_RESULT_STEPS at hi
    refine conv_cols_lower_eq _ _ _ _ _ _ i (by omega) (by omega) (by omega) (by omega)
      (by omega) (by omega) ?_
    intro hc
    exact conv_cols_step_sizes W i (by omega) 72 (by omega) (by have := s3 (by omega); omega)
  rw [toInt_eq W (by omega), toInt_eq H (by omega)]
  unfold conv_cols_loads
  rw [toInt_eq it.lidX (by omega), toInt_eq it.lidY (by omega)]
  dsimp only
  rw [bind_some_eq _ _ _ (conv_cols_base_eq W H hW hH hWH it hit),
    bind_some_eq _ _ _ (allDefined_map _ _ _ hmain),
    bind_some_eq _ _ _ (allDefined_map _ _ _ hupper),
    bind_some_eq _ _ _ (allDefined_map _ _ _ hlower)]
  rfl

theorem conv_cols_results_eq_exact (R : Int) (W H : Nat) (hR : R ≤ 8) (hW : W % 16 = 0)
    (hH : H % 64 = 0) (hWH : W * H ≤ 2147483647) (it : Item)
    (hit : convolutionColumns_item W H it) :
    conv_cols_results R (toInt W) (toInt H) (toInt W) it
      = some (conv_cols_results_exact R W H W it) := by
  obtain ⟨h1, h2, h3, h4⟩ := convolutionColumns_item_bounds W H hW hH it hit
  obtain ⟨s1, s2, s3, s4, s5⟩ := conv_cols_sizes W H hW hH hWH it hit
  have hres : ∀ i ∈ steps COLUMNS_HALO_STEPS (COLUMNS_HALO_STEPS + COLUMNS_RESULT_STEPS),
      conv_cols_result R (W : Int) (it.lidX : Int) (it.lidY : Int)
        ((((it.gidY : Int) * 8 - 1) * 8 + it.lidY) * W + ((it.gidX : Int) * 16 + it.lidX)) i
      = some { dstIdx := (((it.gidY : Int) * 8 - 1) * 8 + it.lidY) * W
                 + ((it.gidX : Int) * 16 + it.lidX) + i * 8 * W,
               taps := (radiusSteps R).map
                 (fun j => { kIdx := R - j, row := (it.lidX : Int),
                             col := (it.lidY : Int) + i * 8 + j }) } := by
    intro i hi
    rw [mem_steps] at hi
    unfold COLUMNS_HALO_STEPS COLUMNS_RESULT_STEPS at hi
    obtain ⟨k0, k1⟩ := conv_cols_step_sizes W i (by omega) 64 (by omega) (by omega)
    exact conv_cols_result_eq R _ _ _ _ i hR (by omega) (by omega) (by omega) (by omega) k0 k1
  rw [toInt_eq W (by omega), toInt_eq H (by omega)]
  unfold conv_cols_results
  rw [toInt_eq it.lidX (by omega), toInt_eq it.lidY (by omega)]
  dsimp only
  rw [bind_some_eq _ _ _ (conv_cols_base_eq W H hW hH hWH it hit),
    allDefined_map _ _ _ hres]
  rfl

theorem conv_cols_eq_exact (R : Int) (W H : Nat) (hR : R ≤ 8) (hW : W % 16 = 0)
    (hH : H % 64 = 0) (hWH : W * H ≤ 2147483647) (it : Item)
    (hit : convolutionColumns_item W H it) :
    conv_cols R (toInt W) (toInt H) (toInt W) it = some (conv_cols_exact R W H W it) := by
  unfold conv_cols
  rw [bind_some_eq _ _ _ (conv_cols_loads_eq_exact W H hW hH hWH it hit),
    bind_some_eq _ _ _ (conv_cols_results_eq_exact R W H hR hW hH hWH it hit)]
  rfl

/-! ### convolution: a launch whose kernels are all defined -/

theorem runGroup_eq_exact {α : Type} [Zero α] [Add α] [Mul α]
    (kernelOf : Item → Option KernelOps) (loadsOf : Item → List Load)
    (resultsOf : Item → List Result) (src kernel : Int → α) (gx gy : Nat)
    (loadOrder resultOrder : List (Nat × Nat)) (l0 : Int → Int → α) (dst : Int → α)
    (hl : ∀ lid ∈ loadOrder,
      kernelOf { gidX := gx, gidY := gy, lidX := lid.1, lidY := lid.2 }
        = some { loads := loadsOf { gidX := gx, gidY := gy, lidX := lid.1, lidY := lid.2 }
                 results := resultsOf { gidX := gx, gidY := gy, lidX := lid.1, lidY := lid.2 } })
    (hr : ∀ lid ∈ resultOrder,
      kernelOf { gidX := gx, gidY := gy, lidX := lid.1, lidY := lid.2 }
        = some { loads := loadsOf { gidX := gx, gidY := gy, lidX := lid.1, lidY := lid.2 }
                 results := resultsOf { gidX := gx, gidY := gy, lidX := lid.1, lidY := lid.2 } }) :
    runGroup kernelOf src kernel gx gy loadOrder resultOrder l0 dst
      = some (runGroup_exact loadsOf resultsOf src kernel gx gy loadOrder resultOrder l0 dst) := by
  unfold runGroup runGroup_exact
  rw [bind_some_eq _ _ _ (foldlM_option_some _
    (fun l lid => runLoads src
      (loadsOf { gidX := gx, gidY := gy, lidX := lid.1, lidY := lid.2 }) l)
    loadOrder (fun lid hlid l => by rw [hl lid hlid]; rfl) l0)]
  exact foldlM_option_some _ _ resultOrder (fun lid hlid d => by rw [hr lid hlid]; rfl) dst

theorem runLaunch_eq_exact {α : Type} [Zero α] [Add α] [Mul α]
    (kernelOf : Item → Option KernelOps) (loadsOf : Item → List Load)
    (resultsOf : Item → List Result) (src kernel : Int → α) (s : Schedule)
    (l0 : Nat → Nat → Int → Int → α) (dst : Int → α)
    (h : ∀ g ∈ s.groups, ∀ lid, lid ∈ s.loads g.1 g.2 ∨ lid ∈ s.results g.1 g.2 →
      kernelOf { gidX := g.1, gidY := g.2, lidX := lid.1, lidY := lid.2 }
        = some { loads := loadsOf { gidX := g.1, gidY := g.2, lidX := lid.1, lidY := lid.2 }
                 results :=
                   resultsOf { gidX := g.1, gidY := g.2, lidX := lid.1, lidY := lid.2 } }) :
    runLaunch kernelOf src kernel s l0 dst
      = some (runLaunch_exact loadsOf resultsOf src kernel s l0 dst) := by
  unfold runLaunch runLaunch_exact
  exact foldlM_option_some _ _ s.groups
    (fun g hg d => runGroup_eq_exact kernelOf loadsOf resultsOf src kernel g.1 g.2 _ _ _ d
      (fun lid hlid => h g hg lid (Or.inl hlid)) (fun lid hlid => h g hg lid (Or.inr hlid)))
    dst

theorem runGroup_undefined {α : Type} [Zero α] [Add α] [Mul α]
    (kernelOf : Item → Option KernelOps) (src kernel : Int → α) (gx gy : Nat)
    (loadOrder resultOrder : List (Nat × Nat)) (l0 : Int → Int → α) (dst : Int → α)
    (lid : Nat × Nat) (hlid : lid ∈ loadOrder)
    (hk : kernelOf { gidX := gx, gidY := gy, lidX := lid.1, lidY := lid.2 } = none) :
    runGroup kernelOf src kernel gx gy loadOrder resultOrder l0 dst = none := by
  unfold runGroup
  rw [foldlM_option_none _ loadOrder lid hlid (fun l => by rw [hk]; rfl) l0]
  rfl

theorem runLaunch_undefined {α : Type} [Zero α] [Add α] [Mul α]
    (kernelOf : Item → Option KernelOps) (src kernel : Int → α) (s : Schedule)
    (l0 : Nat → Nat → Int → Int → α) (dst : Int → α)
    (g : Nat × Nat) (hg : g ∈ s.groups) (lid : Nat × Nat) (hlid : lid ∈ s.loads g.1 g.2)
    (hk : kernelOf { gidX := g.1, gidY := g.2, lidX := lid.1, lidY := lid.2 } = none) :
    runLaunch kernelOf src kernel s l0 dst = none := by
  unfold runLaunch
  exact foldlM_option_none _ s.groups g hg
    (fun d => runGroup_undefined kernelOf src kernel g.1 g.2 _ _ _ d lid hlid hk) dst

theorem convolutionRows_eq_exact {α : Type} [Zero α] [Add α] [Mul α] (R : Int)
    (dst src kernel : Int → α) (W H pitch : Nat) (s : Schedule)
    (l0 : Nat → Nat → Int → Int → α)
    (hpre : convolutionRows_asserts R W H) (hWH : W * H ≤ 2147483647)
    (hs : s.Valid (convolutionRows_grid W H).1 (convolutionRows_grid W H).2
      ROWS_BLOCKDIM_X ROWS_BLOCKDIM_Y) :
    convolutionRows R dst src kernel W H pitch s l0
      = some (convolutionRows_exact R dst src kernel W H pitch s l0) := by
  obtain ⟨hR, hW, hH⟩ := hpre
  obtain ⟨hgroups, hitems⟩ := hs
  unfold convolutionRows convolutionRows_exact
  apply runLaunch_eq_exact
  intro g hg lid hlid
  have hg' := (hgroups.mem_iff g).1 hg
  have hlid' : lid.1 < ROWS_BLOCKDIM_X ∧ lid.2 < ROWS_BLOCKDIM_Y := by
    rcases hlid with hl | hl
    · exact ((hitems g hg).1.mem_iff lid).1 hl
    · exact ((hitems g hg).2.mem_iff lid).1 hl
  exact conv_rows_eq_exact R W H hR hW hH hWH _ ⟨hg'.1, hg'.2, hlid'.1, hlid'.2⟩

theorem convolutionColumns_eq_exact {α : Type} [Zero α] [Add α] [Mul α] (R : Int)
    (dst src kernel : Int → α) (W H pitch : Nat) (s : Schedule)
    (l0 : Nat → Nat → Int → Int → α)
    (hpre : convolutionColumns_asserts R W H) (hWH : W * H ≤ 2147483647)
    (hs : s.Valid (convolutionColumns_grid W H).1 (convolutionColumns_grid W H).2
      COLUMNS_BLOCKDIM_X COLUMNS_BLOCKDIM_Y) :
    convolutionColumns R dst src kernel W H pitch s l0
      = some (convolutionColumns_exact R dst src kernel W H pitch s l0) := by
  obtain ⟨hR, hW, hH⟩ := hpre
  obtain ⟨hgroups, hitems⟩ := hs
  unfold convolutionColumns convolutionColumns_exact
  apply runLaunch_eq_exact
  intro g hg lid hlid
  have hg' := (hgroups.mem_iff g).1 hg
  have hlid' : lid.1 < COLUMNS_BLOCKDIM_X ∧ lid.2 < COLUMNS_BLOCKDIM_Y := by
    rcases hlid with hl | hl
    · exact ((hitems g hg).1.mem_iff lid).1 hl
    · exact ((hitems g hg).2.mem_iff lid).1 hl
  exact conv_cols_eq_exact R W H hR hW hH hWH _ ⟨hg'.1, hg'.2, hlid'.1, hlid'.2⟩

/-! ### convolution: claims -/

/-- C6 (counterexample). On a 65536 x 32772 image the three asserts of
`convolutionRows` pass (`65536 % 128 = 0`, `32772 % 4 = 0`), and the launched
work-item of group `(0, 8192)` with local id `(0, 3)` has `baseY = 32771`, so
that the `int` product `baseY * pitch = 32771 * 65536 = 2147680256` exceeds
`INT_MAX`: the offset added to `src` and `dst` is not defined, and the
work-item has no in-bounds accesses to speak of. -/
theorem conv_rows_overflows :
    convolutionRows_asserts 8 65536 32772 ∧
    convolutionRows_item 65536 32772 { gidX := 0, gidY := 8192, lidX := 0, lidY := 3 } ∧
    toInt 65536 = 65536 ∧ toInt 32772 = 32772 ∧
    (8192 * 4 + 3 : Int) * 65536 = 2147680256 ∧
    imul (some (8192 * 4 + 3)) (some (toInt 65536)) = none ∧
    conv_rows_base (toInt 65536) { gidX := 0, gidY := 8192, lidX := 0, lidY := 3 } = none ∧
    conv_rows 8 (toInt 65536) (toInt 32772) (toInt 65536)
      { gidX := 0, gidY := 8192, lidX := 0, lidY := 3 } = none :=
  ⟨by unfold convolutionRows_asserts; decide, by unfold convolutionRows_item; decide,
   by decide, by decide, by decide, rfl, rfl, rfl⟩

/-- C6 (amended). Under the three preconditions asserted by `convolutionRows`
and for an image with `imageW * imageH <= 2 ^ 31 - 1`, every `int` expression
of every launched work-item of `conv_rows` is defined and every access is in
bounds: the scratch array is 4 x 160 with
`160 = (ROWS_RESULT_STEPS + 2 * ROWS_HALO_STEPS) * ROWS_BLOCKDIM_X`; each
store into and each read from `l_Data` lies inside it; each kernel index lies
in `[0, 2 * R]`; each read of `src` that is performed and each write of `dst`
has a linear index in `[0, imageW * imageH)`; and a halo load reads `src`
exactly when its column lies in `[0, imageW)`. -/
theorem conv_rows_in_bounds (R : Int) (W H : Nat)
    (hpre : convolutionRows_asserts R W H) (hWH : W * H ≤ 2147483647) (it : Item)
    (hit : convolutionRows_item W H it) :
    convolutionRows_l_Data_range = (4, 160) ∧
    convolutionRows_l_Data_range.1 = ROWS_BLOCKDIM_Y ∧
    convolutionRows_l_Data_range.2
      = (ROWS_RESULT_STEPS + 2 * ROWS_HALO_STEPS) * ROWS_BLOCKDIM_X ∧
    ∃ ops : KernelOps,
      conv_rows R (toInt W) (toInt H) (toInt W) it = some ops ∧
      (∀ op ∈ ops.loads,
        0 ≤ op.row ∧ op.row < (convolutionRows_l_Data_range.1 : Int) ∧
        0 ≤ op.col ∧ op.col < (convolutionRows_l_Data_range.2 : Int) ∧
        (∀ k, op.srcIdx = some k → 0 ≤ k ∧ k < (W : Int) * H) ∧
        op.srcIdx =
          if 0 ≤ (it.gidX : Int) * 128 - 16 + op.col ∧ (it.gidX : Int) * 128 - 16 + op.col < W
          then some (((it.gidY : Int) * 4 + it.lidY) * W + ((it.gidX : Int) * 128 - 16 + op.col))
          else none) ∧
      (∀ op ∈ ops.results,
        0 ≤ op.dstIdx ∧ op.dstIdx < (W : Int) * H ∧
        ∀ t ∈ op.taps,
          0 ≤ t.kIdx ∧ t.kIdx ≤ 2 * R ∧
          0 ≤ t.row ∧ t.row < (convolutionRows_l_Data_range.1 : Int) ∧
          0 ≤ t.col ∧ t.col < (convolutionRows_l_Data_range.2 : Int)) := by
  obtain ⟨g1, g2, g3, g4, g5⟩ := conv_rows_exact_in_bounds R W H hpre it hit
  obtain ⟨hR, hW, hH⟩ := hpre
  exact ⟨g1, g2, g3, conv_rows_exact R W H W it,
    conv_rows_eq_exact R W H hR hW hH hWH it hit, g4, g5⟩

/-- Witness for C6 (amended): radius 8 on a 128 x 4 image, at the work-item
with local id (3, 1) of the only group. -/
theorem conv_rows_in_bounds_witness :
    convolutionRows_asserts 8 128 4 ∧ 128 * 4 ≤ 2147483647 ∧
    convolutionRows_item 128 4 { gidX := 0, gidY := 0, lidX := 3, lidY := 1 } ∧
    ∃ ops : KernelOps,
      conv_rows 8 (toInt 128) (toInt 4) (toInt 128)
        { gidX := 0, gidY := 0, lidX := 3, lidY := 1 } = some ops ∧
      (∀ op ∈ ops.results,
        0 ≤ op.dstIdx ∧ op.dstIdx < ((128 : Nat) : Int) * (4 : Nat) ∧
        ∀ t ∈ op.taps,
          0 ≤ t.kIdx ∧ t.kIdx ≤ 2 * 8 ∧
          0 ≤ t.row ∧ t.row < (convolutionRows_l_Data_range.1 : Int) ∧
          0 ≤ t.col ∧ t.col < (convolutionRows_l_Data_range.2 : Int)) :=
  ⟨by unfold convolutionRows_asserts; decide, by decide,
   by unfold convolutionRows_item; decide,
   (conv_rows_in_bounds 8 128 4 (by unfold convolutionRows_asserts; decide) (by decide)
      { gidX := 0, gidY := 0, lidX := 3, lidY := 1 }
      (by unfold convolutionRows_item; decide)).2.2.2.elim
     (fun ops h => ⟨ops, h.1, h.2.2⟩)⟩

/-- C7 (counterexample). On a 16 x 134217856 image the three asserts of
`convolutionColumns` pass (`16 % 16 = 0`, `134217856 % 64 = 0`), and the
launched work-item of group `(0, 2097153)` with local id `(0, 0)` has
`baseY = (2097153 * 8 - 1) * 8 = 134217784`, so that the `int` product
`baseY * pitch = 134217784 * 16 = 2147484544` exceeds `INT_MAX`: the offset
added to `src` and `dst` is not defined. -/
theorem conv_cols_overflows :
    convolutionColumns_asserts 8 16 134217856 ∧
    convolutionColumns_item 16 134217856 { gidX := 0, gidY := 2097153, lidX := 0, lidY := 0 } ∧
    toInt 16 = 16 ∧ toInt 134217856 = 134217856 ∧
    ((2097153 * 8 - 1) * 8 + 0 : Int) * 16 = 2147484544 ∧
    imul (some ((2097153 * 8 - 1) * 8 + 0)) (some (toInt 16)) = none ∧
    conv_cols_base (toInt 16) { gidX := 0, gidY := 2097153, lidX := 0, lidY := 0 } = none ∧
    conv_cols 8 (toInt 16) (toInt 134217856) (toInt 16)
      { gidX := 0, gidY := 2097153, lidX := 0, lidY := 0 } = none :=
  ⟨by unfold convolutionColumns_asserts; decide, by unfold convolutionColumns_item; decide,
   by decide, by decide, by decide, rfl, rfl, rfl⟩

/-- C7 (amended). Under the three preconditions asserted by
`convolutionColumns` and for an image with `imageW * imageH <= 2 ^ 31 - 1`,
every `int` expression of every launched work-item of `conv_cols` is defined
and every access is in bounds: the scratch array is 16 x 81 with
`81 = (COLUMNS_RESULT_STEPS + 2 * COLUMNS_HALO_STEPS) * COLUMNS_BLOCKDIM_Y + 1`;
each store into and each read from `l_Data` lies inside it; each kernel index
lies in `[0, 2 * R]`; each read of `src` that is performed and each write of
`dst` has a linear index in `[0, imageW * imageH)`; and a halo load reads
`src` exactly when its row lies in `[0, imageH)`. -/
theorem conv_cols_in_bounds (R : Int) (W H : Nat)
    (hpre : convolutionColumns_asserts R W H) (hWH : W * H ≤ 2147483647) (it : Item)
    (hit : convolutionColumns_item W H it) :
    convolutionColumns_l_Data_range = (16, 81) ∧
    convolutionColumns_l_Data_range.1 = COLUMNS_BLOCKDIM_X ∧
    convolutionColumns_l_Data_range.2
      = (COLUMNS_RESULT_STEPS + 2 * COLUMNS_HALO_STEPS) * COLUMNS_BLOCKDIM_Y + 1 ∧
    ∃ ops : KernelOps,
      conv_cols R (toInt W) (toInt H) (toInt W) it = some ops ∧
      (∀ op ∈ ops.loads,
        0 ≤ op.row ∧ op.row < (convolutionColumns_l_Data_range.1 : Int) ∧
        0 ≤ op.col ∧ op.col < (convolutionColumns_l_Data_range.2 : Int) ∧
        (∀ k, op.srcIdx = some k → 0 ≤ k ∧ k < (W : Int) * H) ∧
        op.srcIdx =
          if 0 ≤ (it.gidY : Int) * 64 - 8 + op.col ∧ (it.gidY : Int) * 64 - 8 + op.col < H
          then some (((it.gidY : Int) * 64 - 8 + op.col) * W + ((it.gidX : Int) * 16 + it.lidX))
          else none) ∧
      (∀ op ∈ ops.results,
        0 ≤ op.dstIdx ∧ op.dstIdx < (W : Int) * H ∧
        ∀ t ∈ op.taps,
          0 ≤ t.kIdx ∧ t.kIdx ≤ 2 * R ∧
          0 ≤ t.row ∧ t.row < (convolutionColumns_l_Data_range.1 : Int) ∧
          0 ≤ t.col ∧ t.col < (convolutionColumns_l_Data_range.2 : Int)) := by
  obtain ⟨g1, g2, g3, g4, g5⟩ := conv_cols_exact_in_bounds R W H hpre it hit
  obtain ⟨hR, hW, hH⟩ := hpre
  exact ⟨g1, g2, g3, conv_cols_exact R W H W it,
    conv_cols_eq_exact R W H hR hW hH hWH it hit, g4, g5⟩

/-- Witness for C7 (amended): radius 8 on a 16 x 64 image, at the work-item
with local id (3, 1) of the only group. -/
theorem conv_cols_in_bounds_witness :
    convolutionColumns_asserts 8 16 64 ∧ 16 * 64 ≤ 2147483647 ∧
    convolutionColumns_item 16 64 { gidX := 0, gidY := 0, lidX := 3, lidY := 1 } ∧
    ∃ ops : KernelOps,
      conv_cols 8 (toInt 16) (toInt 64) (toInt 16)
        { gidX := 0, gidY := 0, lidX := 3, lidY := 1 } = some ops ∧
      (∀ op ∈ ops.results,
        0 ≤ op.dstIdx ∧ op.dstIdx < ((16 : Nat) : Int) * (64 : Nat) ∧
        ∀ t ∈ op.taps,
          0 ≤ t.kIdx ∧ t.kIdx ≤ 2 * 8 ∧
          0 ≤ t.row ∧ t.row < (convolutionColumns_l_Data_range.1 : Int) ∧
          0 ≤ t.col ∧ t.col < (convolutionColumns_l_Data_range.2 : Int)) :=
  ⟨by unfold convolutionColumns_asserts; decide, by decide,
   by unfold convolutionColumns_item; decide,
   (conv_cols_in_bounds 8 16 64 (by unfold convolutionColumns_asserts; decide) (by decide)
      { gidX := 0, gidY := 0, lidX := 3, lidY := 1 }
      (by unfold convolutionColumns_item; decide)).2.2.2.elim
     (fun ops h => ⟨ops, h.1, h.2.2⟩)⟩

/-- C9 (counterexample). On a 65536 x 32772 image the asserts of
`convolutionRows` pass and the launch has 512 x 8193 groups; in the row-major
schedule the work-item of group `(0, 8192)` with local id `(0, 3)` evaluates
the `int` product `32771 * 65536 = 2147680256 > INT_MAX`, so the launch has
undefined behaviour and yields no `dst`, whatever the buffers hold. -/
theorem convolutionRows_overflows :
    convolutionRows_asserts 8 65536 32772 ∧
    convolutionRows_grid 65536 32772 = (512, 8193) ∧
    (Schedule.rowMajor 512 8193 ROWS_BLOCKDIM_X ROWS_BLOCKDIM_Y).Valid 512 8193
      ROWS_BLOCKDIM_X ROWS_BLOCKDIM_Y ∧
    ∀ (dst src kernel : Int → Int) (l0 : Nat → Nat → Int → Int → Int),
      convolutionRows 8 dst src kernel 65536 32772 65536
        (Schedule.rowMajor 512 8193 ROWS_BLOCKDIM_X ROWS_BLOCKDIM_Y) l0 = none :=
    by
  have hs := rowMajor_valid 512 8193 ROWS_BLOCKDIM_X ROWS_BLOCKDIM_Y
  have hg : ((0 : Nat), (8192 : Nat))
      ∈ (Schedule.rowMajor 512 8193 ROWS_BLOCKDIM_X ROWS_BLOCKDIM_Y).groups :=
    (hs.1.mem_iff (0, 8192)).2 ⟨by decide, by decide⟩
  have hlid : ((0 : Nat), (3 : Nat))
      ∈ (Schedule.rowMajor 512 8193 ROWS_BLOCKDIM_X ROWS_BLOCKDIM_Y).loads 0 8192 :=
    ((hs.2 (0, 8192) hg).1.mem_iff (0, 3)).2 ⟨by decide, by decide⟩
  refine ⟨by unfold convolutionRows_asserts; decide, by decide, hs, ?_⟩
  intro dst src kernel l0
  exact runLaunch_undefined
    (fun it => conv_rows 8 (toInt 65536) (toInt 32772) (toInt 65536) it) src kernel
    (Schedule.rowMajor 512 8193 ROWS_BLOCKDIM_X ROWS_BLOCKDIM_Y) l0 dst (0, 8192) hg (0, 3) hlid
    rfl

/-- C9 (amended). Under the preconditions asserted by `convolutionRows` and
for an image with `imageW * imageH <= 2 ^ 31 - 1`, for every schedule of the
launch and every initial content of `dst` and of the scratch arrays, the
launch is defined and after it: every pixel `(x, y)` of the image holds in
`dst[y * imageW + x]` the sum, accumulated from 0 in the order `j = -R .. R`,
of `kernel[R - j] * s(x + j, y)` with `s` the zero-padded row sample (row
stride `imageW`, whatever the `pitch` argument); exactly one pair of a
launched work-item and one of its result steps stores into that pixel; and
`dst` is untouched outside the image. -/
theorem convolutionRows_spec {α : Type} [Zero α] [Add α] [Mul α] (R : Int)
    (dst src kernel : Int → α) (W H pitch : Nat) (s : Schedule)
    (l0 : Nat → Nat → Int → Int → α)
    (hpre : convolutionRows_asserts R W H) (hWH : W * H ≤ 2147483647)
    (hs : s.Valid (convolutionRows_grid W H).1 (convolutionRows_grid W H).2
      ROWS_BLOCKDIM_X ROWS_BLOCKDIM_Y) :
    ∃ result : Int → α,
      convolutionRows R dst src kernel W H pitch s l0 = some result ∧
      (∀ x y : Nat, x < W → y < H →
        result ((y : Int) * W + x) = rowConvolution R src kernel W x y) ∧
      (∀ x y : Nat, x < W → y < H →
        ∃! w : Item × Nat, convolutionRows_item W H w.1 ∧
          (conv_rows R (toInt W) (toInt H) (toInt W) w.1).bind
              (fun ops => (ops.results[w.2]?).map Result.dstIdx)
            = some ((y : Int) * W + x)) ∧
      (∀ p : Int, (p < 0 ∨ (W : Int) * H ≤ p) → result p = dst p) := by
  obtain ⟨g1, g2, g3⟩ := convolutionRows_exact_spec R dst src kernel W H pitch s l0 hpre hs
  refine ⟨convolutionRows_exact R dst src kernel W H pitch s l0,
    convolutionRows_eq_exact R dst src kernel W H pitch s l0 hpre hWH hs, g1, ?_, g3⟩
  obtain ⟨hR, hW, hH⟩ := hpre
  intro x y hx hy
  obtain ⟨w, ⟨hw1, hw2⟩, huniq⟩ := g2 x y hx hy
  refine ⟨w, ⟨hw1, ?_⟩, ?_⟩
  · rw [conv_rows_eq_exact R W H hR hW hH hWH w.1 hw1, Option.some_bind]
    exact hw2
  · rintro w' ⟨hw1', hw2'⟩
    apply huniq
    refine ⟨hw1', ?_⟩
    rw [conv_rows_eq_exact R W H hR hW hH hWH w'.1 hw1', Option.some_bind] at hw2'
    exact hw2'

/-- Witness for C9 (amended): radius 1 on a 128 x 4 image in row-major
schedule, at the pixel `(5, 1)`. -/
theorem convolutionRows_spec_witness :
    convolutionRows_asserts 1 128 4 ∧ 128 * 4 ≤ 2147483647 ∧
    (Schedule.rowMajor (convolutionRows_grid 128 4).1 (convolutionRows_grid 128 4).2
      ROWS_BLOCKDIM_X ROWS_BLOCKDIM_Y).Valid
      (convolutionRows_grid 128 4).1 (convolutionRows_grid 128 4).2
      ROWS_BLOCKDIM_X ROWS_BLOCKDIM_Y ∧
    ∃ result : Int → Int,
      convolutionRows (1 : Int) (fun _ => (0 : Int)) (fun k => k) (fun k => k + 1) 128 4 128
          (Schedule.rowMajor (convolutionRows_grid 128 4).1 (convolutionRows_grid 128 4).2
            ROWS_BLOCKDIM_X ROWS_BLOCKDIM_Y)
          (fun _ _ _ _ => 0) = some result ∧
      result (((1 : Nat) : Int) * (128 : Nat) + (5 : Nat))
        = rowConvolution 1 (fun k => k) (fun k => k + 1) (128 : Nat) (5 : Nat) (1 : Nat) :=
  ⟨by unfold convolutionRows_asserts; decide, by decide, rowMajor_valid _ _ _ _,
   (convolutionRows_spec (1 : Int) (fun _ => (0 : Int)) (fun k => k) (fun k => k + 1) 128 4 128
      (Schedule.rowMajor (convolutionRows_grid 128 4).1 (convolutionRows_grid 128 4).2
        ROWS_BLOCKDIM_X ROWS_BLOCKDIM_Y)
      (fun _ _ _ _ => 0) (by unfold convolutionRows_asserts; decide) (by decide)
      (rowMajor_valid _ _ _ _)).elim
     (fun result h => ⟨result, h.1, h.2.1 5 1 (by decide) (by decide)⟩)⟩

/-- C10 (counterexample). On a 16 x 134217856 image the asserts of
`convolutionColumns` pass and the launch has 1 x 2097154 groups; in the
row-major schedule the work-item of group `(0, 2097153)` with local id
`(0, 0)` evaluates the `int` product `134217784 * 16 = 2147484544 > INT_MAX`,
so the launch has undefined behaviour and yields no `dst`, whatever the
buffers hold. -/
theorem convolutionColumns_overflows :
    convolutionColumns_asserts 8 16 134217856 ∧
    convolutionColumns_grid 16 134217856 = (1, 2097154) ∧
    (Schedule.rowMajor 1 2097154 COLUMNS_BLOCKDIM_X COLUMNS_BLOCKDIM_Y).Valid 1 2097154
      COLUMNS_BLOCKDIM_X COLUMNS_BLOCKDIM_Y ∧
    ∀ (dst src kernel : Int → Int) (l0 : Nat → Nat → Int → Int → Int),
      convolutionColumns 8 dst src kernel 16 134217856 16
        (Schedule.rowMajor 1 2097154 COLUMNS_BLOCKDIM_X COLUMNS_BLOCKDIM_Y) l0 = none :=
    by
  have hs := rowMajor_valid 1 2097154 COLUMNS_BLOCKDIM_X COLUMNS_BLOCKDIM_Y
  have hg : ((0 : Nat), (2097153 : Nat))
      ∈ (Schedule.rowMajor 1 2097154 COLUMNS_BLOCKDIM_X COLUMNS_BLOCKDIM_Y).groups :=
    (hs.1.mem_iff (0, 2097153)).2 ⟨by decide, by decide⟩
  have hlid : ((0 : Nat), (0 : Nat))
      ∈ (Schedule.rowMajor 1 2097154 COLUMNS_BLOCKDIM_X COLUMNS_BLOCKDIM_Y).loads 0 2097153 :=
    ((hs.2 (0, 2097153) hg).1.mem_iff (0, 0)).2 ⟨by decide, by decide⟩
  refine ⟨by unfold convolutionColumns_asserts; decide, by decide, hs, ?_⟩
  intro dst src kernel l0
  exact runLaunch_undefined
    (fun it => conv_cols 8 (toInt 16) (toInt 134217856) (toInt 16) it) src kernel
    (Schedule.rowMajor 1 2097154 COLUMNS_BLOCKDIM_X COLUMNS_BLOCKDIM_Y) l0 dst (0, 2097153) hg
    (0, 0) hlid rfl

/-- C10 (amended). Under the preconditions asserted by `convolutionColumns`
and for an image with `imageW * imageH <= 2 ^ 31 - 1`, for every schedule of
the launch and every initial content of `dst` and of the scratch arrays, the
launch is defined and after it: every pixel `(x, y)` of the image holds in
`dst[y * imageW + x]` the sum, accumulated from 0 in the order `j = -R .. R`,
of `kernel[R - j] * s(x, y + j)` with `s` the zero-padded column sample;
exactly one pair of a launched work-item and one of its result steps stores
into that pixel; and `dst` is untouched outside the image. -/
theorem convolutionColumns_spec {α : Type} [Zero α] [Add α] [Mul α] (R : Int)
    (dst src kernel : Int → α) (W H pitch : Nat) (s : Schedule)
    (l0 : Nat → Nat → Int → Int → α)
    (hpre : convolutionColumns_asserts R W H) (hWH : W * H ≤ 2147483647)
    (hs : s.Valid (convolutionColumns_grid W H).1 (convolutionColumns_grid W H).2
      COLUMNS_BLOCKDIM_X COLUMNS_BLOCKDIM_Y) :
    ∃ result : Int → α,
      convolutionColumns R dst src kernel W H pitch s l0 = some result ∧
      (∀ x y : Nat, x < W → y < H →
        result ((y : Int) * W + x) = columnConvolution R src kernel W H x y) ∧
      (∀ x y : Nat, x < W → y < H →
        ∃! w : Item × Nat, convolutionColumns_item W H w.1 ∧
          (conv_cols R (toInt W) (toInt H) (toInt W) w.1).bind
              (fun ops => (ops.results[w.2]?).map Result.dstIdx)
            = some ((y : Int) * W + x)) ∧
      (∀ p : Int, (p < 0 ∨ (W : Int) * H ≤ p) → result p = dst p) := by
  obtain ⟨g1, g2, g3⟩ := convolutionColumns_exact_spec R dst src kernel W H pitch s l0 hpre hs
  refine ⟨convolutionColumns_exact R dst src kernel W H pitch s l0,
    convolutionColumns_eq_exact R dst src kernel W H pitch s l0 hpre hWH hs, g1, ?_, g3⟩
  obtain ⟨hR, hW, hH⟩ := hpre
  intro x y hx hy
  obtain ⟨w, ⟨hw1, hw2⟩, huniq⟩ := g2 x y hx hy
  refine ⟨w, ⟨hw1, ?_⟩, ?_⟩
  · rw [conv_cols_eq_exact R W H hR hW hH hWH w.1 hw1, Option.some_bind]
    exact hw2
  · rintro w' ⟨hw1', hw2'⟩
    apply huniq
    refine ⟨hw1', ?_⟩
    rw [conv_cols_eq_exact R W H hR hW hH hWH w'.1 hw1', Option.some_bind] at hw2'
    exact hw2'

/-- Witness for C10 (amended): radius 1 on a 16 x 64 image in row-major
schedule, at the pixel `(5, 1)`. -/
theorem convolutionColumns_spec_witness :
    convolutionColumns_asserts 1 16 64 ∧ 16 * 64 ≤ 2147483647 ∧
    (Schedule.rowMajor (convolutionColumns_grid 16 64).1 (convolutionColumns_grid 16 64).2
      COLUMNS_BLOCKDIM_X COLUMNS_BLOCKDIM_Y).Valid
      (convolutionColumns_grid 16 64).1 (convolutionColumns_grid 16 64).2
      COLUMNS_BLOCKDIM_X COLUMNS_BLOCKDIM_Y ∧
    ∃ result : Int → Int,
      convolutionColumns (1 : Int) (fun _ => (0 : Int)) (fun k => k) (fun k => k + 1) 16 64 16
          (Schedule.rowMajor (convolutionColumns_grid 16 64).1 (convolutionColumns_grid 16 64).2
            COLUMNS_BLOCKDIM_X COLUMNS_BLOCKDIM_Y)
          (fun _ _ _ _ => 0) = some result ∧
      result (((1 : Nat) : Int) * (16 : Nat) + (5 : Nat))
        = columnConvolution 1 (fun k => k) (fun k => k + 1) (16 : Nat) (64 : Nat) (5 : Nat)
            (1 : Nat) :=
  ⟨by unfold convolutionColumns_asserts; decide, by decide, rowMajor_valid _ _ _ _,
   (convolutionColumns_spec (1 : Int) (fun _ => (0 : Int)) (fun k => k) (fun k => k + 1) 16 64 16
      (Schedule.rowMajor (convolutionColumns_grid 16 64).1 (convolutionColumns_grid 16 64).2
        COLUMNS_BLOCKDIM_X COLUMNS_BLOCKDIM_Y)
      (fun _ _ _ _ => 0) (by unfold convolutionColumns_asserts; decide) (by decide)
      (rowMajor_valid _ _ _ _)).elim
     (fun result h => ⟨result, h.1, h.2.1 5 1 (by decide) (by decide)⟩)⟩

end HeCBench
